import Mathlib

/-!
# Incremental LR parser runtime (`src/runtime/parser.c`)

A shallow embedding of the parse driver and of the edit reconciler of
`parser.c`, followed by theorems about them.

Conventions of the embedding

* `size_t` arithmetic that is written out in `parser.c` (`total_chars`,
  `right_subtree_start`, `index_before_error`, the child counts) is modelled on
  `Nat` with an explicit reduction modulo `2 ^ 64` (`size_add`, `size_sub`).
* `length.h`, `tree.h`, `stack.h`, `lexer.h` and the public headers are not part
  of the sources at hand; the helpers they provide are modelled from the
  specification and are marked as such.
* A pointer that may be `NULL` is an `Option`; loops that C runs with `for (;;)`
  take a fuel argument and return `none` when the fuel is exhausted or when the
  C code would read outside of an array.
-/

set_option autoImplicit false

namespace TreeSitter

/-! ## Machine words -/

/-- Number of values of a `size_t`. -/
def SIZE_MOD : Nat := 2 ^ 64

/-- Addition of two `size_t` values. -/
def size_add (a b : Nat) : Nat := (a + b) % SIZE_MOD

/-- Subtraction of two `size_t` values; wraps around below zero. -/
def size_sub (a b : Nat) : Nat := (a + (SIZE_MOD - b % SIZE_MOD)) % SIZE_MOD

/-! ## Lengths -/

/-- Modelled from the spec: `length.h` is absent. §3 "Length": a span
`(chars, rows, columns)`. -/
structure TSLength where
  chars : Nat
  rows : Nat
  columns : Nat
  deriving DecidableEq, Repr

/-- Modelled from the spec: `ts_length_zero` of the absent `length.h`; §3 "Zero is
additive identity". -/
def ts_length_zero : TSLength := ⟨0, 0, 0⟩

/-- Modelled from the spec: `ts_length_add` of the absent `length.h`; §4.1: chars
and rows add, and a right operand with `rows > 0` resets the column origin. -/
def ts_length_add (a b : TSLength) : TSLength :=
  { chars := a.chars + b.chars
    rows := a.rows + b.rows
    columns := if 0 < b.rows then b.columns else a.columns + b.columns }

/-- Modelled from the spec: `ts_length_sub` of the absent `length.h`; §2
"saturating subtraction", only invoked when the minuend dominates (§4.1). -/
def ts_length_sub (a b : TSLength) : TSLength :=
  { chars := a.chars - b.chars
    rows := a.rows - b.rows
    columns := a.columns - b.columns }

/-! ## Trees -/

/-- Modelled from the spec: `tree.h` is absent. §3 "Tree node": symbol, padding,
size, children and the flags `extra`, `fragile_left`, `fragile_right`, `hidden`,
`empty`. -/
inductive TSTree where
  | mk (symbol : Nat) (padding size : TSLength) (children : List TSTree)
      (extra fragile_left fragile_right hidden empty : Bool) : TSTree
  deriving Repr

namespace TSTree

def symbol : TSTree → Nat
  | mk s _ _ _ _ _ _ _ _ => s

def padding : TSTree → TSLength
  | mk _ p _ _ _ _ _ _ _ => p

def size : TSTree → TSLength
  | mk _ _ s _ _ _ _ _ _ => s

def children : TSTree → List TSTree
  | mk _ _ _ c _ _ _ _ _ => c

def extra : TSTree → Bool
  | mk _ _ _ _ e _ _ _ _ => e

def fragile_left : TSTree → Bool
  | mk _ _ _ _ _ f _ _ _ => f

def fragile_right : TSTree → Bool
  | mk _ _ _ _ _ _ f _ _ => f

def hidden : TSTree → Bool
  | mk _ _ _ _ _ _ _ h _ => h

def empty : TSTree → Bool
  | mk _ _ _ _ _ _ _ _ e => e

end TSTree

mutual

/-- Number of nodes of a tree. -/
def tree_nodes : TSTree → Nat
  | TSTree.mk _ _ _ cs _ _ _ _ _ => 1 + forest_nodes cs

/-- Number of nodes of a list of trees. -/
def forest_nodes : List TSTree → Nat
  | [] => 0
  | c :: cs => tree_nodes c + forest_nodes cs

end

/-- Modelled from the spec: `ts_tree_total_size` of the absent `tree.h`; §3
"Derived: `total_size = padding + size`". -/
def ts_tree_total_size (t : TSTree) : TSLength :=
  ts_length_add t.padding t.size

/-- Modelled from the spec: `ts_tree_children` of the absent `tree.h`; §4.2
"`children() -> sequence`". The `NULL` pointer of a leaf is the empty list. -/
def ts_tree_children (t : TSTree) : List TSTree := t.children

/-- Modelled from the spec: accessor `is_extra` of the absent `tree.h` (§4.2). -/
def ts_tree_is_extra (t : TSTree) : Bool := t.extra

/-- Modelled from the spec: accessor `is_empty` of the absent `tree.h` (§4.2). -/
def ts_tree_is_empty (t : TSTree) : Bool := t.empty

/-- Modelled from the spec: accessor `is_fragile_left` of the absent `tree.h`. -/
def ts_tree_is_fragile_left (t : TSTree) : Bool := t.fragile_left

/-- Modelled from the spec: accessor `is_fragile_right` of the absent `tree.h`. -/
def ts_tree_is_fragile_right (t : TSTree) : Bool := t.fragile_right

/-- Modelled from the spec: mutator `set_extra` of the absent `tree.h` (§4.2). -/
def ts_tree_set_extra : TSTree → TSTree
  | TSTree.mk s p z c _ fl fr h e => TSTree.mk s p z c true fl fr h e

/-- Modelled from the spec: mutator `set_fragile_left` of the absent `tree.h`. -/
def ts_tree_set_fragile_left : TSTree → TSTree
  | TSTree.mk s p z c x _ fr h e => TSTree.mk s p z c x true fr h e

/-- Modelled from the spec: mutator `set_fragile_right` of the absent `tree.h`. -/
def ts_tree_set_fragile_right : TSTree → TSTree
  | TSTree.mk s p z c x fl _ h e => TSTree.mk s p z c x fl true h e

/-- The assignment `tree->size = v`. -/
def tree_assign_size (v : TSLength) : TSTree → TSTree
  | TSTree.mk s p _ c x fl fr h e => TSTree.mk s p v c x fl fr h e

/-- The assignment `tree->padding = v`. -/
def tree_assign_padding (v : TSLength) : TSTree → TSTree
  | TSTree.mk s _ z c x fl fr h e => TSTree.mk s v z c x fl fr h e

/-- Modelled from the spec: `ts_tree_make_leaf` of the absent `tree.h`; §4.2
"`make_leaf(symbol, padding, size)` for terminals". -/
def ts_tree_make_leaf (symbol : Nat) (padding size : TSLength) ( hidden : Bool) : TSTree :=
  TSTree.mk symbol padding size [] false false false hidden (decide (size.chars = 0))

/-- Modelled from the spec: the padding and the size that `make_node` computes
from the child sequence (§4.2): the first non-empty child gives the padding and
starts the size, the remaining content concatenates. -/
def make_node_extent : List TSTree → TSLength × TSLength
  | [] => (ts_length_zero, ts_length_zero)
  | c :: cs =>
    if ts_tree_is_empty c = true then make_node_extent cs
    else (c.padding, cs.foldl (fun s d => ts_length_add s (ts_tree_total_size d)) c.size)

/-- Modelled from the spec: `ts_tree_make_node` of the absent `tree.h`; §4.2
"`make_node(symbol, children, hidden) -> Tree`". -/
def ts_tree_make_node (symbol : Nat) (children : List TSTree) ( hidden : Bool) : TSTree :=
  TSTree.mk symbol (make_node_extent children).1 (make_node_extent children).2 children
    false false false hidden (decide ((make_node_extent children).2.chars = 0))

/-! ## Parse table -/

/-- Modelled from the spec: the action kinds of the absent `tree_sitter/parser.h`
(§6 "ParseAction"). -/
inductive TSParseActionType where
  | Error | Shift | ShiftExtra | Reduce | ReduceExtra | ReduceFragile | Accept
  deriving DecidableEq, Repr

/-- Modelled from the spec: `TSParseAction` of the absent `tree_sitter/parser.h`
(§6): a type and its data, `to_state` for shifts, `(symbol, child_count)` for
reductions. `parser.c` reads `data.to_state` whatever the type is, so every
field is present in every action. -/
structure TSParseAction where
  type : TSParseActionType
  to_state : Nat
  symbol : Nat
  child_count : Nat
  deriving DecidableEq, Repr

/-- Modelled from the spec: the lexer record of the absent `lexer.h` (§4.3); the
input capability is the text that remains to be read. -/
structure TSLexer where
  input : List Nat
  current_position : TSLength
  token_start_position : TSLength
  token_end_position : TSLength
  lookahead : Nat
  lookahead_size : Nat

/-- Modelled from the spec: the language descriptor of the absent
`tree_sitter/parser.h` (§6). A cell of the parse table is a null pointer or a
pointer to a non-empty action list, given by its first action and the rest. -/
structure TSLanguage where
  symbol_count : Nat
  state_count : Nat
  hidden_symbol_flags : Nat → Bool
  lex_states : Nat → Nat
  parse_table : Nat → Option (TSParseAction × List TSParseAction)
  lex_fn : TSLexer → Nat → TSTree × TSLexer

/-- The constants of the absent public headers that `parser.c` names. -/
structure TSBuiltins where
  ts_builtin_sym_error : Nat
  ts_builtin_sym_end : Nat
  ts_builtin_sym_document : Nat
  ts_lex_state_error : Nat

/-- `ERROR_ACTION` (parser.c:30): only the type is initialised, the data is zero. -/
def ERROR_ACTION : TSParseAction :=
  { type := TSParseActionType.Error, to_state := 0, symbol := 0, child_count := 0 }

/-- `get_action` (parser.c:34). -/
def get_action (language : TSLanguage) (state sym : Nat) : TSParseAction :=
  match language.parse_table (state * language.symbol_count + sym) with
  | some actions => actions.1
  | none => ERROR_ACTION

/-! ## Stacks -/

/-- Modelled from the spec: an entry of a parse stack (§3), from the absent
`stack.h`. -/
structure TSStackEntry where
  state : Nat
  node : TSTree

/-- Modelled from the spec: a parse stack (§3, §4.4); entry 0, the head of the
list, is the deepest one. -/
abbrev TSStack := List TSStackEntry

/-- Modelled from the spec: `ts_stack_push` (§4.4). -/
def ts_stack_push (stack : TSStack) (state : Nat) (node : TSTree) : TSStack :=
  stack ++ [⟨state, node⟩]

/-- Modelled from the spec: `ts_stack_shrink` (§4.4 "shrink-to-index"). -/
def ts_stack_shrink (stack : TSStack) (new_size : Nat) : TSStack :=
  stack.take new_size

/-- Modelled from the spec: `ts_stack_top_state` (§4.4 "zero if empty"). -/
def ts_stack_top_state (stack : TSStack) : Nat :=
  match stack.getLast? with
  | some e => e.state
  | none => 0

/-- Modelled from the spec: `ts_stack_top_node` (§4.4 "null if empty"). -/
def ts_stack_top_node (stack : TSStack) : Option TSTree :=
  stack.getLast?.map TSStackEntry.node

/-- Modelled from the spec: `ts_stack_total_tree_size` (§4.4 "sum of all nodes'
`total_size`"). -/
def ts_stack_total_tree_size (stack : TSStack) : TSLength :=
  stack.foldl (fun acc e => ts_length_add acc (ts_tree_total_size e.node)) ts_length_zero

/-- Number of tree nodes held by a stack. -/
def stack_nodes (stack : TSStack) : Nat :=
  forest_nodes (stack.map TSStackEntry.node)

/-! ## Parser -/

/-- Modelled from the spec: `TSInputEdit` of the absent `tree_sitter/runtime.h`
(§6). -/
structure TSInputEdit where
  position : Nat
  chars_inserted : Nat
  chars_removed : Nat
  deriving DecidableEq, Repr

/-- Modelled from the spec: `TSParser` of the absent `runtime/parser.h` (§3
"Parser state"). `advance_fn` is the function pointer `lexer.advance_fn`. -/
structure TSParser where
  language : TSLanguage
  advance_fn : TSLexer → Nat → TSLexer
  lexer : TSLexer
  stack : TSStack
  right_stack : TSStack
  total_chars : Nat
  lookahead : Option TSTree

/-! ## Reconciler: `break_down_left_stack` (parser.c:40) -/

/-- The re-push loop of `break_down_left_stack` (parser.c:64-76), run on the
children that are still to be visited; `i` counts the children pushed so far. -/
def break_down_left_push (language : TSLanguage) (position : Nat) :
    List TSTree → TSStack → TSLength → Nat → TSStack × TSLength × Nat
  | [], stack, left_subtree_end, i => (stack, left_subtree_end, i)
  | child :: rest, stack, left_subtree_end, i =>
    if left_subtree_end.chars < position then
      let state := ts_stack_top_state stack
      let action := get_action language state child.symbol
      let next_state := if ts_tree_is_extra child = true then state else action.to_state
      break_down_left_push language position rest (ts_stack_push stack next_state child)
        (ts_length_add left_subtree_end (ts_tree_total_size child)) (i + 1)
    else (stack, left_subtree_end, i)

/-- The loop of `break_down_left_stack` that fills the right stack
(parser.c:78-86), run on the children `children[j]` in the order of the visit,
`j = child_count - 1` down to `j = i`. -/
def break_down_left_right (bound : Nat) : List TSTree → TSStack → Nat → TSStack × Nat
  | [], right_stack, right_subtree_start => (right_stack, right_subtree_start)
  | child :: rest, right_stack, right_subtree_start =>
    let start := size_sub right_subtree_start (ts_tree_total_size child).chars
    if start < bound then (right_stack, start)
    else break_down_left_right bound rest (ts_stack_push right_stack 0 child) start

/-- The outer loop of `break_down_left_stack` (parser.c:49-89). The result is
the returned length, the left stack and the right stack. -/
def break_down_left_stack_loop (B : TSBuiltins) (language : TSLanguage) (edit : TSInputEdit) :
    Nat → TSStack → TSStack → TSLength → Nat → Option (TSLength × TSStack × TSStack)
  | 0, _, _, _, _ => none
  | fuel + 1, stack, right_stack, left_subtree_end, right_subtree_start =>
    match ts_stack_top_node stack with
    | none => some (left_subtree_end, stack, right_stack)
    | some node =>
      let children := ts_tree_children node
      if left_subtree_end.chars < edit.position ∧ children.isEmpty = true ∧
          node.symbol ≠ B.ts_builtin_sym_error then
        some (left_subtree_end, stack, right_stack)
      else
        let stack1 := stack.dropLast
        let left1 := ts_length_sub left_subtree_end (ts_tree_total_size node)
        let pushed := break_down_left_push language edit.position children stack1 left1 0
        let filled := break_down_left_right (size_add edit.position edit.chars_inserted)
          (children.drop pushed.2.2).reverse right_stack right_subtree_start
        break_down_left_stack_loop B language edit fuel pushed.1 filled.1 pushed.2.1 filled.2

/-- `break_down_left_stack` (parser.c:40). The loop removes a node of the left
stack in every round, so the number of nodes on the stack bounds its rounds. -/
def break_down_left_stack (B : TSBuiltins) (parser : TSParser) (edit : TSInputEdit) :
    Option (TSLength × TSParser) :=
  let prev_size := ts_stack_total_tree_size parser.stack
  let total_chars := size_sub (size_add prev_size.chars edit.chars_inserted) edit.chars_removed
  match break_down_left_stack_loop B parser.language edit (stack_nodes parser.stack + 1)
      parser.stack (ts_stack_shrink parser.right_stack 0) prev_size total_chars with
  | none => none
  | some (left_subtree_end, stack, right_stack) =>
    some (left_subtree_end,
      { parser with stack := stack, right_stack := right_stack, total_chars := total_chars })

/-! ## Reconciler: `break_down_right_stack` (parser.c:96) -/

/-- The loop of `break_down_right_stack` that pushes the children of a popped
node (parser.c:130-138), run on `children[i]` for `i = child_count - 1` down. -/
def break_down_right_push (current_chars : Nat) : List TSTree → TSStack → Nat → TSStack × Nat
  | [], stack, right_subtree_start => (stack, right_subtree_start)
  | child :: rest, stack, right_subtree_start =>
    if right_subtree_start ≤ current_chars then (stack, right_subtree_start)
    else break_down_right_push current_chars rest (ts_stack_push stack 0 child)
      (size_sub right_subtree_start (ts_tree_total_size child).chars)

/-- The test `is_usable` of `break_down_right_stack` (parser.c:113-117). -/
def is_usable (action : TSParseAction) (node : TSTree) : Bool :=
  (action.type != TSParseActionType.Error) && !ts_tree_is_extra node &&
    !ts_tree_is_empty node && !ts_tree_is_fragile_left node && !ts_tree_is_fragile_right node

/-- The loop of `break_down_right_stack` (parser.c:104-141); the result is the
returned node and the right stack. -/
def break_down_right_stack_loop (language : TSLanguage) (state current_chars : Nat) :
    Nat → TSStack → Nat → Option (Option TSTree × TSStack)
  | 0, _, _ => none
  | fuel + 1, stack, right_subtree_start =>
    match ts_stack_top_node stack with
    | none => some (none, stack)
    | some node =>
      if right_subtree_start > current_chars then some (none, stack)
      else
        let action := get_action language state node.symbol
        if is_usable action node = true ∧ right_subtree_start = current_chars then
          some (some node, ts_stack_shrink stack (size_sub stack.length 1))
        else
          let children := ts_tree_children node
          let pushed := break_down_right_push current_chars children.reverse stack.dropLast
            (size_add right_subtree_start (ts_tree_total_size node).chars)
          break_down_right_stack_loop language state current_chars fuel pushed.1 pushed.2

/-- `break_down_right_stack` (parser.c:96). -/
def break_down_right_stack (parser : TSParser) : Option (Option TSTree × TSParser) :=
  let stack := parser.right_stack
  let current_position := parser.lexer.current_position
  let state := ts_stack_top_state parser.stack
  let right_subtree_start := size_sub parser.total_chars (ts_stack_total_tree_size stack).chars
  match break_down_right_stack_loop parser.language state current_position.chars
      (stack_nodes stack + 1) stack right_subtree_start with
  | none => none
  | some (node, stack1) => some (node, { parser with right_stack := stack1 })

/-- `get_next_node` (parser.c:144). -/
def get_next_node (parser : TSParser) (lex_state : Nat) : Option (TSTree × TSParser) :=
  match break_down_right_stack parser with
  | none => none
  | some (some node, parser1) =>
    let token_start_position := ts_length_add parser1.lexer.current_position node.padding
    let token_end := ts_length_add token_start_position node.size
    let lexer1 : TSLexer :=
      { parser1.lexer with
        token_start_position := token_start_position
        token_end_position := token_end
        current_position := token_end
        lookahead := 0
        lookahead_size := 0 }
    some (node, { parser1 with lexer := parser1.advance_fn lexer1 0 })
  | some (none, parser1) =>
    let lexed := parser1.language.lex_fn parser1.lexer lex_state
    some (lexed.1, { parser1 with lexer := lexed.2 })

/-! ## Parse actions -/

/-- `shift` (parser.c:170); `none` when there is no lookahead to push. -/
def shift (parser : TSParser) (parse_state : Nat) : Option TSParser :=
  match parser.lookahead with
  | none => none
  | some lookahead =>
    some { parser with stack := ts_stack_push parser.stack parse_state lookahead, lookahead := none }

/-- `shift_extra` (parser.c:175). -/
def shift_extra (parser : TSParser) (state : Nat) : Option TSParser :=
  match parser.lookahead with
  | none => none
  | some lookahead => shift { parser with lookahead := some (ts_tree_set_extra lookahead) } state

/-- The loop of `reduce_helper` that counts the children (parser.c:189-195);
`none` is a read outside of the stack. -/
def reduce_count (stack : TSStack) : Nat → Nat → Nat → Option Nat
  | 0, _, _ => none
  | fuel + 1, i, child_count =>
    if i < child_count then
      if child_count = stack.length then some child_count
      else
        match stack[size_sub (size_sub stack.length 1) i]? with
        | none => none
        | some entry =>
          reduce_count stack fuel (i + 1)
            (if ts_tree_is_extra entry.node = true then size_add child_count 1 else child_count)
    else some child_count

/-- `reduce_helper` (parser.c:180). The result is the parent, which is also the
node of the top entry of the new stack. Slicing more entries than the stack
holds is a read outside of the stack. -/
def reduce_helper (parser : TSParser) (symbol child_count : Nat) (extra count_extra : Bool) :
    Option (TSTree × TSParser) :=
  let stack := parser.stack
  let counted := if count_extra = true then some child_count
    else reduce_count stack (stack.length + 1) 0 child_count
  match counted with
  | none => none
  | some child_count1 =>
    if child_count1 ≤ stack.length then
      let start_index := size_sub stack.length child_count1
      let children := ((stack.drop start_index).take child_count1).map TSStackEntry.node
      let hidden := parser.language.hidden_symbol_flags symbol
      let parent := ts_tree_make_node symbol children hidden
      let stack1 := ts_stack_shrink stack start_index
      let top_state := ts_stack_top_state stack1
      let state := if extra = true then top_state
        else (get_action parser.language top_state symbol).to_state
      some (parent, { parser with stack := ts_stack_push stack1 state parent })
    else none

/-- Assignment through the pointer that `reduce_helper` returns: the parent is
the node of the top entry of the stack. -/
def assign_top_node (stack : TSStack) (node : TSTree) : TSStack :=
  match stack.getLast? with
  | none => stack
  | some entry => stack.dropLast ++ [⟨entry.state, node⟩]

/-- `reduce` (parser.c:217). -/
def reduce (parser : TSParser) (symbol child_count : Nat) : Option TSParser :=
  (reduce_helper parser symbol child_count false false).map Prod.snd

/-- `reduce_extra` (parser.c:221). -/
def reduce_extra (parser : TSParser) (symbol : Nat) : Option TSParser :=
  match reduce_helper parser symbol 1 true false with
  | none => none
  | some (reduced, parser1) =>
    some { parser1 with stack := assign_top_node parser1.stack (ts_tree_set_extra reduced) }

/-- `reduce_fragile` (parser.c:226). -/
def reduce_fragile (parser : TSParser) (symbol child_count : Nat) : Option TSParser :=
  match reduce_helper parser symbol child_count false false with
  | none => none
  | some (reduced, parser1) =>
    some { parser1 with
      stack := assign_top_node parser1.stack
        (ts_tree_set_fragile_right (ts_tree_set_fragile_left reduced)) }

/-- `reduce_error` (parser.c:232). -/
def reduce_error (B : TSBuiltins) (parser : TSParser) (child_count : Nat) : Option TSParser :=
  match reduce_helper parser B.ts_builtin_sym_error child_count false true with
  | none => none
  | some (reduced, parser1) =>
    match parser1.lookahead with
    | none => none
    | some lookahead =>
      let reduced1 := tree_assign_size (ts_length_add reduced.size lookahead.padding) reduced
      some { parser1 with
        stack := assign_top_node parser1.stack
          (ts_tree_set_fragile_right (ts_tree_set_fragile_left reduced1))
        lookahead := some (tree_assign_padding ts_length_zero lookahead) }

/-! ## Error recovery -/

/-- The unwinding loop of `handle_error` (parser.c:249-265), entered with the
value of `i + 1`. The result is the index at which recovery is possible, if
there is one; the outer `none` is a read outside of the stack. -/
def handle_error_unwind (B : TSBuiltins) (language : TSLanguage) (stack : TSStack)
    (lookahead_symbol : Nat) : Nat → Option (Option Nat)
  | 0 => some none
  | i + 1 =>
    match stack[i]? with
    | none => none
    | some entry =>
      let action_on_error := get_action language entry.state B.ts_builtin_sym_error
      if action_on_error.type = TSParseActionType.Shift then
        let action_after_error := get_action language action_on_error.to_state lookahead_symbol
        if action_after_error.type ≠ TSParseActionType.Error then some (some i)
        else handle_error_unwind B language stack lookahead_symbol i
      else handle_error_unwind B language stack lookahead_symbol i

/-- The part of `handle_error` that skips one token (parser.c:272-273). -/
def handle_error_skip (B : TSBuiltins) (parser : TSParser) : Option TSParser :=
  match shift parser (ts_stack_top_state parser.stack) with
  | none => none
  | some parser1 =>
    match get_next_node parser1 B.ts_lex_state_error with
    | none => none
    | some (node, parser2) => some { parser2 with lookahead := some node }

/-- The outer loop of `handle_error` (parser.c:243-283); the result is the
returned `int` and the parser. -/
def handle_error_loop (B : TSBuiltins) (index_before_error : Nat) :
    Nat → TSParser → Option (Nat × TSParser)
  | 0, _ => none
  | fuel + 1, parser =>
    match parser.lookahead with
    | none => none
    | some lookahead =>
      match handle_error_unwind B parser.language parser.stack lookahead.symbol
          (size_add index_before_error 1) with
      | none => none
      | some (some i) =>
        (reduce_error B parser (size_sub (size_sub parser.stack.length i) 1)).map
          (fun parser1 => (1, parser1))
      | some none =>
        match handle_error_skip B parser with
        | none => none
        | some parser1 =>
          match parser1.lookahead with
          | none => none
          | some lookahead1 =>
            if lookahead1.symbol = B.ts_builtin_sym_end then
              (reduce_error B parser1
                (size_sub (size_sub parser1.stack.length index_before_error) 1)).map
                (fun parser2 => (0, parser2))
            else handle_error_loop B index_before_error fuel parser1

/-- `handle_error` (parser.c:240). -/
def handle_error (B : TSBuiltins) (fuel : Nat) (parser : TSParser) : Option (Nat × TSParser) :=
  handle_error_loop B (size_sub parser.stack.length 1) fuel parser

/-- `finish` (parser.c:286). -/
def finish (B : TSBuiltins) (parser : TSParser) : Option (TSTree × TSParser) :=
  match reduce parser B.ts_builtin_sym_document parser.stack.length with
  | none => none
  | some parser1 =>
    match parser1.stack[0]? with
    | none => none
    | some entry => some (entry.node, parser1)

/-! ## Auxiliary definitions for the statements -/

/-- Sum of the total character counts of the nodes of a stack. -/
def stack_chars (stack : TSStack) : Nat :=
  (stack.map (fun e => (ts_tree_total_size e.node).chars)).sum

/-- The nodes of the top `k` entries of a stack, deepest first. -/
def top_nodes (stack : TSStack) (k : Nat) : List TSTree :=
  (stack.drop (stack.length - k)).map TSStackEntry.node

/-- The node that `reduce_error` leaves on the stack: the ERROR parent of
`children` with the padding of the lookahead added to its size, fragile on both
sides (parser.c:233-237). -/
def reduce_error_node (B : TSBuiltins) (language : TSLanguage) (children : List TSTree)
    (lookahead : TSTree) : TSTree :=
  ts_tree_set_fragile_right (ts_tree_set_fragile_left
    (tree_assign_size
      (ts_length_add
        (ts_tree_make_node B.ts_builtin_sym_error children
          (language.hidden_symbol_flags B.ts_builtin_sym_error)).size
        lookahead.padding)
      (ts_tree_make_node B.ts_builtin_sym_error children
        (language.hidden_symbol_flags B.ts_builtin_sym_error))))

/-- The tokens that `handle_error` skips in its first `rounds` rounds: the
lookahead of every round, which `shift` pushes before the next token is
fetched. -/
def skipped_tokens (B : TSBuiltins) : Nat → TSParser → List TSTree
  | 0, _ => []
  | rounds + 1, parser =>
    match parser.lookahead, handle_error_skip B parser with
    | some lookahead, some parser1 => lookahead :: skipped_tokens B rounds parser1
    | _, _ => []

/-- The parser after the first `rounds` rounds of `handle_error` in which a token
is skipped (parser.c:272-273 in every round); `none` when one of them does not
return. -/
def skip_rounds (B : TSBuiltins) : Nat → TSParser → Option TSParser
  | 0, parser => some parser
  | rounds + 1, parser =>
    match handle_error_skip B parser with
    | none => none
    | some parser1 => skip_rounds B rounds parser1

/-- The parser that `handle_error` leaves behind, or `parser` itself when the
call does not return. -/
def handle_error_result (B : TSBuiltins) (fuel : Nat) (parser : TSParser) : TSParser :=
  match handle_error B fuel parser with
  | some (_, parser1) => parser1
  | none => parser

mutual

/-- Symbol and start (in characters, counted from `start`) of every node of a
tree, in pre-order. -/
def tree_starts (start : Nat) : TSTree → List (Nat × Nat)
  | TSTree.mk s _ _ cs _ _ _ _ _ => (s, start) :: forest_starts start cs

/-- Symbol and start of every node of a sequence of adjacent trees. -/
def forest_starts (start : Nat) : List TSTree → List (Nat × Nat)
  | [] => []
  | c :: cs => tree_starts start c ++ forest_starts (start + (ts_tree_total_size c).chars) cs

end

mutual

/-- Symbols of the leaves of a tree, from left to right. -/
def tree_frontier : TSTree → List Nat
  | TSTree.mk s _ _ cs _ _ _ _ _ => if cs.isEmpty = true then [s] else forest_frontier cs

/-- Symbols of the leaves of a sequence of trees, from left to right. -/
def forest_frontier : List TSTree → List Nat
  | [] => []
  | c :: cs => tree_frontier c ++ forest_frontier cs

end

/-! ## An example grammar

Symbols: `0` ERROR, `1` END, `2` DOCUMENT, `3` INT, `4` PLUS, `5` SUM, `6` and
`7` further tokens. The table has eight columns; state `0` shifts INT to state
`1` and SUM to state `4`, state `1` shifts PLUS to state `2`, state `2` shifts
INT to state `3` and ERROR to state `6`, state `3` reduces SUM on END, state `4`
accepts on END, state `6` shifts INT to state `3`. -/

/-- The builtin symbols of the example grammar. -/
def fx_builtins : TSBuiltins :=
  { ts_builtin_sym_error := 0, ts_builtin_sym_end := 1, ts_builtin_sym_document := 2,
    ts_lex_state_error := 0 }

/-- A token without padding. -/
def fx_leaf (symbol chars : Nat) : TSTree :=
  ts_tree_make_leaf symbol ts_length_zero ⟨chars, 0, 0⟩ false

/-- An inner node. -/
def fx_node (symbol : Nat) (children : List TSTree) : TSTree :=
  ts_tree_make_node symbol children false

/-- A one-action cell. -/
def fx_cell (type : TSParseActionType) (to_state symbol child_count : Nat) :
    Option (TSParseAction × List TSParseAction) :=
  some (⟨type, to_state, symbol, child_count⟩, [])

/-- The parse table of the example grammar. -/
def fx_table : Nat → Option (TSParseAction × List TSParseAction)
  | 3 => fx_cell TSParseActionType.Shift 1 0 0
  | 5 => fx_cell TSParseActionType.Shift 4 0 0
  | 12 => fx_cell TSParseActionType.Shift 2 0 0
  | 16 => fx_cell TSParseActionType.Shift 6 0 0
  | 19 => fx_cell TSParseActionType.Shift 3 0 0
  | 25 => fx_cell TSParseActionType.Reduce 0 5 3
  | 33 => fx_cell TSParseActionType.Accept 0 0 0
  | 51 => fx_cell TSParseActionType.Shift 3 0 0
  | _ => none

/-- A lexer that reads one symbol per character and END at the end of the text. -/
def fx_lex (lexer : TSLexer) (_lex_state : Nat) : TSTree × TSLexer :=
  match lexer.input with
  | [] =>
    (fx_leaf 1 0,
      { lexer with
        token_start_position := lexer.current_position
        token_end_position := lexer.current_position })
  | c :: rest =>
    (fx_leaf c 1,
      { lexer with
        input := rest
        token_start_position := lexer.current_position
        token_end_position := ts_length_add lexer.current_position ⟨1, 0, 0⟩
        current_position := ts_length_add lexer.current_position ⟨1, 0, 0⟩ })

/-- The example grammar. -/
def fx_language : TSLanguage :=
  { symbol_count := 8, state_count := 7, hidden_symbol_flags := fun _ => false,
    lex_states := fun _ => 0, parse_table := fx_table, lex_fn := fx_lex }

/-- A language whose parse table has only null cells. -/
def fx_null_language : TSLanguage :=
  { fx_language with parse_table := fun _ => none }

/-- A lexer record at character `chars` with the text `input` left to read. -/
def fx_lexer (chars : Nat) (input : List Nat) : TSLexer :=
  { input := input, current_position := ⟨chars, 0, 0⟩, token_start_position := ⟨chars, 0, 0⟩,
    token_end_position := ⟨chars, 0, 0⟩, lookahead := 0, lookahead_size := 0 }

/-- A parser over the example grammar. -/
def fx_parse_state (stack right_stack : TSStack) (total_chars chars : Nat) (input : List Nat)
    (lookahead : Option TSTree) : TSParser :=
  { language := fx_language, advance_fn := fun lexer _ => lexer, lexer := fx_lexer chars input,
    stack := stack, right_stack := right_stack, total_chars := total_chars,
    lookahead := lookahead }

/-- The text `10+2` after its first token: INT on the left stack, PLUS and INT on
the right stack, the lexer at character 2. -/
def fx_reuse_state : TSParser :=
  fx_parse_state [⟨1, fx_leaf 3 2⟩] [⟨0, fx_leaf 3 1⟩, ⟨0, fx_leaf 4 1⟩] 4 2 [] none

/-- The tree `DOCUMENT[SUM[INT, PLUS, INT]]` of the text `1+2`. -/
def fx_sum_document : TSTree :=
  fx_node 2 [fx_node 5 [fx_leaf 3 1, fx_leaf 4 1, fx_leaf 3 1]]

/-- The parser after the text `1+2` has been parsed. -/
def fx_sum_state : TSParser :=
  fx_parse_state [⟨0, fx_sum_document⟩] [] 0 3 [] none

/-- The tree `DOCUMENT[5[3, 4], 6, 7]` of a text of six characters: the tokens
`3` and `4` have two characters each, the tokens `6` and `7` one each. -/
def fx_nested_document : TSTree :=
  fx_node 2 [fx_node 5 [fx_leaf 3 2, fx_leaf 4 2], fx_leaf 6 1, fx_leaf 7 1]

/-- The parser after the text of `fx_nested_document` has been parsed. -/
def fx_nested_state : TSParser :=
  fx_parse_state [⟨0, fx_nested_document⟩] [] 0 6 [] none

/-- The edit that removes the first two characters of a text. -/
def fx_remove_front : TSInputEdit :=
  { position := 0, chars_inserted := 0, chars_removed := 2 }

/-- The edit that removes four characters after the first two. -/
def fx_remove_tail : TSInputEdit :=
  { position := 2, chars_inserted := 0, chars_removed := 4 }

/-- The tree `DOCUMENT[3, 4]` of a text of two characters, over a language
whose table is empty. -/
def fx_null_state : TSParser :=
  { fx_parse_state [⟨0, fx_node 2 [fx_leaf 3 1, fx_leaf 4 1]⟩] [] 0 2 [] none with
    language := fx_null_language }

/-- A left stack whose top entry is an extra token: INT below a token `6` that
was shifted as an extra. -/
def fx_extra_top_state : TSParser :=
  fx_parse_state [⟨1, fx_leaf 3 1⟩, ⟨1, ts_tree_set_extra (fx_leaf 6 1)⟩] [] 2 2 [] none

/-- A left stack with an extra token between the three children of a SUM, above
one further entry. -/
def fx_reduce_state : TSParser :=
  fx_parse_state
    [⟨4, fx_leaf 7 1⟩, ⟨1, fx_leaf 3 1⟩, ⟨1, ts_tree_set_extra (fx_leaf 6 1)⟩, ⟨2, fx_leaf 4 1⟩,
      ⟨3, fx_leaf 3 1⟩] [] 5 5 [] (some (fx_leaf 1 0))

/-- A second PLUS, preceded by one character of padding, as the lookahead. -/
def fx_padded_plus : TSTree :=
  ts_tree_make_leaf 4 ⟨1, 0, 0⟩ ⟨1, 0, 0⟩ false

/-- The text `1+ +` followed by `input`, after `1+` has been shifted: the
lookahead is the second PLUS, on which state `2` has no action. -/
def fx_error_state (input : List Nat) : TSParser :=
  fx_parse_state [⟨1, fx_leaf 3 1⟩, ⟨2, fx_leaf 4 1⟩] [] (4 + input.length) 4 input
    (some fx_padded_plus)

/-- Modelled from the spec: `ts_lexer_reset` of the absent `lexer.h`; §4.3
"`reset(position)`: seek input to `position`, clear lookahead byte". -/
def ts_lexer_reset (lexer : TSLexer) (position : TSLength) : TSLexer :=
  { lexer with
    current_position := position
    token_start_position := position
    token_end_position := position
    lookahead := 0
    lookahead_size := 0 }

/-- What one round of the loop of `ts_parser_parse` does: it goes on with a new
parser state, or it returns a tree. -/
inductive DriverResult where
  | next (parser : TSParser) : DriverResult
  | done (tree : TSTree) (parser : TSParser) : DriverResult

/-- The head of the loop of `ts_parser_parse` (parser.c:340-342): a lookahead is
fetched when none is buffered. -/
def driver_fetch (parser : TSParser) : Option TSParser :=
  match parser.lookahead with
  | some _ => some parser
  | none =>
    match get_next_node parser (parser.language.lex_states (ts_stack_top_state parser.stack)) with
    | none => none
    | some (node, parser1) => some { parser1 with lookahead := some node }

/-- The calls `if (!handle_error(parser)) return finish(parser);` of
`ts_parser_parse` (parser.c:350, parser.c:384). -/
def driver_handle_error (B : TSBuiltins) (fuel : Nat) (parser : TSParser) : Option DriverResult :=
  match handle_error B fuel parser with
  | none => none
  | some (code, parser1) =>
    if code = 0 then
      (finish B parser1).map (fun r => DriverResult.done r.1 r.2)
    else some (DriverResult.next parser1)

/-- The `switch` of the loop of `ts_parser_parse` (parser.c:343-390), on a parser
that holds a lookahead. The action types are the seven of the enumeration, so
the `default` branch is not taken. -/
def driver_act (B : TSBuiltins) (fuel : Nat) (parser : TSParser) : Option DriverResult :=
  match parser.lookahead with
  | none => none
  | some lookahead =>
    let state := ts_stack_top_state parser.stack
    let action := get_action parser.language state lookahead.symbol
    match action.type with
    | TSParseActionType.Shift =>
      if lookahead.symbol = B.ts_builtin_sym_error then driver_handle_error B fuel parser
      else (shift parser action.to_state).map DriverResult.next
    | TSParseActionType.ShiftExtra => (shift_extra parser state).map DriverResult.next
    | TSParseActionType.Reduce =>
      (reduce parser action.symbol action.child_count).map DriverResult.next
    | TSParseActionType.ReduceExtra => (reduce_extra parser action.symbol).map DriverResult.next
    | TSParseActionType.ReduceFragile =>
      (reduce_fragile parser action.symbol action.child_count).map DriverResult.next
    | TSParseActionType.Accept => (finish B parser).map (fun r => DriverResult.done r.1 r.2)
    | TSParseActionType.Error => driver_handle_error B fuel parser

/-- The loop of `ts_parser_parse` (parser.c:339-391). The fuel bounds the rounds
of the loop and the rounds of every call of `handle_error`. -/
def ts_parser_parse_loop (B : TSBuiltins) (fuel : Nat) : Nat → TSParser → Option (TSTree × TSParser)
  | 0, _ => none
  | rounds + 1, parser =>
    match driver_fetch parser with
    | none => none
    | some parser1 =>
      match driver_act B fuel parser1 with
      | none => none
      | some (DriverResult.done tree parser2) => some (tree, parser2)
      | some (DriverResult.next parser2) => ts_parser_parse_loop B fuel rounds parser2

/-- The part of `ts_parser_parse` before its loop (parser.c:324-337): the left
stack is broken down for an edit or cleared, the lookahead is dropped and the
lexer is reset to the returned position on the new input. -/
def ts_parser_parse_begin (B : TSBuiltins) (parser : TSParser) (input : List Nat)
    (edit : Option TSInputEdit) : Option TSParser :=
  let start : Option (TSLength × TSParser) :=
    match edit with
    | some e => break_down_left_stack B parser e
    | none => some (ts_length_zero, { parser with stack := ts_stack_shrink parser.stack 0 })
  match start with
  | none => none
  | some (position, parser1) =>
    some { parser1 with
      lookahead := none
      lexer := ts_lexer_reset { parser1.lexer with input := input } position }

/-- `ts_parser_parse` (parser.c:322); the result is the returned tree and the
parser. -/
def ts_parser_parse (B : TSBuiltins) (fuel : Nat) (parser : TSParser) (input : List Nat)
    (edit : Option TSInputEdit) : Option (TSTree × TSParser) :=
  match ts_parser_parse_begin B parser input edit with
  | none => none
  | some parser1 => ts_parser_parse_loop B fuel fuel parser1

/-- The parser with another lexing function in its language. -/
def with_lex_fn (parser : TSParser) (f : TSLexer → Nat → TSTree × TSLexer) : TSParser :=
  { parser with language := { parser.language with lex_fn := f } }

/-- The lexer record that `get_next_node` hands to `advance_fn` when it reuses
`node` (parser.c:151-157). -/
def reuse_lexer (lexer : TSLexer) (node : TSTree) : TSLexer :=
  { lexer with
    token_start_position := ts_length_add lexer.current_position node.padding
    token_end_position :=
      ts_length_add (ts_length_add lexer.current_position node.padding) node.size
    current_position :=
      ts_length_add (ts_length_add lexer.current_position node.padding) node.size
    lookahead := 0
    lookahead_size := 0 }

/-- Sum of the total character counts of a sequence of trees. -/
def forest_chars (trees : List TSTree) : Nat :=
  (trees.map (fun t => (ts_tree_total_size t).chars)).sum

mutual
/-- In the tree and in all of its subtrees, the children of a node take no more
characters than the node. -/
def tree_fits : TSTree → Bool
  | TSTree.mk _ p z cs _ _ _ _ _ =>
    decide (forest_chars cs ≤ (ts_length_add p z).chars) && forest_fits cs
/-- Every tree of the sequence fits. -/
def forest_fits : List TSTree → Bool
  | [] => true
  | c :: cs => tree_fits c && forest_fits cs
end

/-- The text `10+2` while its first token is being read: PLUS and INT wait on the
right stack, the lexer is at character 1. -/
def fx_wait_state : TSParser :=
  fx_parse_state [] [⟨0, fx_leaf 3 1⟩, ⟨0, fx_leaf 4 1⟩] 4 1 [] none

/-- State consistency of the entries of a stack that lie above an entry of state
`previous`: an extra node keeps the state beneath it, any other node has the
`to_state` of the action of the state beneath it on its symbol. -/
def stack_consistent_from (language : TSLanguage) : Nat → TSStack → Prop
  | _, [] => True
  | previous, entry :: rest =>
    entry.state = (if ts_tree_is_extra entry.node = true then previous
      else (get_action language previous entry.node.symbol).to_state) ∧
    stack_consistent_from language entry.state rest

/-- State consistency of a left stack; the state beneath entry 0 is 0. -/
def stack_consistent (language : TSLanguage) (stack : TSStack) : Prop :=
  stack_consistent_from language 0 stack

/-- The state of the top entry of a stack that lies above an entry of state
`previous`. -/
def last_state (previous : Nat) (stack : TSStack) : Nat :=
  match stack.getLast? with
  | some e => e.state
  | none => previous

/-- Total chars of the buffered lookahead, 0 when there is none. -/
def lookahead_chars (lookahead : Option TSTree) : Nat :=
  match lookahead with
  | some node => (ts_tree_total_size node).chars
  | none => 0

/-- The conserved quantity of the driver: the total chars of the left stack
plus those of the buffered lookahead are the chars of the lexer position. -/
def conserved (parser : TSParser) : Prop :=
  (ts_stack_total_tree_size parser.stack).chars + lookahead_chars parser.lookahead
    = parser.lexer.current_position.chars

/-- Contract of `make_node` on one sequence of children: the total chars of the
parent are the sum of the total chars of the children. The padding and the size
of the parent do not depend on its symbol. -/
def make_node_conserves (children : List TSTree) : Prop :=
  (make_node_extent children).1.chars + (make_node_extent children).2.chars
    = forest_chars children

/-- Contract of the lexing function: the total chars of a lexed token are the
distance by which the lexer position has advanced. -/
def lex_contract (language : TSLanguage) : Prop :=
  ∀ lexer lex_state,
    (language.lex_fn lexer lex_state).2.current_position.chars
      = lexer.current_position.chars
        + (ts_tree_total_size (language.lex_fn lexer lex_state).1).chars

/-- Contract of `advance_fn`: with `lookahead_size = 0` the call with state 0
leaves the lexer position where it is. -/
def advance_contract (advance_fn : TSLexer → Nat → TSLexer) : Prop :=
  ∀ lexer, lexer.lookahead_size = 0 →
    (advance_fn lexer 0).current_position = lexer.current_position

/-- Contract of `make_node` on the top node of a stack: `make_node` conserves the
chars of the children of the node. It holds on the empty stack and on a stack
whose top node is a leaf. -/
def top_conserves (stack : TSStack) : Prop :=
  match ts_stack_top_node stack with
  | some node => make_node_conserves (ts_tree_children node)
  | none => True

/-- The parser state that one round of the loop of `ts_parser_parse` leaves. -/
def driver_state : DriverResult → TSParser
  | DriverResult.next parser => parser
  | DriverResult.done _ parser => parser

/-- Contract of `make_node` on the nodes that one round of the loop of
`ts_parser_parse` can have made: the node on top of the stack when the loop goes
on; the returned DOCUMENT node and its last child, which is the ERROR node when
the round ends in a fatal `handle_error`. -/
def result_conserves : DriverResult → Prop
  | DriverResult.next parser => top_conserves parser.stack
  | DriverResult.done tree _ =>
    make_node_conserves (ts_tree_children tree) ∧
    match (ts_tree_children tree).getLast? with
    | some child => make_node_conserves (ts_tree_children child)
    | none => True

/-- Contract of `make_node` for the action that the driver takes on a parser
state that holds a lookahead: the stack stays representable as a `size_t` in
the rounds of `handle_error`, and `make_node` conserves the chars of the
children of the nodes that the action makes. -/
def step_contract (B : TSBuiltins) (fuel : Nat) (parser : TSParser) : Prop :=
  parser.stack.length + fuel < SIZE_MOD ∧
  match driver_act B fuel parser with
  | some result => result_conserves result
  | none => True

/-- Contract of the end of the text: when END is the buffered lookahead, the
lexer position is at the length of the text. -/
def end_contract (B : TSBuiltins) (input : List Nat) (parser : TSParser) : Prop :=
  match parser.lookahead with
  | some lookahead =>
    lookahead.symbol = B.ts_builtin_sym_end →
      parser.lexer.current_position.chars = input.length
  | none => True

/-- The parser states on which the `switch` of `ts_parser_parse` acts, in the
first `rounds` rounds of its loop. -/
def parse_states (B : TSBuiltins) (fuel : Nat) : Nat → TSParser → List TSParser
  | 0, _ => []
  | rounds + 1, parser =>
    match driver_fetch parser with
    | none => []
    | some parser1 =>
      parser1 :: (match driver_act B fuel parser1 with
        | some (DriverResult.next parser2) => parse_states B fuel rounds parser2
        | _ => [])

/-- The contract of `make_node` on one sequence of children can be evaluated. -/
instance make_node_conserves_decidable (children : List TSTree) :
    Decidable (make_node_conserves children) :=
  inferInstanceAs (Decidable (_ = _))

/-- The contract on the top node of a stack can be evaluated. -/
instance top_conserves_decidable (stack : TSStack) : Decidable (top_conserves stack) :=
  match h : ts_stack_top_node stack with
  | some node =>
    decidable_of_iff (make_node_conserves (ts_tree_children node))
      (by unfold top_conserves; rw [h])
  | none => isTrue (by unfold top_conserves; rw [h]; trivial)

/-- The contract on the nodes of one round of the driver can be evaluated. -/
instance result_conserves_decidable : (result : DriverResult) → Decidable (result_conserves result)
  | DriverResult.next parser => inferInstanceAs (Decidable (top_conserves parser.stack))
  | DriverResult.done tree _ =>
    match h : (ts_tree_children tree).getLast? with
    | some child =>
      decidable_of_iff (make_node_conserves (ts_tree_children tree) ∧
          make_node_conserves (ts_tree_children child))
        (by simp only [result_conserves, h])
    | none =>
      decidable_of_iff (make_node_conserves (ts_tree_children tree))
        (by simp only [result_conserves, h, and_true])

/-- The contract for the action on a parser state can be evaluated. -/
instance step_contract_decidable (B : TSBuiltins) (fuel : Nat) (parser : TSParser) :
    Decidable (step_contract B fuel parser) :=
  match h : driver_act B fuel parser with
  | some result =>
    decidable_of_iff (parser.stack.length + fuel < SIZE_MOD ∧ result_conserves result)
      (by unfold step_contract; rw [h])
  | none =>
    decidable_of_iff (parser.stack.length + fuel < SIZE_MOD)
      (by unfold step_contract; rw [h]; simp)

/-- The contract of the end of the text can be evaluated. -/
instance end_contract_decidable (B : TSBuiltins) (input : List Nat) (parser : TSParser) :
    Decidable (end_contract B input parser) :=
  match h : parser.lookahead with
  | some lookahead =>
    decidable_of_iff (lookahead.symbol = B.ts_builtin_sym_end →
        parser.lexer.current_position.chars = input.length)
      (by unfold end_contract; rw [h])
  | none => isTrue (by unfold end_contract; rw [h]; trivial)

/-- A lexer that reads one symbol per character, takes one space (character 32)
before a token as the padding of the token, and gives END at the end of the
text. -/
def fx_lex_padded (lexer : TSLexer) (_lex_state : Nat) : TSTree × TSLexer :=
  match lexer.input with
  | [] =>
    (fx_leaf 1 0,
      { lexer with
        token_start_position := lexer.current_position
        token_end_position := lexer.current_position })
  | c :: rest =>
    if c = 32 then
      match rest with
      | [] =>
        (ts_tree_make_leaf 1 ⟨1, 0, 0⟩ ts_length_zero false,
          { lexer with
            input := []
            token_start_position := ts_length_add lexer.current_position ⟨1, 0, 0⟩
            token_end_position := ts_length_add lexer.current_position ⟨1, 0, 0⟩
            current_position := ts_length_add lexer.current_position ⟨1, 0, 0⟩ })
      | d :: rest1 =>
        (ts_tree_make_leaf d ⟨1, 0, 0⟩ ⟨1, 0, 0⟩ false,
          { lexer with
            input := rest1
            token_start_position := ts_length_add lexer.current_position ⟨1, 0, 0⟩
            token_end_position := ts_length_add lexer.current_position ⟨2, 0, 0⟩
            current_position := ts_length_add lexer.current_position ⟨2, 0, 0⟩ })
    else
      (fx_leaf c 1,
        { lexer with
          input := rest
          token_start_position := lexer.current_position
          token_end_position := ts_length_add lexer.current_position ⟨1, 0, 0⟩
          current_position := ts_length_add lexer.current_position ⟨1, 0, 0⟩ })

/-- The example grammar with the lexer that knows padding. -/
def fx_padded_language : TSLanguage :=
  { fx_language with lex_fn := fx_lex_padded }

/-- A parser over the example grammar with padding, before its first parse. -/
def fx_padded_state : TSParser :=
  { language := fx_padded_language, advance_fn := fun lexer _ => lexer, lexer := fx_lexer 0 [],
    stack := [], right_stack := [], total_chars := 0, lookahead := none }

/-- The parser `fx_padded_state` at the head of the loop of `ts_parser_parse`, on
a new text. -/
def fx_padded_begin (input : List Nat) : TSParser :=
  { fx_padded_state with
    lexer := ts_lexer_reset { fx_padded_state.lexer with input := input } ts_length_zero }

/-! ## Theorems -/

/-! ### Machine words, stacks and node counts -/

theorem size_sub_sub (a b c : Nat) : size_sub (size_sub a b) c = size_sub a (b + c) := by
  simp only [size_sub, SIZE_MOD, Nat.reducePow]
  omega

theorem size_add_sub_cancel (a b c : Nat) : size_add (size_sub a (b + c)) c = size_sub a b := by
  simp only [size_sub, size_add, SIZE_MOD, Nat.reducePow]
  omega

theorem size_sub_eq {a b : Nat} (hb : b ≤ a) (ha : a < SIZE_MOD) : size_sub a b = a - b := by
  simp only [size_sub, SIZE_MOD, Nat.reducePow] at *
  omega

theorem size_add_eq {a b : Nat} (h : a + b < SIZE_MOD) : size_add a b = a + b := by
  simp only [size_add, SIZE_MOD, Nat.reducePow] at *
  omega

theorem index_before_error_succ (len : Nat) (hlen : len < SIZE_MOD) :
    size_add (size_sub len 1) 1 = len := by
  simp only [size_sub, size_add, SIZE_MOD, Nat.reducePow] at *
  omega

theorem size_sub_anchor (len rounds : Nat) (hlen : len + rounds < SIZE_MOD) :
    size_sub (size_sub (len + rounds) (size_sub len 1)) 1 = rounds := by
  simp only [size_sub, SIZE_MOD, Nat.reducePow] at *
  omega

theorem foldl_total_chars (stack : TSStack) (acc : TSLength) :
    (stack.foldl (fun acc e => ts_length_add acc (ts_tree_total_size e.node)) acc).chars
      = acc.chars + stack_chars stack := by
  induction stack generalizing acc with
  | nil => simp [stack_chars]
  | cons e rest ih =>
    rw [List.foldl_cons, ih]
    simp only [stack_chars, List.map_cons, List.sum_cons, ts_length_add]
    omega

theorem total_tree_size_chars (stack : TSStack) :
    (ts_stack_total_tree_size stack).chars = stack_chars stack := by
  simp [ts_stack_total_tree_size, foldl_total_chars, ts_length_zero]

theorem stack_chars_push (stack : TSStack) (state : Nat) (node : TSTree) :
    stack_chars (ts_stack_push stack state node)
      = stack_chars stack + (ts_tree_total_size node).chars := by
  simp [stack_chars, ts_stack_push]

theorem stack_chars_append (a b : TSStack) :
    stack_chars (a ++ b) = stack_chars a + stack_chars b := by
  simp [stack_chars]

theorem stack_chars_take_drop (stack : TSStack) (m : Nat) :
    stack_chars stack = stack_chars (stack.take m) + stack_chars (stack.drop m) := by
  rw [← stack_chars_append, List.take_append_drop]

theorem stack_chars_top_nodes (stack : TSStack) (k : Nat) :
    stack_chars (stack.drop (stack.length - k))
      = ((top_nodes stack k).map (fun t => (ts_tree_total_size t).chars)).sum := by
  simp [stack_chars, top_nodes, Function.comp_def]

theorem top_node_eq_some {stack : TSStack} {node : TSTree}
    (h : ts_stack_top_node stack = some node) :
    ∃ state, stack = ts_stack_push stack.dropLast state node := by
  unfold ts_stack_top_node at h
  cases hl : stack.getLast? with
  | none => simp [hl] at h
  | some e =>
    simp [hl] at h
    refine ⟨e.state, ?_⟩
    have := List.dropLast_append_getLast? e (by simpa using hl)
    unfold ts_stack_push
    rw [← h]
    exact this.symm

theorem top_node_eq_none {stack : TSStack} (h : ts_stack_top_node stack = none) : stack = [] := by
  simpa [ts_stack_top_node] using h

theorem top_state_push (stack : TSStack) (state : Nat) (node : TSTree) :
    ts_stack_top_state (ts_stack_push stack state node) = state := by
  simp [ts_stack_top_state, ts_stack_push]

theorem top_node_push (stack : TSStack) (state : Nat) (node : TSTree) :
    ts_stack_top_node (ts_stack_push stack state node) = some node := by
  simp [ts_stack_top_node, ts_stack_push]

theorem assign_top_node_push (stack : TSStack) (state : Nat) (node node1 : TSTree) :
    assign_top_node (ts_stack_push stack state node) node1 = ts_stack_push stack state node1 := by
  simp [assign_top_node, ts_stack_push]

theorem top_state_take (stack : TSStack) (i : Nat) (entry : TSStackEntry)
    (h : stack[i]? = some entry) : ts_stack_top_state (stack.take (i + 1)) = entry.state := by
  rw [List.take_succ, h]
  simp [ts_stack_top_state]

theorem forest_nodes_append (a b : List TSTree) :
    forest_nodes (a ++ b) = forest_nodes a + forest_nodes b := by
  induction a with
  | nil => simp [forest_nodes]
  | cons c cs ih => simp [forest_nodes, ih]; omega

theorem tree_nodes_eq (t : TSTree) : tree_nodes t = 1 + forest_nodes (ts_tree_children t) := by
  cases t
  simp [tree_nodes, ts_tree_children, TSTree.children]

theorem stack_nodes_push (stack : TSStack) (state : Nat) (node : TSTree) :
    stack_nodes (ts_stack_push stack state node) = stack_nodes stack + tree_nodes node := by
  simp [stack_nodes, ts_stack_push, forest_nodes_append, forest_nodes]

theorem top_nodes_length (stack : TSStack) (k : Nat) (hk : k ≤ stack.length) :
    (top_nodes stack k).length = k := by
  simp [top_nodes]; omega

theorem top_nodes_extras (stack : TSStack) (k : Nat) :
    (stack.reverse.take k).countP (fun e => ts_tree_is_extra e.node)
      = (top_nodes stack k).countP (fun t => ts_tree_is_extra t) := by
  rw [List.take_reverse, List.countP_reverse, top_nodes, List.countP_map]
  rfl

theorem top_nodes_head (stack : TSStack) (k : Nat) (hk : 0 < k) (hle : k ≤ stack.length)
    (c : TSTree) (hc : (top_nodes stack k).head? = some c) :
    ∃ e, stack.reverse[k - 1]? = some e ∧ e.node = c := by
  have hrev : stack.reverse[k - 1]? = stack[stack.length - 1 - (k - 1)]? :=
    List.getElem?_reverse (by omega)
  have hidx : stack.length - 1 - (k - 1) = stack.length - k := by omega
  rw [hidx] at hrev
  simp only [top_nodes, List.head?_map, List.head?_drop] at hc
  cases hs : stack[stack.length - k]? with
  | none => simp [hs] at hc
  | some e =>
    rw [hs] at hc
    exact ⟨e, by rw [hrev, hs], by simpa using hc⟩

theorem top_nodes_one (stack : TSStack) (top : TSTree)
    (htop : ts_stack_top_node stack = some top) :
    top_nodes stack 1 = [top] ∧ stack.take (stack.length - 1) = stack.dropLast := by
  obtain ⟨st, hst⟩ := top_node_eq_some htop
  constructor
  · rw [top_nodes]
    conv_lhs => rw [hst]
    simp [ts_stack_push]
  · rw [List.dropLast_eq_take]

/-! ### `break_down_right_stack` -/

theorem break_down_right_push_start (tc cur : Nat) (children : List TSTree) (stack : TSStack)
    (rss : Nat) (h : rss = size_sub tc (stack_chars stack)) :
    (break_down_right_push cur children stack rss).2
      = size_sub tc (stack_chars (break_down_right_push cur children stack rss).1) := by
  induction children generalizing stack rss with
  | nil => simpa [break_down_right_push] using h
  | cons child rest ih =>
    unfold break_down_right_push
    split
    · exact h
    · apply ih
      rw [h, size_sub_sub, stack_chars_push]

theorem break_down_right_stack_loop_usable (language : TSLanguage) (state cur tc : Nat)
    (fuel : Nat) (stack : TSStack) (rss : Nat) (node : TSTree) (stack1 : TSStack)
    (hinv : rss = size_sub tc (stack_chars stack))
    (h : break_down_right_stack_loop language state cur fuel stack rss = some (some node, stack1)) :
    ∃ before : TSStack, ts_stack_top_node before = some node ∧
      stack1 = ts_stack_shrink before (size_sub before.length 1) ∧
      is_usable (get_action language state node.symbol) node = true ∧
      size_sub tc (stack_chars before) = cur := by
  induction fuel generalizing stack rss with
  | zero => simp [break_down_right_stack_loop] at h
  | succ fuel ih =>
    unfold break_down_right_stack_loop at h
    split at h
    · simp at h
    · rename_i top htop
      split at h
      · simp at h
      · dsimp only at h
        split at h
        · rename_i huse
          simp only [Option.some.injEq, Prod.mk.injEq] at h
          obtain ⟨h1, h2⟩ := h
          subst h1
          refine ⟨stack, htop, ?_, huse.1, ?_⟩
          · exact h2.symm
          · rw [← hinv]; exact huse.2
        · obtain ⟨st, hst⟩ := top_node_eq_some htop
          refine ih _ _ ?_ h
          apply break_down_right_push_start
          have : stack_chars stack = stack_chars stack.dropLast + (ts_tree_total_size top).chars := by
            conv_lhs => rw [hst]
            exact stack_chars_push _ _ _
          rw [hinv, this, size_add_sub_cancel]

theorem is_usable_iff (action : TSParseAction) (node : TSTree) :
    is_usable action node = true ↔
      action.type ≠ TSParseActionType.Error ∧ ts_tree_is_extra node = false ∧
      ts_tree_is_empty node = false ∧ ts_tree_is_fragile_left node = false ∧
      ts_tree_is_fragile_right node = false := by
  simp [is_usable, and_assoc]

/-- C1: a node returned by `break_down_right_stack` was the top node of the right
stack at that moment (`before`), it is popped from it, the parse action for it
in the top state of the left stack is not Error, it is not extra, not empty and
not fragile on either side, and its start `total_chars - total chars of before`
(in `size_t` arithmetic) is the character position of the lexer; this node is
what `get_next_node` hands to the driver. -/
theorem break_down_right_stack_returns_usable (parser parser1 : TSParser) (node : TSTree)
    (h : break_down_right_stack parser = some (some node, parser1)) :
    ∃ before : TSStack, ts_stack_top_node before = some node ∧
      parser1 = { parser with right_stack := ts_stack_shrink before (size_sub before.length 1) } ∧
      (get_action parser.language (ts_stack_top_state parser.stack) node.symbol).type
        ≠ TSParseActionType.Error ∧
      ts_tree_is_extra node = false ∧ ts_tree_is_empty node = false ∧
      ts_tree_is_fragile_left node = false ∧ ts_tree_is_fragile_right node = false ∧
      size_sub parser.total_chars (ts_stack_total_tree_size before).chars
        = parser.lexer.current_position.chars ∧
      ∀ lex_state, (get_next_node parser lex_state).map Prod.fst = some node := by
  have hnext : ∀ lex_state, (get_next_node parser lex_state).map Prod.fst = some node := by
    intro lex_state
    simp [get_next_node, h]
  unfold break_down_right_stack at h
  dsimp only at h
  split at h
  · simp at h
  · rename_i n stack1 hloop
    simp only [Option.some.injEq, Prod.mk.injEq] at h
    obtain ⟨hn, hp⟩ := h
    subst hn
    obtain ⟨before, htop, hs, huse, hstart⟩ :=
      break_down_right_stack_loop_usable _ _ _ parser.total_chars _ _ _ _ _
        (by rw [total_tree_size_chars]) hloop
    rw [is_usable_iff] at huse
    refine ⟨before, htop, ?_, huse.1, huse.2.1, huse.2.2.1, huse.2.2.2.1, huse.2.2.2.2, ?_,
      hnext⟩
    · rw [← hp, hs]
    · rw [total_tree_size_chars]; exact hstart

theorem break_down_right_stack_returns_usable_witness :
    break_down_right_stack fx_reuse_state
      = some (some (fx_leaf 4 1), { fx_reuse_state with right_stack := [⟨0, fx_leaf 3 1⟩] }) ∧
    ∃ before : TSStack, ts_stack_top_node before = some (fx_leaf 4 1) ∧
      ({ fx_reuse_state with right_stack := [⟨0, fx_leaf 3 1⟩] } : TSParser)
        = { fx_reuse_state with
            right_stack := ts_stack_shrink before (size_sub before.length 1) } ∧
      (get_action fx_reuse_state.language (ts_stack_top_state fx_reuse_state.stack)
        (fx_leaf 4 1).symbol).type ≠ TSParseActionType.Error ∧
      ts_tree_is_extra (fx_leaf 4 1) = false ∧ ts_tree_is_empty (fx_leaf 4 1) = false ∧
      ts_tree_is_fragile_left (fx_leaf 4 1) = false ∧
      ts_tree_is_fragile_right (fx_leaf 4 1) = false ∧
      size_sub fx_reuse_state.total_chars (ts_stack_total_tree_size before).chars
        = fx_reuse_state.lexer.current_position.chars ∧
      ∀ lex_state, (get_next_node fx_reuse_state lex_state).map Prod.fst = some (fx_leaf 4 1) :=
  ⟨rfl, break_down_right_stack_returns_usable _ _ _ rfl⟩

/-! ### `break_down_left_stack` -/

theorem break_down_left_push_nodes (language : TSLanguage) (position : Nat)
    (children : List TSTree) (stack : TSStack) (left_end : TSLength) (i : Nat) :
    stack_nodes (break_down_left_push language position children stack left_end i).1
      ≤ stack_nodes stack + forest_nodes children := by
  induction children generalizing stack left_end i with
  | nil => simp [break_down_left_push]
  | cons child rest ih =>
    unfold break_down_left_push
    split
    · dsimp only
      refine le_trans (ih _ _ _) ?_
      rw [stack_nodes_push]
      simp [forest_nodes]; omega
    · simp

theorem break_down_left_stack_loop_terminates (B : TSBuiltins) (language : TSLanguage)
    (edit : TSInputEdit) (fuel : Nat) (stack right_stack : TSStack) (left_end : TSLength)
    (rss : Nat) (hfuel : stack_nodes stack < fuel) :
    ∃ r, break_down_left_stack_loop B language edit fuel stack right_stack left_end rss = some r := by
  induction fuel generalizing stack right_stack left_end rss with
  | zero => omega
  | succ fuel ih =>
    unfold break_down_left_stack_loop
    split
    · exact ⟨_, rfl⟩
    · rename_i node htop
      dsimp only
      split
      · exact ⟨_, rfl⟩
      · apply ih
        obtain ⟨st, hst⟩ := top_node_eq_some htop
        have h1 := break_down_left_push_nodes language edit.position (ts_tree_children node)
          stack.dropLast (ts_length_sub left_end (ts_tree_total_size node)) 0
        have h2 : stack_nodes stack = stack_nodes stack.dropLast + tree_nodes node := by
          conv_lhs => rw [hst]
          exact stack_nodes_push _ _ _
        rw [tree_nodes_eq] at h2
        omega

theorem break_down_left_stack_loop_post (B : TSBuiltins) (language : TSLanguage)
    (edit : TSInputEdit) (fuel : Nat) (stack right_stack : TSStack) (left_end : TSLength)
    (rss : Nat) (r : TSLength × TSStack × TSStack)
    (h : break_down_left_stack_loop B language edit fuel stack right_stack left_end rss = some r) :
    ts_stack_top_node r.2.1 = none ∨
      ∃ node, ts_stack_top_node r.2.1 = some node ∧ ts_tree_children node = [] ∧
        node.symbol ≠ B.ts_builtin_sym_error ∧ r.1.chars < edit.position := by
  induction fuel generalizing stack right_stack left_end rss with
  | zero => simp [break_down_left_stack_loop] at h
  | succ fuel ih =>
    unfold break_down_left_stack_loop at h
    split at h
    · rename_i htop
      simp only [Option.some.injEq] at h
      subst h
      exact Or.inl htop
    · rename_i node htop
      dsimp only at h
      split at h
      · rename_i hc
        simp only [Option.some.injEq] at h
        subst h
        exact Or.inr ⟨node, htop, by simpa using hc.2.1, hc.2.2, hc.1⟩
      · exact ih _ _ _ _ h

/-- C2: `break_down_left_stack` returns, and on return either the left stack is
empty, or its top node has no children, is not an ERROR node and the returned
position lies strictly before `edit.position`. -/
theorem break_down_left_stack_stops_before_edit (B : TSBuiltins) (parser : TSParser)
    (edit : TSInputEdit) :
    ∃ (position : TSLength) (parser1 : TSParser),
      break_down_left_stack B parser edit = some (position, parser1) ∧
      (parser1.stack = [] ∨
        ∃ node, ts_stack_top_node parser1.stack = some node ∧ ts_tree_children node = [] ∧
          node.symbol ≠ B.ts_builtin_sym_error ∧ position.chars < edit.position) := by
  obtain ⟨r, hr⟩ := break_down_left_stack_loop_terminates B parser.language edit
    (stack_nodes parser.stack + 1) parser.stack (ts_stack_shrink parser.right_stack 0)
    (ts_stack_total_tree_size parser.stack)
    (size_sub (size_add (ts_stack_total_tree_size parser.stack).chars edit.chars_inserted)
      edit.chars_removed) (Nat.lt_succ_self _)
  have hpost := break_down_left_stack_loop_post _ _ _ _ _ _ _ _ _ hr
  obtain ⟨pos, st, rs⟩ := r
  refine ⟨pos, { parser with
      stack := st, right_stack := rs,
      total_chars := size_sub
        (size_add (ts_stack_total_tree_size parser.stack).chars edit.chars_inserted)
        edit.chars_removed }, ?_, ?_⟩
  · unfold break_down_left_stack
    dsimp only
    rw [hr]
  · rcases hpost with h | h
    · exact Or.inl (top_node_eq_none h)
    · exact Or.inr h

/-- C3: on the tree of `1+2` and the edit that removes its first two characters
`(position = 0, inserted = 0, removed = 2)`, `break_down_left_stack` pushes the
node SUM onto the right stack and nothing else. SUM starts at character 0 of the
old text, so its start in post-edit coordinates, `0 + inserted - removed`, is
not at or beyond `position + inserted`: the subtraction of the three characters
of SUM from `right_subtree_start = 1` wraps around in `size_t`, and the result
is not below the bound. -/
theorem break_down_left_stack_pushes_removed_node :
    (break_down_left_stack fx_builtins fx_sum_state fx_remove_front).map
        (fun r => (r.2.right_stack.map (fun e => e.node.symbol), r.2.total_chars))
      = some ([5], 1) ∧
    (5, 0) ∈ forest_starts 0 (fx_sum_state.stack.map TSStackEntry.node) ∧
    ¬ (fx_remove_front.position + fx_remove_front.chars_inserted
        + fx_remove_front.chars_removed ≤ 0 + fx_remove_front.chars_inserted) ∧
    size_sub 1 (ts_tree_total_size (fx_node 5 [fx_leaf 3 1, fx_leaf 4 1, fx_leaf 3 1])).chars
      = SIZE_MOD - 2 ∧
    ¬ (SIZE_MOD - 2 < size_add fx_remove_front.position fx_remove_front.chars_inserted) := by
  refine ⟨by rfl, by decide, by decide, by decide, by decide⟩

/-- C4: on `DOCUMENT[5[3, 4], 6, 7]` and the edit `(position = 2, inserted = 0,
removed = 4)` that removes the tokens `4`, `6` and `7`, the right stack ends up
holding the removed token `4` alone: the loop stops at `7`, and for `4` the
subtraction `1 - 2` wraps around in `size_t`. The leaves of the right stack are
not a suffix of the leaves of the old tree, and `total_chars` minus the total
chars of the right stack is 0, so that the removed token is offered for reuse
at the start of the new text. On the tree of `1+2` and the insertion of one
character at 1 the right stack is PLUS above INT. -/
theorem break_down_left_stack_right_stack_gap :
    (break_down_left_stack fx_builtins fx_nested_state fx_remove_tail).map
        (fun r => (r.1.chars, r.2.stack.length,
          forest_frontier (r.2.right_stack.reverse.map TSStackEntry.node), r.2.total_chars,
          size_sub r.2.total_chars (ts_stack_total_tree_size r.2.right_stack).chars))
      = some (0, 0, [4], 2, 0) ∧
    forest_frontier (fx_nested_state.stack.map TSStackEntry.node) = [3, 4, 6, 7] ∧
    ¬ ([4] <:+ [3, 4, 6, 7]) ∧
    (break_down_left_stack fx_builtins fx_sum_state ⟨1, 1, 0⟩).map
        (fun r => r.2.right_stack.map TSStackEntry.node)
      = some [fx_leaf 3 1, fx_leaf 4 1] := by
  refine ⟨by rfl, by decide, by decide, by rfl⟩

theorem break_down_left_push_prefix (language : TSLanguage) (position : Nat)
    (children : List TSTree) (stack : TSStack) (left_end : TSLength) (i : Nat) :
    ∃ tail, (break_down_left_push language position children stack left_end i).1
      = stack ++ tail := by
  induction children generalizing stack left_end i with
  | nil => exact ⟨[], by simp [break_down_left_push]⟩
  | cons child rest ih =>
    unfold break_down_left_push
    split
    · dsimp only
      obtain ⟨tail, ht⟩ := ih (ts_stack_push stack
        (if ts_tree_is_extra child = true then ts_stack_top_state stack
          else (get_action language (ts_stack_top_state stack) child.symbol).to_state) child)
        (ts_length_add left_end (ts_tree_total_size child)) (i + 1)
      exact ⟨⟨if ts_tree_is_extra child = true then ts_stack_top_state stack
          else (get_action language (ts_stack_top_state stack) child.symbol).to_state, child⟩
        :: tail, by rw [ht]; simp [ts_stack_push]⟩
    · exact ⟨[], by simp⟩

/-- C5 as amended: a child that the re-push loop of `break_down_left_stack`
visits while `left_subtree_end.chars < edit.position` is pushed onto the left
stack whatever the type of its table action is: an extra child under the top
state, any other child under the `to_state` field of its action. A non-extra
child whose table cell is null has the action Error and is pushed under state
0, the `to_state` of `ERROR_ACTION`. -/
theorem break_down_left_push_pushes_error_child (language : TSLanguage) (position : Nat)
    (child : TSTree) (rest : List TSTree) (stack : TSStack) (left_end : TSLength) (i : Nat)
    (hpos : left_end.chars < position) :
    (∃ tail, (break_down_left_push language position (child :: rest) stack left_end i).1
      = stack ++ ⟨if ts_tree_is_extra child = true then ts_stack_top_state stack
          else (get_action language (ts_stack_top_state stack) child.symbol).to_state, child⟩
        :: tail) ∧
    (ts_tree_is_extra child = false →
      language.parse_table (ts_stack_top_state stack * language.symbol_count + child.symbol)
        = none →
      (get_action language (ts_stack_top_state stack) child.symbol).type
        = TSParseActionType.Error ∧
      (if ts_tree_is_extra child = true then ts_stack_top_state stack
        else (get_action language (ts_stack_top_state stack) child.symbol).to_state) = 0) := by
  constructor
  · unfold break_down_left_push
    rw [if_pos hpos]
    dsimp only
    obtain ⟨tail, ht⟩ := break_down_left_push_prefix language position rest
      (ts_stack_push stack (if ts_tree_is_extra child = true then ts_stack_top_state stack
          else (get_action language (ts_stack_top_state stack) child.symbol).to_state) child)
      (ts_length_add left_end (ts_tree_total_size child)) (i + 1)
    refine ⟨tail, ?_⟩
    rw [ht]
    simp [ts_stack_push]
  · intro hextra hnull
    have hact : get_action language (ts_stack_top_state stack) child.symbol = ERROR_ACTION := by
      simp [get_action, hnull]
    rw [hact, hextra]
    exact ⟨rfl, rfl⟩

theorem break_down_left_push_pushes_error_child_witness :
    ts_length_zero.chars < 2 ∧
    ((∃ tail, (break_down_left_push fx_null_language 2 (fx_leaf 3 1 :: [fx_leaf 4 1]) []
        ts_length_zero 0).1
      = [] ++ ⟨if ts_tree_is_extra (fx_leaf 3 1) = true then ts_stack_top_state []
          else (get_action fx_null_language (ts_stack_top_state []) (fx_leaf 3 1).symbol).to_state,
          fx_leaf 3 1⟩ :: tail) ∧
    (ts_tree_is_extra (fx_leaf 3 1) = false →
      fx_null_language.parse_table
        (ts_stack_top_state [] * fx_null_language.symbol_count + (fx_leaf 3 1).symbol) = none →
      (get_action fx_null_language (ts_stack_top_state []) (fx_leaf 3 1).symbol).type
        = TSParseActionType.Error ∧
      (if ts_tree_is_extra (fx_leaf 3 1) = true then ts_stack_top_state []
        else (get_action fx_null_language (ts_stack_top_state [])
          (fx_leaf 3 1).symbol).to_state) = 0)) :=
  ⟨by decide,
    break_down_left_push_pushes_error_child fx_null_language 2 (fx_leaf 3 1) [fx_leaf 4 1] []
      ts_length_zero 0 (by decide)⟩

/-- C5, counterexample: with an empty parse table, breaking down `DOCUMENT[3, 4]`
for an edit at character 2 leaves the non-extra child `3` on the left stack,
although `get_action` gives Error for it. -/
theorem break_down_left_stack_keeps_error_child :
    (break_down_left_stack fx_builtins fx_null_state ⟨2, 0, 0⟩).map
        (fun r => (r.1.chars, r.2.stack.map (fun e => (e.state, e.node.symbol))))
      = some (1, [(0, 3)]) ∧
    (fx_null_state.stack.map (fun e => (ts_tree_children e.node).map TSTree.symbol))
      = [[3, 4]] ∧
    ts_tree_is_extra (fx_leaf 3 1) = false ∧
    (get_action fx_null_state.language 0 3).type = TSParseActionType.Error := by
  refine ⟨by rfl, by rfl, by rfl, by rfl⟩

/-! ### The reductions -/

/-- The slice of `reduce_helper` once the number of children `k` is known. -/
theorem reduce_helper_slice (parser : TSParser) (symbol n k : Nat) ( extra count_extra : Bool)
    (hcount : (if count_extra = true then some n
      else reduce_count parser.stack (parser.stack.length + 1) 0 n) = some k)
    (hk : k ≤ parser.stack.length) (hlen : parser.stack.length < SIZE_MOD) :
    reduce_helper parser symbol n extra count_extra
      = some (ts_tree_make_node symbol (top_nodes parser.stack k)
            (parser.language.hidden_symbol_flags symbol),
          { parser with
            stack := ts_stack_push (parser.stack.take (parser.stack.length - k))
              (if extra = true then ts_stack_top_state (parser.stack.take (parser.stack.length - k))
                else (get_action parser.language
                  (ts_stack_top_state (parser.stack.take (parser.stack.length - k))) symbol).to_state)
              (ts_tree_make_node symbol (top_nodes parser.stack k)
                (parser.language.hidden_symbol_flags symbol)) }) := by
  unfold reduce_helper
  simp only [hcount, if_pos hk, size_sub_eq hk hlen, ts_stack_shrink, top_nodes]
  have : List.take k (List.drop (parser.stack.length - k) parser.stack)
      = List.drop (parser.stack.length - k) parser.stack := by
    apply List.take_of_length_le
    simp
    omega
  rw [this]

theorem reduce_count_spec (stack : TSStack) (n : Nat) (hlen : stack.length < SIZE_MOD) :
    ∀ (fuel i cc : Nat), i ≤ cc → cc ≤ stack.length → stack.length < fuel + i →
      cc = n + (stack.reverse.take i).countP (fun e => ts_tree_is_extra e.node) →
      (i = cc → 0 < i → ∀ e, stack.reverse[i - 1]? = some e → ts_tree_is_extra e.node = false) →
      ∃ k, reduce_count stack fuel i cc = some k ∧ k ≤ stack.length ∧ n ≤ k ∧
        (k = stack.length ∨
          (k = n + (stack.reverse.take k).countP (fun e => ts_tree_is_extra e.node) ∧
            (0 < k → ∀ e, stack.reverse[k - 1]? = some e → ts_tree_is_extra e.node = false))) := by
  intro fuel
  induction fuel with
  | zero => intro i cc h1 h2 h3; omega
  | succ fuel ih =>
    intro i cc hicc hcc hfuel hinv hlast
    unfold reduce_count
    by_cases hlt : i < cc
    · rw [if_pos hlt]
      by_cases heq : cc = stack.length
      · rw [if_pos heq]
        exact ⟨cc, rfl, hcc, by omega, Or.inl heq⟩
      · rw [if_neg heq]
        have hi : i < stack.length := by omega
        have hidx : size_sub (size_sub stack.length 1) i = stack.length - 1 - i := by
          rw [size_sub_eq (by omega) hlen, size_sub_eq (by omega) (by omega)]
        have hrev : stack.reverse[i]? = stack[stack.length - 1 - i]? :=
          List.getElem?_reverse hi
        have hsome : ∃ e, stack[stack.length - 1 - i]? = some e := by
          have : stack.length - 1 - i < stack.length := by omega
          exact ⟨_, List.getElem?_eq_getElem this⟩
        obtain ⟨e, he⟩ := hsome
        rw [hidx, he]
        dsimp only
        have htake : stack.reverse.take (i + 1) = stack.reverse.take i ++ [e] := by
          rw [List.take_succ, hrev, he]; rfl
        by_cases hex : ts_tree_is_extra e.node = true
        · rw [if_pos hex, size_add_eq (by omega)]
          apply ih (i + 1) (cc + 1) (by omega) (by omega) (by omega)
          · rw [htake, List.countP_append]
            simp [hex]; omega
          · intro h; omega
        · rw [if_neg hex]
          apply ih (i + 1) cc (by omega) (by omega) (by omega)
          · rw [htake, List.countP_append]
            simp [hex]; omega
          · intro _ _ e1 he1
            simp only [Nat.add_sub_cancel] at he1
            rw [hrev, he] at he1
            simp only [Option.some.injEq] at he1
            subst he1
            simpa using hex
    · rw [if_neg hlt]
      have : i = cc := by omega
      subst this
      exact ⟨i, rfl, hcc, by omega, Or.inr ⟨hinv, hlast rfl⟩⟩

theorem reduce_count_top (stack : TSStack) (n : Nat) (hn : n ≤ stack.length)
    (hlen : stack.length < SIZE_MOD) :
    ∃ k, reduce_count stack (stack.length + 1) 0 n = some k ∧ k ≤ stack.length ∧ n ≤ k ∧
      (k = stack.length ∨
        (k = n + (stack.reverse.take k).countP (fun e => ts_tree_is_extra e.node) ∧
          (0 < k → ∀ e, stack.reverse[k - 1]? = some e → ts_tree_is_extra e.node = false))) :=
  reduce_count_spec stack n hlen (stack.length + 1) 0 n (by omega) hn (by omega) (by simp)
    (by intro _ h; omega)

theorem reduce_count_one (stack : TSStack) (top : TSTree) (hlen : stack.length < SIZE_MOD)
    (htop : ts_stack_top_node stack = some top) (hne : ts_tree_is_extra top = false) :
    reduce_count stack (stack.length + 1) 0 1 = some 1 := by
  obtain ⟨st, hst⟩ := top_node_eq_some htop
  have hl : stack.length = stack.dropLast.length + 1 := by
    conv_lhs => rw [hst]
    simp [ts_stack_push]
  unfold reduce_count
  rw [if_pos (by omega)]
  by_cases h1 : 1 = stack.length
  · rw [if_pos h1]
  · rw [if_neg h1]
    have hidx : size_sub (size_sub stack.length 1) 0 = stack.dropLast.length := by
      rw [size_sub_eq (by omega) hlen, size_sub_eq (by omega) (by omega)]
      omega
    have hget : stack[stack.dropLast.length]? = some ⟨st, top⟩ := by
      conv_lhs => rw [hst]
      simp [ts_stack_push]
    rw [hidx, hget]
    dsimp only
    rw [hne]
    simp only [Bool.false_eq_true, if_false]
    rw [hl]
    unfold reduce_count
    simp

/-- C8: `reduce(symbol, n)` on a stack of at least `n` entries takes the top `k`
entries as children, `n ≤ k`. Either `k` is the size of the stack, or the top
`k` entries hold exactly `n` non-extra nodes and the deepest of them, the first
child, is not extra. The children of the parent are those `k` nodes in stack
order; the stack loses them and gains the parent. -/
theorem reduce_takes_declared_children (parser : TSParser) (symbol n : Nat)
    (hn : n ≤ parser.stack.length) (hlen : parser.stack.length < SIZE_MOD) :
    ∃ (k : Nat) (parser1 : TSParser) (state : Nat) (parent : TSTree),
      reduce parser symbol n = some parser1 ∧ n ≤ k ∧ k ≤ parser.stack.length ∧
      parser1.stack = parser.stack.take (parser.stack.length - k) ++ [⟨state, parent⟩] ∧
      parser1.stack.length + k = parser.stack.length + 1 ∧
      parent.symbol = symbol ∧
      ts_tree_children parent = top_nodes parser.stack k ∧
      state = (get_action parser.language
        (ts_stack_top_state (parser.stack.take (parser.stack.length - k))) symbol).to_state ∧
      (k = parser.stack.length ∨
        ((top_nodes parser.stack k).countP (fun t => !ts_tree_is_extra t) = n ∧
          ∀ c, (top_nodes parser.stack k).head? = some c → ts_tree_is_extra c = false)) := by
  obtain ⟨k, hcount, hk, hnk, hcase⟩ := reduce_count_top parser.stack n hn hlen
  have hred := reduce_helper_slice parser symbol n k false false (by simpa using hcount) hk hlen
  refine ⟨k, _, (get_action parser.language
      (ts_stack_top_state (parser.stack.take (parser.stack.length - k))) symbol).to_state,
    ts_tree_make_node symbol (top_nodes parser.stack k)
      (parser.language.hidden_symbol_flags symbol),
    by unfold reduce; rw [hred]; rfl, hnk, hk, ?_, ?_, rfl, rfl, rfl, ?_⟩
  · simp [ts_stack_push]
  · simp [ts_stack_push]; omega
  · rcases hcase with h | ⟨h1, h2⟩
    · exact Or.inl h
    · right
      constructor
      · have hl := List.length_eq_countP_add_countP (fun t => ts_tree_is_extra t)
          (top_nodes parser.stack k)
        rw [top_nodes_length _ _ hk, ← top_nodes_extras] at hl
        have : List.countP (fun t => !ts_tree_is_extra t) (top_nodes parser.stack k)
            = List.countP (fun a => decide ¬ts_tree_is_extra a = true)
              (top_nodes parser.stack k) := by
          congr 1
          funext t
          cases ts_tree_is_extra t <;> rfl
        rw [this]
        omega
      · intro c hc
        have hkpos : 0 < k := by
          rcases Nat.eq_zero_or_pos k with h0 | h0
          · subst h0
            simp [top_nodes] at hc
          · exact h0
        obtain ⟨e, he, hec⟩ := top_nodes_head parser.stack k hkpos hk c hc
        rw [← hec]
        exact h2 hkpos e he

theorem reduce_takes_declared_children_witness :
    (3 ≤ fx_reduce_state.stack.length ∧ fx_reduce_state.stack.length < SIZE_MOD ∧
      (reduce fx_reduce_state 5 3).map
          (fun r => r.stack.map (fun e => (e.node.symbol, (ts_tree_children e.node).length)))
        = some [(7, 0), (5, 4)]) ∧
    ∃ (k : Nat) (parser1 : TSParser) (state : Nat) (parent : TSTree),
      reduce fx_reduce_state 5 3 = some parser1 ∧ 3 ≤ k ∧ k ≤ fx_reduce_state.stack.length ∧
      parser1.stack
        = fx_reduce_state.stack.take (fx_reduce_state.stack.length - k) ++ [⟨state, parent⟩] ∧
      parser1.stack.length + k = fx_reduce_state.stack.length + 1 ∧
      parent.symbol = 5 ∧
      ts_tree_children parent = top_nodes fx_reduce_state.stack k ∧
      state = (get_action fx_reduce_state.language
        (ts_stack_top_state
          (fx_reduce_state.stack.take (fx_reduce_state.stack.length - k))) 5).to_state ∧
      (k = fx_reduce_state.stack.length ∨
        ((top_nodes fx_reduce_state.stack k).countP (fun t => !ts_tree_is_extra t) = 3 ∧
          ∀ c, (top_nodes fx_reduce_state.stack k).head? = some c →
            ts_tree_is_extra c = false)) :=
  ⟨⟨by decide, by decide, by decide⟩,
    reduce_takes_declared_children fx_reduce_state 5 3 (by decide) (by decide)⟩

/-- C9 as amended: on a stack whose top node is not extra, `reduce_extra`
reduces exactly one child: the new node has the former top node as its only
child, is marked extra, and is pushed under the top state of the stack beneath
it, so the size of the stack is unchanged. -/
theorem reduce_extra_takes_one_child (parser : TSParser) (symbol : Nat) (top : TSTree)
    (hlen : parser.stack.length < SIZE_MOD)
    (htop : ts_stack_top_node parser.stack = some top) (hne : ts_tree_is_extra top = false) :
    ∃ (parser1 : TSParser) (node : TSTree),
      reduce_extra parser symbol = some parser1 ∧
      parser1.stack = parser.stack.dropLast ++ [⟨ts_stack_top_state parser.stack.dropLast, node⟩] ∧
      node.symbol = symbol ∧ ts_tree_children node = [top] ∧ ts_tree_is_extra node = true ∧
      parser1.stack.length = parser.stack.length := by
  have hcount := reduce_count_one parser.stack top hlen htop hne
  obtain ⟨st, hst⟩ := top_node_eq_some htop
  have hl : parser.stack.length = parser.stack.dropLast.length + 1 := by
    conv_lhs => rw [hst]
    simp [ts_stack_push]
  have hred := reduce_helper_slice parser symbol 1 1 true false (by simpa using hcount)
    (by omega) hlen
  obtain ⟨hnodes, htake⟩ := top_nodes_one parser.stack top htop
  rw [hnodes, htake] at hred
  refine ⟨{ parser with
      stack := ts_stack_push parser.stack.dropLast (ts_stack_top_state parser.stack.dropLast)
        (ts_tree_set_extra (ts_tree_make_node symbol [top]
          (parser.language.hidden_symbol_flags symbol))) },
    ts_tree_set_extra (ts_tree_make_node symbol [top]
      (parser.language.hidden_symbol_flags symbol)), ?_, rfl, rfl, rfl, rfl, ?_⟩
  · unfold reduce_extra
    rw [hred]
    simp [assign_top_node_push]
  · simp only [ts_stack_push, List.length_append, List.length_singleton]
    omega

theorem reduce_extra_takes_one_child_witness :
    (fx_reuse_state.stack.length < SIZE_MOD ∧
      ts_stack_top_node fx_reuse_state.stack = some (fx_leaf 3 2) ∧
      ts_tree_is_extra (fx_leaf 3 2) = false) ∧
    ∃ (parser1 : TSParser) (node : TSTree),
      reduce_extra fx_reuse_state 7 = some parser1 ∧
      parser1.stack = fx_reuse_state.stack.dropLast
        ++ [⟨ts_stack_top_state fx_reuse_state.stack.dropLast, node⟩] ∧
      node.symbol = 7 ∧ ts_tree_children node = [fx_leaf 3 2] ∧ ts_tree_is_extra node = true ∧
      parser1.stack.length = fx_reuse_state.stack.length :=
  ⟨⟨by decide, rfl, rfl⟩,
    reduce_extra_takes_one_child fx_reuse_state 7 (fx_leaf 3 2) (by decide) rfl rfl⟩

/-- C9, counterexample: on the stack `[INT, extra token]`, `reduce_extra` takes
both entries as children and the stack shrinks from two entries to one. -/
theorem reduce_extra_takes_two_children :
    fx_extra_top_state.stack ≠ [] ∧
    ¬ ∃ (parser1 : TSParser) (node : TSTree),
      reduce_extra fx_extra_top_state 7 = some parser1 ∧
      ts_stack_top_node parser1.stack = some node ∧
      (ts_tree_children node).length = 1 ∧
      parser1.stack.length = fx_extra_top_state.stack.length := by
  refine ⟨by simp [fx_extra_top_state, fx_parse_state], ?_⟩
  rintro ⟨parser1, node, h1, _, _, h4⟩
  have hval : (reduce_extra fx_extra_top_state 7).map (fun r => r.stack.length) = some 1 := rfl
  rw [h1] at hval
  simp only [Option.map_some', Option.some.injEq] at hval
  rw [hval] at h4
  exact absurd h4 (by decide)

theorem reduce_error_eq (B : TSBuiltins) (parser : TSParser) (n : Nat) (lookahead : TSTree)
    (hla : parser.lookahead = some lookahead) (hn : n ≤ parser.stack.length)
    (hlen : parser.stack.length < SIZE_MOD) :
    reduce_error B parser n
      = some { parser with
          stack := ts_stack_push (parser.stack.take (parser.stack.length - n))
            (get_action parser.language
              (ts_stack_top_state (parser.stack.take (parser.stack.length - n)))
              B.ts_builtin_sym_error).to_state
            (reduce_error_node B parser.language (top_nodes parser.stack n) lookahead)
          lookahead := some (tree_assign_padding ts_length_zero lookahead) } := by
  unfold reduce_error
  rw [reduce_helper_slice parser B.ts_builtin_sym_error n n false true (by simp) hn hlen]
  simp only [hla, assign_top_node_push, reduce_error_node]
  simp

theorem reduce_error_node_symbol (B : TSBuiltins) (language : TSLanguage)
    (children : List TSTree) (lookahead : TSTree) :
    (reduce_error_node B language children lookahead).symbol = B.ts_builtin_sym_error := rfl

theorem reduce_error_node_children (B : TSBuiltins) (language : TSLanguage)
    (children : List TSTree) (lookahead : TSTree) :
    ts_tree_children (reduce_error_node B language children lookahead) = children := rfl

theorem reduce_error_node_fragile (B : TSBuiltins) (language : TSLanguage)
    (children : List TSTree) (lookahead : TSTree) :
    ts_tree_is_fragile_left (reduce_error_node B language children lookahead) = true ∧
    ts_tree_is_fragile_right (reduce_error_node B language children lookahead) = true :=
  ⟨rfl, rfl⟩

theorem tree_assign_padding_fields (v : TSLength) (t : TSTree) :
    (tree_assign_padding v t).padding = v ∧ (tree_assign_padding v t).size = t.size ∧
    (tree_assign_padding v t).symbol = t.symbol ∧
    ts_tree_children (tree_assign_padding v t) = ts_tree_children t := by
  cases t
  exact ⟨rfl, rfl, rfl, rfl⟩

theorem break_down_right_stack_frame (parser parser1 : TSParser) (node : Option TSTree)
    (h : break_down_right_stack parser = some (node, parser1)) :
    parser1.stack = parser.stack ∧ parser1.language = parser.language ∧
    parser1.lookahead = parser.lookahead := by
  unfold break_down_right_stack at h
  dsimp only at h
  split at h
  · simp at h
  · simp only [Option.some.injEq, Prod.mk.injEq] at h
    obtain ⟨_, hp⟩ := h
    subst hp
    exact ⟨rfl, rfl, rfl⟩

theorem get_next_node_frame (parser parser1 : TSParser) (lex_state : Nat) (node : TSTree)
    (h : get_next_node parser lex_state = some (node, parser1)) :
    parser1.stack = parser.stack ∧ parser1.language = parser.language := by
  unfold get_next_node at h
  split at h
  · simp at h
  · rename_i n p1 hb
    simp only [Option.some.injEq, Prod.mk.injEq] at h
    obtain ⟨_, hp⟩ := h
    subst hp
    have := break_down_right_stack_frame _ _ _ hb
    exact ⟨this.1, this.2.1⟩
  · rename_i p1 hb
    simp only [Option.some.injEq, Prod.mk.injEq] at h
    obtain ⟨_, hp⟩ := h
    subst hp
    have := break_down_right_stack_frame _ _ _ hb
    exact ⟨this.1, this.2.1⟩

theorem handle_error_skip_frame (B : TSBuiltins) (parser parser1 : TSParser)
    (h : handle_error_skip B parser = some parser1) :
    ∃ lookahead, parser.lookahead = some lookahead ∧
      parser1.stack = parser.stack ++ [⟨ts_stack_top_state parser.stack, lookahead⟩] ∧
      parser1.language = parser.language := by
  unfold handle_error_skip at h
  split at h
  · simp at h
  · rename_i p1 hshift
    split at h
    · simp at h
    · rename_i node p2 hnext
      simp only [Option.some.injEq] at h
      subst h
      unfold shift at hshift
      split at hshift
      · simp at hshift
      · rename_i la hla
        simp only [Option.some.injEq] at hshift
        subst hshift
        have := get_next_node_frame _ _ _ _ hnext
        exact ⟨la, hla, by simpa [ts_stack_push] using this.1, this.2⟩

theorem handle_error_unwind_found (B : TSBuiltins) (language : TSLanguage) (stack : TSStack)
    (symbol : Nat) (bound i : Nat)
    (h : handle_error_unwind B language stack symbol bound = some (some i)) :
    i < bound ∧ ∃ entry, stack[i]? = some entry ∧
      (get_action language entry.state B.ts_builtin_sym_error).type = TSParseActionType.Shift ∧
      (get_action language
        (get_action language entry.state B.ts_builtin_sym_error).to_state symbol).type
        ≠ TSParseActionType.Error := by
  induction bound with
  | zero => simp [handle_error_unwind] at h
  | succ j ih =>
    unfold handle_error_unwind at h
    split at h
    · simp at h
    · rename_i entry hentry
      dsimp only at h
      split at h
      · rename_i hshift
        split at h
        · rename_i hafter
          simp only [Option.some.injEq] at h
          subst h
          exact ⟨Nat.lt_succ_self _, entry, hentry, hshift, hafter⟩
        · obtain ⟨h1, h2⟩ := ih h
          exact ⟨Nat.lt_succ_of_lt h1, h2⟩
      · obtain ⟨h1, h2⟩ := ih h
        exact ⟨Nat.lt_succ_of_lt h1, h2⟩

/-- The rounds of `handle_error`: when the loop returns, some number of tokens
has been skipped, each pushed on top of the stack, and the loop ends with a
`reduce_error` either at an index found by the unwinding or at the end of the
input. -/
theorem handle_error_loop_rounds (B : TSBuiltins) (index_before_error : Nat) :
    ∀ (fuel : Nat) (parser : TSParser) (code : Nat) (parser1 : TSParser),
      handle_error_loop B index_before_error fuel parser = some (code, parser1) →
      ∃ (rounds : Nat) (last : TSParser) (lookahead : TSTree) (pushed : TSStack),
        rounds ≤ fuel ∧ last.language = parser.language ∧ last.lookahead = some lookahead ∧
        last.stack = parser.stack ++ pushed ∧
        pushed.map TSStackEntry.node = skipped_tokens B rounds parser ∧
        pushed.length = rounds ∧
        ((code = 1 ∧ ∃ i,
            handle_error_unwind B last.language last.stack lookahead.symbol
              (size_add index_before_error 1) = some (some i) ∧
            reduce_error B last (size_sub (size_sub last.stack.length i) 1) = some parser1) ∨
          (code = 0 ∧ 0 < rounds ∧ lookahead.symbol = B.ts_builtin_sym_end ∧
            reduce_error B last
              (size_sub (size_sub last.stack.length index_before_error) 1) = some parser1)) := by
  intro fuel
  induction fuel with
  | zero => intro parser code parser1 h; simp [handle_error_loop] at h
  | succ fuel ih =>
    intro parser code parser1 h
    unfold handle_error_loop at h
    split at h
    · simp at h
    · rename_i la hla
      split at h
      · simp at h
      · rename_i i hunwind
        simp only [Option.map_eq_some', Prod.mk.injEq] at h
        obtain ⟨p1, hred, hcode, hp⟩ := h
        subst hp
        refine ⟨0, parser, la, [], Nat.zero_le _, rfl, hla, by simp, by simp [skipped_tokens],
          rfl, Or.inl ⟨hcode.symm, i, hunwind, hred⟩⟩
      · rename_i hunwind
        split at h
        · simp at h
        · rename_i p1 hskip
          obtain ⟨la', hla', hstack, hlang⟩ := handle_error_skip_frame B parser p1 hskip
          rw [hla] at hla'
          simp only [Option.some.injEq] at hla'
          subst hla'
          split at h
          · simp at h
          · rename_i la1 hla1
            split at h
            · rename_i hend
              simp only [Option.map_eq_some', Prod.mk.injEq] at h
              obtain ⟨p2, hred, hcode, hp⟩ := h
              subst hp
              refine ⟨1, p1, la1, [⟨ts_stack_top_state parser.stack, la⟩], by omega, hlang, hla1,
                hstack, ?_, rfl, Or.inr ⟨hcode.symm, Nat.one_pos, hend, hred⟩⟩
              simp [skipped_tokens, hla, hskip]
            · obtain ⟨rounds, last, lookahead, pushed, hr, hl, hlk, hst, hnodes, hlenp, hcase⟩ :=
                ih p1 code parser1 h
              refine ⟨rounds + 1, last, lookahead,
                ⟨ts_stack_top_state parser.stack, la⟩ :: pushed, by omega, by rw [hl, hlang],
                hlk, by rw [hst, hstack]; simp, ?_, by simp [hlenp], ?_⟩
              · simp [skipped_tokens, hla, hskip, hnodes]
              · rcases hcase with ⟨hc, i, hu, hred⟩ | ⟨hc, _, hend, hred⟩
                · exact Or.inl ⟨hc, i, hu, hred⟩
                · exact Or.inr ⟨hc, Nat.succ_pos _, hend, hred⟩

theorem skip_rounds_frame (B : TSBuiltins) :
    ∀ (rounds : Nat) (parser last : TSParser), skip_rounds B rounds parser = some last →
      last.language = parser.language ∧
      ∃ pushed : TSStack, last.stack = parser.stack ++ pushed ∧
        pushed.map TSStackEntry.node = skipped_tokens B rounds parser ∧
        pushed.length = rounds := by
  intro rounds
  induction rounds with
  | zero =>
    intro parser last h
    simp only [skip_rounds, Option.some.injEq] at h
    subst h
    exact ⟨rfl, [], by simp, by simp [skipped_tokens], rfl⟩
  | succ rounds ih =>
    intro parser last h
    unfold skip_rounds at h
    split at h
    · simp at h
    · rename_i p1 hskip
      obtain ⟨la, hla, hstack, hlang⟩ := handle_error_skip_frame B parser p1 hskip
      obtain ⟨hl, pushed, hst, hnodes, hlenp⟩ := ih p1 last h
      refine ⟨by rw [hl, hlang], ⟨ts_stack_top_state parser.stack, la⟩ :: pushed,
        by rw [hst, hstack]; simp, ?_, by simp [hlenp]⟩
      simp [skipped_tokens, hla, hskip, hnodes]

/-- The rounds of `handle_error`, with the parser state of every round: the
loop returns after `rounds` skipped tokens, the unwinding has found no index in
any earlier round, and no lookahead fetched before the last one is END. -/
theorem handle_error_loop_trace (B : TSBuiltins) (index_before_error : Nat) :
    ∀ (fuel : Nat) (parser : TSParser) (code : Nat) (parser1 : TSParser),
      handle_error_loop B index_before_error fuel parser = some (code, parser1) →
      ∃ (rounds : Nat) (last : TSParser) (lookahead : TSTree),
        rounds ≤ fuel ∧ skip_rounds B rounds parser = some last ∧
        last.lookahead = some lookahead ∧
        (∀ r, r < rounds → ∃ (p : TSParser) (la : TSTree),
          skip_rounds B r parser = some p ∧ p.lookahead = some la ∧
          handle_error_unwind B p.language p.stack la.symbol (size_add index_before_error 1)
            = some none ∧
          (0 < r → la.symbol ≠ B.ts_builtin_sym_end)) ∧
        ((code = 1 ∧ (0 < rounds → lookahead.symbol ≠ B.ts_builtin_sym_end) ∧ ∃ i,
            handle_error_unwind B last.language last.stack lookahead.symbol
              (size_add index_before_error 1) = some (some i) ∧
            reduce_error B last (size_sub (size_sub last.stack.length i) 1) = some parser1) ∨
          (code = 0 ∧ 0 < rounds ∧ lookahead.symbol = B.ts_builtin_sym_end ∧
            reduce_error B last
              (size_sub (size_sub last.stack.length index_before_error) 1) = some parser1)) := by
  intro fuel
  induction fuel with
  | zero => intro parser code parser1 h; simp [handle_error_loop] at h
  | succ fuel ih =>
    intro parser code parser1 h
    unfold handle_error_loop at h
    split at h
    · simp at h
    · rename_i la hla
      split at h
      · simp at h
      · rename_i i hunwind
        simp only [Option.map_eq_some', Prod.mk.injEq] at h
        obtain ⟨p1, hred, hcode, hp⟩ := h
        subst hp
        exact ⟨0, parser, la, Nat.zero_le _, rfl, hla, fun r hr => absurd hr (Nat.not_lt_zero r),
          Or.inl ⟨hcode.symm, fun h0 => absurd h0 (Nat.lt_irrefl 0), i, hunwind, hred⟩⟩
      · rename_i hunwind
        have hfirst : ∃ (p : TSParser) (la0 : TSTree),
            skip_rounds B 0 parser = some p ∧ p.lookahead = some la0 ∧
            handle_error_unwind B p.language p.stack la0.symbol (size_add index_before_error 1)
              = some none ∧
            (0 < 0 → la0.symbol ≠ B.ts_builtin_sym_end) :=
          ⟨parser, la, rfl, hla, hunwind, fun h0 => absurd h0 (Nat.lt_irrefl 0)⟩
        split at h
        · simp at h
        · rename_i p1 hskip
          have hstep : ∀ r, skip_rounds B (r + 1) parser = skip_rounds B r p1 := by
            intro r
            simp only [skip_rounds, hskip]
          split at h
          · simp at h
          · rename_i la1 hla1
            split at h
            · rename_i hend
              simp only [Option.map_eq_some', Prod.mk.injEq] at h
              obtain ⟨p2, hred, hcode, hp⟩ := h
              subst hp
              refine ⟨1, p1, la1, by omega, by rw [hstep]; rfl, hla1, ?_,
                Or.inr ⟨hcode.symm, Nat.one_pos, hend, hred⟩⟩
              intro r hr
              have hr0 : r = 0 := by omega
              subst hr0
              exact hfirst
            · rename_i hnend
              obtain ⟨rounds, last, lookahead, hr, hsk, hlk, hmin, hcase⟩ :=
                ih p1 code parser1 h
              have hlast : 0 < rounds + 1 → rounds = 0 → lookahead.symbol ≠ B.ts_builtin_sym_end := by
                intro _ h0
                subst h0
                simp only [skip_rounds, Option.some.injEq] at hsk
                subst hsk
                rw [hla1] at hlk
                simp only [Option.some.injEq] at hlk
                subst hlk
                exact hnend
              refine ⟨rounds + 1, last, lookahead, by omega, by rw [hstep]; exact hsk, hlk, ?_, ?_⟩
              · intro r hr1
                cases r with
                | zero => exact hfirst
                | succ r =>
                  obtain ⟨p, la0, h1, h2, h3, h4⟩ := hmin r (by omega)
                  refine ⟨p, la0, by rw [hstep]; exact h1, h2, h3, ?_⟩
                  intro _
                  cases r with
                  | zero =>
                    simp only [skip_rounds, Option.some.injEq] at h1
                    subst h1
                    rw [hla1] at h2
                    simp only [Option.some.injEq] at h2
                    subst h2
                    exact hnend
                  | succ r => exact h4 (Nat.succ_pos _)
              · rcases hcase with ⟨hc, hne, i, hu, hred⟩ | ⟨hc, _, hend, hred⟩
                · refine Or.inl ⟨hc, ?_, i, hu, hred⟩
                  intro hpos
                  by_cases h0 : rounds = 0
                  · exact hlast hpos h0
                  · exact hne (by omega)
                · exact Or.inr ⟨hc, Nat.succ_pos _, hend, hred⟩

theorem skipped_tokens_get (B : TSBuiltins) :
    ∀ (rounds : Nat) (parser last : TSParser) (r : Nat) (p : TSParser) (la : TSTree),
      skip_rounds B rounds parser = some last → r < rounds →
      skip_rounds B r parser = some p → p.lookahead = some la →
      (skipped_tokens B rounds parser)[r]? = some la := by
  intro rounds
  induction rounds with
  | zero => intro parser last r p la _ hr; exact absurd hr (Nat.not_lt_zero r)
  | succ rounds ih =>
    intro parser last r p la hlast hr hp hla
    unfold skip_rounds at hlast
    split at hlast
    · simp at hlast
    · rename_i p1 hskip
      obtain ⟨la0, hla0, _, _⟩ := handle_error_skip_frame B parser p1 hskip
      cases r with
      | zero =>
        simp only [skip_rounds, Option.some.injEq] at hp
        subst hp
        rw [hla0] at hla
        simp only [Option.some.injEq] at hla
        subst hla
        simp [skipped_tokens, hla0, hskip]
      | succ r =>
        simp only [skip_rounds, hskip] at hp
        have := ih p1 last r p la hlast (by omega) hp hla
        simpa [skipped_tokens, hla0, hskip] using this

/-- C6: when `handle_error` returns 1, on a stack whose size stays representable
as a `size_t`, there is an index `i` at or below the anchor such that the
entries `0..i` of the stack are unchanged, the stack has `i + 2` entries, and
its top node is one ERROR node, fragile on both sides, whose children are the
entries that were above `i` followed by the skipped tokens. The action of entry
`i` on ERROR is a Shift, the top state is its `to_state`, and the action of the
top state on the lookahead is not Error. The skipped tokens are the lookaheads
of all rounds before the last one: in each of these rounds the unwinding finds
no index, the lookahead is shifted and the next one is fetched, and none of the
fetched lookaheads is END; the last round is the first one in which the
unwinding finds an index, `i`, and the parser is the one of that round with the
ERROR node on its stack and the padding of its lookahead set to zero. -/
theorem handle_error_recovered (B : TSBuiltins) (fuel : Nat) (parser parser1 : TSParser)
    (hlen : parser.stack.length + fuel < SIZE_MOD)
    (h : handle_error B fuel parser = some (1, parser1)) :
    ∃ (i rounds : Nat) (entry : TSStackEntry) (error lookahead1 : TSTree) (last : TSParser)
        (lookahead : TSTree),
      i + 1 ≤ parser.stack.length ∧ parser.stack[i]? = some entry ∧
      parser1.stack = parser.stack.take (i + 1)
        ++ [⟨(get_action parser.language entry.state B.ts_builtin_sym_error).to_state, error⟩] ∧
      parser1.stack.length = i + 2 ∧
      error.symbol = B.ts_builtin_sym_error ∧
      ts_tree_is_fragile_left error = true ∧ ts_tree_is_fragile_right error = true ∧
      ts_tree_children error
        = (parser.stack.drop (i + 1)).map TSStackEntry.node ++ skipped_tokens B rounds parser ∧
      (get_action parser.language entry.state B.ts_builtin_sym_error).type
        = TSParseActionType.Shift ∧
      ts_stack_top_state parser1.stack
        = (get_action parser.language entry.state B.ts_builtin_sym_error).to_state ∧
      parser1.lookahead = some lookahead1 ∧
      (get_action parser1.language (ts_stack_top_state parser1.stack) lookahead1.symbol).type
        ≠ TSParseActionType.Error ∧
      rounds ≤ fuel ∧ (skipped_tokens B rounds parser).length = rounds ∧
      skip_rounds B rounds parser = some last ∧ last.lookahead = some lookahead ∧
      (0 < rounds → lookahead.symbol ≠ B.ts_builtin_sym_end) ∧
      handle_error_unwind B last.language last.stack lookahead.symbol parser.stack.length
        = some (some i) ∧
      (∀ r, r < rounds → ∃ (p : TSParser) (la : TSTree),
        skip_rounds B r parser = some p ∧ p.lookahead = some la ∧
        (skipped_tokens B rounds parser)[r]? = some la ∧
        handle_error_unwind B p.language p.stack la.symbol parser.stack.length = some none ∧
        (0 < r → la.symbol ≠ B.ts_builtin_sym_end)) ∧
      lookahead1 = tree_assign_padding ts_length_zero lookahead ∧
      error = reduce_error_node B parser.language
        ((parser.stack.drop (i + 1)).map TSStackEntry.node ++ skipped_tokens B rounds parser)
        lookahead ∧
      parser1 = { last with
        stack := parser.stack.take (i + 1)
          ++ [⟨(get_action parser.language entry.state B.ts_builtin_sym_error).to_state,
            error⟩]
        lookahead := some lookahead1 } := by
  unfold handle_error at h
  obtain ⟨rounds, last, lookahead, hr, hsk, hlk, hmin, hcase⟩ :=
    handle_error_loop_trace B _ fuel parser 1 parser1 h
  obtain ⟨hl, pushed, hst, hnodes, hlenp⟩ := skip_rounds_frame B rounds parser last hsk
  rcases hcase with ⟨_, hne, i, hu, hred⟩ | ⟨hc, _⟩
  swap
  · exact absurd hc (by decide)
  have hlast : last.stack.length = parser.stack.length + rounds := by
    rw [hst, List.length_append, hlenp]
  have hanchor := index_before_error_succ parser.stack.length (by omega)
  rw [hanchor] at hu
  obtain ⟨hi, entry, hentry, hshift, hafter⟩ := handle_error_unwind_found _ _ _ _ _ _ hu
  have hentry0 : parser.stack[i]? = some entry := by
    rw [hst, List.getElem?_append_left hi] at hentry
    exact hentry
  have hn0 : size_sub last.stack.length i = last.stack.length - i :=
    size_sub_eq (by omega) (by omega)
  have hn : size_sub (size_sub last.stack.length i) 1 = last.stack.length - (i + 1) := by
    rw [hn0, Nat.sub_add_eq]
    exact size_sub_eq (by omega) (by omega)
  rw [hl] at hshift hafter
  rw [hn, reduce_error_eq B last _ lookahead hlk (by omega) (by omega)] at hred
  simp only [Option.some.injEq] at hred
  have hidx : last.stack.length - (last.stack.length - (i + 1)) = i + 1 := by omega
  have htake : last.stack.take (i + 1) = parser.stack.take (i + 1) := by
    rw [hst, List.take_append_of_le_length (by omega)]
  have hnodes1 : top_nodes last.stack (last.stack.length - (i + 1))
      = (parser.stack.drop (i + 1)).map TSStackEntry.node ++ skipped_tokens B rounds parser := by
    rw [top_nodes, hidx, hst, List.drop_append_of_le_length (by omega), List.map_append, hnodes]
  rw [hidx, htake, top_state_take _ _ _ hentry0, hnodes1, hl] at hred
  subst hred
  have hfr := reduce_error_node_fragile B parser.language
    ((parser.stack.drop (i + 1)).map TSStackEntry.node ++ skipped_tokens B rounds parser)
    lookahead
  refine ⟨i, rounds, entry, _, tree_assign_padding ts_length_zero lookahead, last, lookahead,
    hi, hentry0, rfl, ?_, rfl, hfr.1, hfr.2, rfl, hshift, top_state_push _ _ _, rfl, ?_, hr,
    ?_, hsk, hlk, hne, hu, ?_, rfl, rfl, ?_⟩
  · simp [ts_stack_push]
    omega
  · dsimp only
    rw [top_state_push, (tree_assign_padding_fields ts_length_zero lookahead).2.2.1]
    exact hafter
  · rw [← hnodes, List.length_map, hlenp]
  · intro r hr1
    obtain ⟨p, la, h1, h2, h3, h4⟩ := hmin r hr1
    rw [hanchor] at h3
    exact ⟨p, la, h1, h2, skipped_tokens_get B rounds parser last r p la hsk hr1 h1 h2, h3, h4⟩
  · rw [hl]; rfl

theorem handle_error_recovered_witness :
    ((fx_error_state [4, 3]).stack.length + 3 < SIZE_MOD ∧
      handle_error fx_builtins 3 (fx_error_state [4, 3])
        = some (1, handle_error_result fx_builtins 3 (fx_error_state [4, 3])) ∧
      (handle_error_result fx_builtins 3 (fx_error_state [4, 3])).stack.map
          (fun e => (e.state, e.node.symbol, (ts_tree_children e.node).map TSTree.symbol))
        = [(1, 3, []), (2, 4, []), (6, 0, [4, 4])]) ∧
    ∃ (i rounds : Nat) (entry : TSStackEntry) (error lookahead1 : TSTree) (last : TSParser)
        (lookahead : TSTree),
      i + 1 ≤ (fx_error_state [4, 3]).stack.length ∧ (fx_error_state [4, 3]).stack[i]? = some entry ∧
      (handle_error_result fx_builtins 3 (fx_error_state [4, 3])).stack = (fx_error_state [4, 3]).stack.take (i + 1)
        ++ [⟨(get_action (fx_error_state [4, 3]).language entry.state fx_builtins.ts_builtin_sym_error).to_state, error⟩] ∧
      (handle_error_result fx_builtins 3 (fx_error_state [4, 3])).stack.length = i + 2 ∧
      error.symbol = fx_builtins.ts_builtin_sym_error ∧
      ts_tree_is_fragile_left error = true ∧ ts_tree_is_fragile_right error = true ∧
      ts_tree_children error
        = ((fx_error_state [4, 3]).stack.drop (i + 1)).map TSStackEntry.node ++ skipped_tokens fx_builtins rounds (fx_error_state [4, 3]) ∧
      (get_action (fx_error_state [4, 3]).language entry.state fx_builtins.ts_builtin_sym_error).type
        = TSParseActionType.Shift ∧
      ts_stack_top_state (handle_error_result fx_builtins 3 (fx_error_state [4, 3])).stack
        = (get_action (fx_error_state [4, 3]).language entry.state fx_builtins.ts_builtin_sym_error).to_state ∧
      (handle_error_result fx_builtins 3 (fx_error_state [4, 3])).lookahead = some lookahead1 ∧
      (get_action (handle_error_result fx_builtins 3 (fx_error_state [4, 3])).language (ts_stack_top_state (handle_error_result fx_builtins 3 (fx_error_state [4, 3])).stack) lookahead1.symbol).type
        ≠ TSParseActionType.Error ∧
      rounds ≤ 3 ∧ (skipped_tokens fx_builtins rounds (fx_error_state [4, 3])).length = rounds ∧
      skip_rounds fx_builtins rounds (fx_error_state [4, 3]) = some last ∧ last.lookahead = some lookahead ∧
      (0 < rounds → lookahead.symbol ≠ fx_builtins.ts_builtin_sym_end) ∧
      handle_error_unwind fx_builtins last.language last.stack lookahead.symbol (fx_error_state [4, 3]).stack.length
        = some (some i) ∧
      (∀ r, r < rounds → ∃ (p : TSParser) (la : TSTree),
        skip_rounds fx_builtins r (fx_error_state [4, 3]) = some p ∧ p.lookahead = some la ∧
        (skipped_tokens fx_builtins rounds (fx_error_state [4, 3]))[r]? = some la ∧
        handle_error_unwind fx_builtins p.language p.stack la.symbol (fx_error_state [4, 3]).stack.length = some none ∧
        (0 < r → la.symbol ≠ fx_builtins.ts_builtin_sym_end)) ∧
      lookahead1 = tree_assign_padding ts_length_zero lookahead ∧
      error = reduce_error_node fx_builtins (fx_error_state [4, 3]).language
        (((fx_error_state [4, 3]).stack.drop (i + 1)).map TSStackEntry.node ++ skipped_tokens fx_builtins rounds (fx_error_state [4, 3]))
        lookahead ∧
      (handle_error_result fx_builtins 3 (fx_error_state [4, 3])) = { last with
        stack := (fx_error_state [4, 3]).stack.take (i + 1)
          ++ [⟨(get_action (fx_error_state [4, 3]).language entry.state fx_builtins.ts_builtin_sym_error).to_state,
            error⟩]
        lookahead := some lookahead1 } :=
  ⟨⟨by decide, rfl, by decide⟩,
    handle_error_recovered fx_builtins 3 (fx_error_state [4, 3]) _ (by decide) rfl⟩

/-- C7: when `handle_error` returns 0, on a stack whose size stays representable
as a `size_t` (the stack may be empty), the lookahead is END, the entries that
were on the stack are unchanged, and one entry has been added on top of them:
an ERROR node whose children are the skipped tokens, of which there is at least
one. The skipped tokens are the lookaheads of all rounds: in each round the
unwinding finds no index, the lookahead is shifted and the next one is fetched;
the lookahead fetched in the last round is END, none fetched before is, and the
parser is the one after the last fetch with the ERROR node on its stack and the
padding of its lookahead set to zero. -/
theorem handle_error_fatal (B : TSBuiltins) (fuel : Nat) (parser parser1 : TSParser)
    (hlen : parser.stack.length + fuel < SIZE_MOD)
    (h : handle_error B fuel parser = some (0, parser1)) :
    ∃ (rounds state : Nat) (error lookahead1 : TSTree) (last : TSParser) (lookahead : TSTree),
      0 < rounds ∧ parser1.lookahead = some lookahead1 ∧
      lookahead1.symbol = B.ts_builtin_sym_end ∧
      parser1.stack = parser.stack ++ [⟨state, error⟩] ∧
      parser1.stack.length = parser.stack.length + 1 ∧
      error.symbol = B.ts_builtin_sym_error ∧
      ts_tree_children error = skipped_tokens B rounds parser ∧
      (ts_tree_children error).length = rounds ∧
      rounds ≤ fuel ∧
      skip_rounds B rounds parser = some last ∧ last.lookahead = some lookahead ∧
      lookahead.symbol = B.ts_builtin_sym_end ∧
      (∀ r, r < rounds → ∃ (p : TSParser) (la : TSTree),
        skip_rounds B r parser = some p ∧ p.lookahead = some la ∧
        (skipped_tokens B rounds parser)[r]? = some la ∧
        handle_error_unwind B p.language p.stack la.symbol parser.stack.length = some none ∧
        (0 < r → la.symbol ≠ B.ts_builtin_sym_end)) ∧
      lookahead1 = tree_assign_padding ts_length_zero lookahead ∧
      state = (get_action parser.language (ts_stack_top_state parser.stack)
        B.ts_builtin_sym_error).to_state ∧
      ts_tree_is_fragile_left error = true ∧ ts_tree_is_fragile_right error = true ∧
      error = reduce_error_node B parser.language (skipped_tokens B rounds parser) lookahead ∧
      parser1 = { last with
        stack := parser.stack ++ [⟨state, error⟩]
        lookahead := some lookahead1 } := by
  unfold handle_error at h
  obtain ⟨rounds, last, lookahead, hr, hsk, hlk, hmin, hcase⟩ :=
    handle_error_loop_trace B _ fuel parser 0 parser1 h
  obtain ⟨hl, pushed, hst, hnodes, hlenp⟩ := skip_rounds_frame B rounds parser last hsk
  rcases hcase with ⟨hc, _⟩ | ⟨_, hpos, hend, hred⟩
  · exact absurd hc (by decide)
  have hlast : last.stack.length = parser.stack.length + rounds := by
    rw [hst, List.length_append, hlenp]
  have hanchor := index_before_error_succ parser.stack.length (by omega)
  rw [hlast, size_sub_anchor _ _ (by omega),
    reduce_error_eq B last _ lookahead hlk (by omega) (by omega)] at hred
  simp only [Option.some.injEq] at hred
  have hidx : last.stack.length - rounds = parser.stack.length := by omega
  have htake : last.stack.take parser.stack.length = parser.stack := by
    rw [hst, List.take_left']
    rfl
  have hnodes1 : top_nodes last.stack rounds = skipped_tokens B rounds parser := by
    rw [top_nodes, hidx, hst, List.drop_left', hnodes]
    rfl
  rw [hidx, htake, hnodes1, hl] at hred
  subst hred
  have hfr := reduce_error_node_fragile B parser.language (skipped_tokens B rounds parser)
    lookahead
  refine ⟨rounds, _, _, tree_assign_padding ts_length_zero lookahead, last, lookahead, hpos,
    rfl, ?_, rfl, ?_, rfl, rfl, ?_, hr, hsk, hlk, hend, ?_, rfl, rfl, hfr.1, hfr.2, rfl, ?_⟩
  · rw [(tree_assign_padding_fields ts_length_zero lookahead).2.2.1]
    exact hend
  · simp [ts_stack_push]
  · rw [reduce_error_node_children, ← hnodes, List.length_map, hlenp]
  · intro r hr1
    obtain ⟨p, la, h1, h2, h3, h4⟩ := hmin r hr1
    rw [hanchor] at h3
    exact ⟨p, la, h1, h2, skipped_tokens_get B rounds parser last r p la hsk hr1 h1 h2, h3, h4⟩
  · rw [hl]; rfl

theorem handle_error_fatal_witness :
    ((fx_error_state [4]).stack.length + 3 < SIZE_MOD ∧
      handle_error fx_builtins 3 (fx_error_state [4])
        = some (0, handle_error_result fx_builtins 3 (fx_error_state [4])) ∧
      (handle_error_result fx_builtins 3 (fx_error_state [4])).stack.map
          (fun e => (e.state, e.node.symbol, (ts_tree_children e.node).map TSTree.symbol))
        = [(1, 3, []), (2, 4, []), (6, 0, [4, 4])]) ∧
    ∃ (rounds state : Nat) (error lookahead1 : TSTree) (last : TSParser) (lookahead : TSTree),
      0 < rounds ∧ (handle_error_result fx_builtins 3 (fx_error_state [4])).lookahead = some lookahead1 ∧
      lookahead1.symbol = fx_builtins.ts_builtin_sym_end ∧
      (handle_error_result fx_builtins 3 (fx_error_state [4])).stack = (fx_error_state [4]).stack ++ [⟨state, error⟩] ∧
      (handle_error_result fx_builtins 3 (fx_error_state [4])).stack.length = (fx_error_state [4]).stack.length + 1 ∧
      error.symbol = fx_builtins.ts_builtin_sym_error ∧
      ts_tree_children error = skipped_tokens fx_builtins rounds (fx_error_state [4]) ∧
      (ts_tree_children error).length = rounds ∧
      rounds ≤ 3 ∧
      skip_rounds fx_builtins rounds (fx_error_state [4]) = some last ∧ last.lookahead = some lookahead ∧
      lookahead.symbol = fx_builtins.ts_builtin_sym_end ∧
      (∀ r, r < rounds → ∃ (p : TSParser) (la : TSTree),
        skip_rounds fx_builtins r (fx_error_state [4]) = some p ∧ p.lookahead = some la ∧
        (skipped_tokens fx_builtins rounds (fx_error_state [4]))[r]? = some la ∧
        handle_error_unwind fx_builtins p.language p.stack la.symbol (fx_error_state [4]).stack.length = some none ∧
        (0 < r → la.symbol ≠ fx_builtins.ts_builtin_sym_end)) ∧
      lookahead1 = tree_assign_padding ts_length_zero lookahead ∧
      state = (get_action (fx_error_state [4]).language (ts_stack_top_state (fx_error_state [4]).stack)
        fx_builtins.ts_builtin_sym_error).to_state ∧
      ts_tree_is_fragile_left error = true ∧ ts_tree_is_fragile_right error = true ∧
      error = reduce_error_node fx_builtins (fx_error_state [4]).language (skipped_tokens fx_builtins rounds (fx_error_state [4])) lookahead ∧
      (handle_error_result fx_builtins 3 (fx_error_state [4])) = { last with
        stack := (fx_error_state [4]).stack ++ [⟨state, error⟩]
        lookahead := some lookahead1 } :=
  ⟨⟨by decide, rfl, by decide⟩,
    handle_error_fatal fx_builtins 3 (fx_error_state [4]) _ (by decide) rfl⟩

/-! ### `finish` -/

theorem size_sub_self (a : Nat) : size_sub a a = 0 := by
  simp only [size_sub, SIZE_MOD, Nat.reducePow]
  omega

theorem reduce_count_all (stack : TSStack) :
    reduce_count stack (stack.length + 1) 0 stack.length = some stack.length := by
  unfold reduce_count
  by_cases h : 0 < stack.length
  · rw [if_pos h, if_pos rfl]
  · rw [if_neg h]

/-- C11: on every left stack, with extra nodes or without, and on the empty
stack, `finish` leaves exactly one entry and returns its node; the node has the
symbol DOCUMENT and its children are the nodes of all former entries in order.
The counting loop of the reduction stops at once, because the declared count is
the size of the stack. -/
theorem finish_wraps_whole_stack (B : TSBuiltins) (parser : TSParser) :
    ∃ (document : TSTree) (state : Nat),
      finish B parser
        = some (document, { parser with stack := [⟨state, document⟩] }) ∧
      document.symbol = B.ts_builtin_sym_document ∧
      ts_tree_children document = parser.stack.map TSStackEntry.node ∧
      state = (get_action parser.language 0 B.ts_builtin_sym_document).to_state := by
  refine ⟨ts_tree_make_node B.ts_builtin_sym_document (parser.stack.map TSStackEntry.node)
      (parser.language.hidden_symbol_flags B.ts_builtin_sym_document),
    (get_action parser.language 0 B.ts_builtin_sym_document).to_state, ?_, rfl, rfl, rfl⟩
  unfold finish reduce reduce_helper
  simp [reduce_count_all, size_sub_self, ts_stack_shrink, ts_stack_push, ts_stack_top_state]

/-! ### `get_action` -/

/-- C13: for every state and symbol, `get_action` depends on the language only
through the cell at the row-major index `state * symbol_count + sym` of the
parse table: it is the Error action when the cell is null, and the first action
of the list of the cell otherwise, whatever the rest of the list is. -/
theorem get_action_reads_first (language : TSLanguage) (state sym : Nat) :
    (language.parse_table (state * language.symbol_count + sym) = none →
      get_action language state sym = ERROR_ACTION ∧
      (get_action language state sym).type = TSParseActionType.Error) ∧
    (∀ first rest, language.parse_table (state * language.symbol_count + sym)
        = some (first, rest) → get_action language state sym = first) ∧
    (∀ other : TSLanguage, other.symbol_count = language.symbol_count →
      other.parse_table (state * language.symbol_count + sym)
        = language.parse_table (state * language.symbol_count + sym) →
      get_action other state sym = get_action language state sym) := by
  refine ⟨?_, ?_, ?_⟩
  · intro h
    simp [get_action, h, ERROR_ACTION]
  · intro first rest h
    simp [get_action, h]
  · intro other hc ht
    simp [get_action, hc, ht]

/-! ### The position returned by `break_down_left_stack` -/

theorem stack_chars_dropLast {stack : TSStack} {node : TSTree}
    (h : ts_stack_top_node stack = some node) :
    stack_chars stack = stack_chars stack.dropLast + (ts_tree_total_size node).chars := by
  obtain ⟨st, hst⟩ := top_node_eq_some h
  conv_lhs => rw [hst]
  exact stack_chars_push _ _ _

theorem break_down_left_push_end (language : TSLanguage) (position : Nat)
    (children : List TSTree) (stack : TSStack) (left_end : TSLength) (i : Nat)
    (h : left_end.chars = stack_chars stack) :
    (break_down_left_push language position children stack left_end i).2.1.chars
      = stack_chars (break_down_left_push language position children stack left_end i).1 := by
  induction children generalizing stack left_end i with
  | nil => simpa [break_down_left_push] using h
  | cons child rest ih =>
    unfold break_down_left_push
    split
    · dsimp only
      apply ih
      rw [stack_chars_push]
      simp only [ts_length_add]
      omega
    · exact h

theorem break_down_left_stack_loop_end (B : TSBuiltins) (language : TSLanguage)
    (edit : TSInputEdit) (fuel : Nat) (stack right_stack : TSStack) (left_end : TSLength)
    (rss : Nat) (r : TSLength × TSStack × TSStack)
    (hinv : left_end.chars = stack_chars stack)
    (h : break_down_left_stack_loop B language edit fuel stack right_stack left_end rss = some r) :
    r.1.chars = stack_chars r.2.1 := by
  induction fuel generalizing stack right_stack left_end rss with
  | zero => simp [break_down_left_stack_loop] at h
  | succ fuel ih =>
    unfold break_down_left_stack_loop at h
    split at h
    · simp only [Option.some.injEq] at h
      subst h
      exact hinv
    · rename_i node htop
      dsimp only at h
      split at h
      · simp only [Option.some.injEq] at h
        subst h
        exact hinv
      · refine ih _ _ _ _ ?_ h
        apply break_down_left_push_end
        have := stack_chars_dropLast htop
        simp only [ts_length_sub]
        omega

/-- C16: `break_down_left_stack` returns a position whose chars are the total
chars of the left stack as it is on return, 0 when the stack ends empty, and
`ts_parser_parse` resets the lexer to that position. The equality holds at the
head of every round of the loop once it holds at one, whatever the sizes of the
nodes and of their children are. -/
theorem break_down_left_stack_position (B : TSBuiltins) (parser : TSParser)
    (edit : TSInputEdit) :
    (∃ (position : TSLength) (parser1 : TSParser),
      break_down_left_stack B parser edit = some (position, parser1) ∧
      position.chars = (ts_stack_total_tree_size parser1.stack).chars ∧
      (parser1.stack = [] → position.chars = 0) ∧
      ∀ input, ∃ parser2, ts_parser_parse_begin B parser input (some edit) = some parser2 ∧
        parser2.stack = parser1.stack ∧ parser2.lexer.current_position = position) ∧
    ∀ (fuel : Nat) (stack right_stack : TSStack) (left_end : TSLength) (rss : Nat)
      (r : TSLength × TSStack × TSStack),
      left_end.chars = (ts_stack_total_tree_size stack).chars →
      break_down_left_stack_loop B parser.language edit fuel stack right_stack left_end rss
        = some r →
      r.1.chars = (ts_stack_total_tree_size r.2.1).chars := by
  constructor
  · obtain ⟨r, hr⟩ := break_down_left_stack_loop_terminates B parser.language edit
      (stack_nodes parser.stack + 1) parser.stack (ts_stack_shrink parser.right_stack 0)
      (ts_stack_total_tree_size parser.stack)
      (size_sub (size_add (ts_stack_total_tree_size parser.stack).chars edit.chars_inserted)
        edit.chars_removed) (Nat.lt_succ_self _)
    have hend := break_down_left_stack_loop_end _ _ _ _ _ _ _ _ _
      (total_tree_size_chars parser.stack) hr
    obtain ⟨pos, st, rs⟩ := r
    have hb : break_down_left_stack B parser edit = some (pos, { parser with
        stack := st, right_stack := rs,
        total_chars := size_sub
          (size_add (ts_stack_total_tree_size parser.stack).chars edit.chars_inserted)
          edit.chars_removed }) := by
      unfold break_down_left_stack
      dsimp only
      rw [hr]
    refine ⟨pos, _, hb, ?_, ?_, ?_⟩
    · rw [total_tree_size_chars]; exact hend
    · intro hempty
      dsimp only at hempty
      rw [hempty] at hend
      simpa [stack_chars] using hend
    · intro input
      unfold ts_parser_parse_begin
      simp only [hb]
      exact ⟨_, rfl, rfl, rfl⟩
  · intro fuel stack right_stack left_end rss r hinv h
    rw [total_tree_size_chars] at hinv ⊢
    exact break_down_left_stack_loop_end _ _ _ _ _ _ _ _ _ hinv h

/-! ### Termination of the reconciler -/

theorem break_down_left_stack_loop_fuel (B : TSBuiltins) (language : TSLanguage)
    (edit : TSInputEdit) (fuel : Nat) (stack right_stack : TSStack) (left_end : TSLength)
    (rss : Nat) (r : TSLength × TSStack × TSStack)
    (h : break_down_left_stack_loop B language edit fuel stack right_stack left_end rss = some r)
    (more : Nat) :
    break_down_left_stack_loop B language edit (fuel + more) stack right_stack left_end rss
      = some r := by
  induction fuel generalizing stack right_stack left_end rss with
  | zero => simp [break_down_left_stack_loop] at h
  | succ fuel ih =>
    rw [Nat.succ_add]
    unfold break_down_left_stack_loop at h ⊢
    split
    · rename_i htop
      simpa [htop] using h
    · rename_i node htop
      simp only [htop] at h
      dsimp only at h ⊢
      split
      · rename_i hc
        rw [if_pos hc] at h
        exact h
      · rename_i hc
        rw [if_neg hc] at h
        exact ih _ _ _ _ h

theorem break_down_left_push_take (language : TSLanguage) (position : Nat)
    (children : List TSTree) (stack : TSStack) (left_end : TSLength) (i : Nat) :
    ∃ m, m ≤ children.length ∧
      (break_down_left_push language position children stack left_end i).2.2 = i + m ∧
      (break_down_left_push language position children stack left_end i).1.map TSStackEntry.node
        = stack.map TSStackEntry.node ++ children.take m := by
  induction children generalizing stack left_end i with
  | nil => exact ⟨0, by simp [break_down_left_push]⟩
  | cons child rest ih =>
    unfold break_down_left_push
    split
    · dsimp only
      obtain ⟨m, hm, hi, hn⟩ := ih (ts_stack_push stack
        (if ts_tree_is_extra child = true then ts_stack_top_state stack
          else (get_action language (ts_stack_top_state stack) child.symbol).to_state) child)
        (ts_length_add left_end (ts_tree_total_size child)) (i + 1)
      refine ⟨m + 1, by simpa using hm, by omega, ?_⟩
      rw [hn]
      simp [ts_stack_push]
    · exact ⟨0, by simp⟩

theorem stack_nodes_dropLast {stack : TSStack} {node : TSTree}
    (h : ts_stack_top_node stack = some node) :
    stack_nodes stack = stack_nodes stack.dropLast + 1 + forest_nodes (ts_tree_children node) := by
  obtain ⟨st, hst⟩ := top_node_eq_some h
  conv_lhs => rw [hst]
  rw [stack_nodes_push, tree_nodes_eq]
  omega

/-- C18: `break_down_left_stack` returns for every left stack and every edit. A
round of its loop that does not leave the loop removes the top node and pushes
a prefix of the children of that node, so the number of tree nodes on the left
stack decreases; any fuel above that number gives the same result. -/
theorem break_down_left_stack_terminates (B : TSBuiltins) (parser : TSParser)
    (edit : TSInputEdit) :
    (∃ r, break_down_left_stack B parser edit = some r) ∧
    (∀ (language : TSLanguage) (stack : TSStack) (node : TSTree) (left_end : TSLength),
      ts_stack_top_node stack = some node →
      (∃ m, m ≤ (ts_tree_children node).length ∧
        (break_down_left_push language edit.position (ts_tree_children node) stack.dropLast
            left_end 0).1.map TSStackEntry.node
          = stack.dropLast.map TSStackEntry.node ++ (ts_tree_children node).take m) ∧
      stack_nodes (break_down_left_push language edit.position (ts_tree_children node)
          stack.dropLast left_end 0).1 < stack_nodes stack) ∧
    (∀ (fuel : Nat) (stack right_stack : TSStack) (left_end : TSLength) (rss : Nat),
      stack_nodes stack < fuel →
      ∃ r, break_down_left_stack_loop B parser.language edit fuel stack right_stack left_end rss
          = some r ∧
        break_down_left_stack_loop B parser.language edit (stack_nodes stack + 1) stack
          right_stack left_end rss = some r) := by
  refine ⟨?_, ?_, ?_⟩
  · obtain ⟨r, hr⟩ := break_down_left_stack_loop_terminates B parser.language edit
      (stack_nodes parser.stack + 1) parser.stack (ts_stack_shrink parser.right_stack 0)
      (ts_stack_total_tree_size parser.stack)
      (size_sub (size_add (ts_stack_total_tree_size parser.stack).chars edit.chars_inserted)
        edit.chars_removed) (Nat.lt_succ_self _)
    unfold break_down_left_stack
    dsimp only
    rw [hr]
    exact ⟨_, rfl⟩
  · intro language stack node left_end htop
    constructor
    · obtain ⟨m, hm, _, hn⟩ := break_down_left_push_take language edit.position
        (ts_tree_children node) stack.dropLast left_end 0
      exact ⟨m, hm, hn⟩
    · have h1 := break_down_left_push_nodes language edit.position (ts_tree_children node)
        stack.dropLast left_end 0
      have h2 := stack_nodes_dropLast htop
      omega
  · intro fuel stack right_stack left_end rss hfuel
    obtain ⟨r, hr⟩ := break_down_left_stack_loop_terminates B parser.language edit
      (stack_nodes stack + 1) stack right_stack left_end rss (Nat.lt_succ_self _)
    refine ⟨r, ?_, hr⟩
    have := break_down_left_stack_loop_fuel _ _ _ _ _ _ _ _ _ hr (fuel - (stack_nodes stack + 1))
    rwa [Nat.add_sub_cancel' (by omega)] at this

theorem forest_nodes_reverse (a : List TSTree) : forest_nodes a.reverse = forest_nodes a := by
  induction a with
  | nil => rfl
  | cons c cs ih =>
    rw [List.reverse_cons, forest_nodes_append, ih]
    simp [forest_nodes]
    omega

theorem break_down_right_push_sublist (cur : Nat) (children : List TSTree) (stack : TSStack)
    (rss : Nat) :
    ∃ m, m ≤ children.length ∧
      (break_down_right_push cur children stack rss).1
        = stack ++ (children.take m).map (fun c => ⟨0, c⟩) := by
  induction children generalizing stack rss with
  | nil => exact ⟨0, by simp [break_down_right_push]⟩
  | cons child rest ih =>
    unfold break_down_right_push
    split
    · exact ⟨0, by simp⟩
    · obtain ⟨m, hm, hn⟩ := ih (ts_stack_push stack 0 child)
        (size_sub rss (ts_tree_total_size child).chars)
      refine ⟨m + 1, by simpa using hm, ?_⟩
      rw [hn]
      simp [ts_stack_push]

theorem forest_nodes_take_le (a : List TSTree) (m : Nat) :
    forest_nodes (a.take m) ≤ forest_nodes a := by
  have := forest_nodes_append (a.take m) (a.drop m)
  rw [List.take_append_drop] at this
  omega

theorem break_down_right_push_nodes (cur : Nat) (children : List TSTree) (stack : TSStack)
    (rss : Nat) :
    stack_nodes (break_down_right_push cur children stack rss).1
      ≤ stack_nodes stack + forest_nodes children := by
  obtain ⟨m, _, hn⟩ := break_down_right_push_sublist cur children stack rss
  rw [hn, stack_nodes, List.map_append, forest_nodes_append]
  have : List.map TSStackEntry.node (List.map (fun c => (⟨0, c⟩ : TSStackEntry))
      (List.take m children)) = List.take m children := by
    simp [Function.comp_def]
  rw [this]
  have := forest_nodes_take_le children m
  unfold stack_nodes
  omega

theorem break_down_right_stack_loop_terminates (language : TSLanguage) (state cur : Nat)
    (fuel : Nat) (stack : TSStack) (rss : Nat) (hfuel : stack_nodes stack < fuel) :
    ∃ r, break_down_right_stack_loop language state cur fuel stack rss = some r := by
  induction fuel generalizing stack rss with
  | zero => omega
  | succ fuel ih =>
    unfold break_down_right_stack_loop
    split
    · exact ⟨_, rfl⟩
    · rename_i node htop
      split
      · exact ⟨_, rfl⟩
      · dsimp only
        split
        · exact ⟨_, rfl⟩
        · apply ih
          have h1 := break_down_right_push_nodes cur (ts_tree_children node).reverse
            stack.dropLast (size_add rss (ts_tree_total_size node).chars)
          rw [forest_nodes_reverse] at h1
          have h2 := stack_nodes_dropLast htop
          omega

theorem break_down_right_stack_loop_fuel (language : TSLanguage) (state cur : Nat)
    (fuel : Nat) (stack : TSStack) (rss : Nat) (r : Option TSTree × TSStack)
    (h : break_down_right_stack_loop language state cur fuel stack rss = some r) (more : Nat) :
    break_down_right_stack_loop language state cur (fuel + more) stack rss = some r := by
  induction fuel generalizing stack rss with
  | zero => simp [break_down_right_stack_loop] at h
  | succ fuel ih =>
    rw [Nat.succ_add]
    unfold break_down_right_stack_loop at h ⊢
    split
    · rename_i htop
      simpa [htop] using h
    · rename_i node htop
      simp only [htop] at h
      split
      · rename_i hc
        rw [if_pos hc] at h
        exact h
      · rename_i hc
        rw [if_neg hc] at h
        dsimp only at h ⊢
        split
        · rename_i hu
          rw [if_pos hu] at h
          exact h
        · rename_i hu
          rw [if_neg hu] at h
          exact ih _ _ h

theorem break_down_right_stack_returns (parser : TSParser) :
    ∃ node stack, break_down_right_stack parser
      = some (node, { parser with right_stack := stack }) := by
  obtain ⟨r, hr⟩ := break_down_right_stack_loop_terminates parser.language
    (ts_stack_top_state parser.stack) parser.lexer.current_position.chars
    (stack_nodes parser.right_stack + 1) parser.right_stack
    (size_sub parser.total_chars (ts_stack_total_tree_size parser.right_stack).chars)
    (Nat.lt_succ_self _)
  obtain ⟨node, stack⟩ := r
  refine ⟨node, stack, ?_⟩
  unfold break_down_right_stack
  dsimp only
  rw [hr]

/-- C19: `break_down_right_stack` returns for every right stack, cursor and
`total_chars`. A round of its loop that does not return removes the top node
and pushes some of the children of that node, the last ones in reverse order,
so the number of tree nodes on the right stack decreases; any fuel above that
number gives the same result. -/
theorem break_down_right_stack_terminates (parser : TSParser) :
    (∃ r, break_down_right_stack parser = some r) ∧
    (∀ (cur rss : Nat) (stack : TSStack) (node : TSTree),
      ts_stack_top_node stack = some node →
      (∃ m, m ≤ (ts_tree_children node).length ∧
        (break_down_right_push cur (ts_tree_children node).reverse stack.dropLast rss).1
          = stack.dropLast
            ++ ((ts_tree_children node).reverse.take m).map (fun c => ⟨0, c⟩)) ∧
      stack_nodes (break_down_right_push cur (ts_tree_children node).reverse
          stack.dropLast rss).1 < stack_nodes stack) ∧
    (∀ (state cur fuel : Nat) (stack : TSStack) (rss : Nat),
      stack_nodes stack < fuel →
      ∃ r, break_down_right_stack_loop parser.language state cur fuel stack rss = some r ∧
        break_down_right_stack_loop parser.language state cur (stack_nodes stack + 1) stack rss
          = some r) := by
  refine ⟨?_, ?_, ?_⟩
  · obtain ⟨node, stack, h⟩ := break_down_right_stack_returns parser
    exact ⟨_, h⟩
  · intro cur rss stack node htop
    constructor
    · obtain ⟨m, hm, hn⟩ := break_down_right_push_sublist cur (ts_tree_children node).reverse
        stack.dropLast rss
      exact ⟨m, by simpa using hm, hn⟩
    · have h1 := break_down_right_push_nodes cur (ts_tree_children node).reverse
        stack.dropLast rss
      rw [forest_nodes_reverse] at h1
      have h2 := stack_nodes_dropLast htop
      omega
  · intro state cur fuel stack rss hfuel
    obtain ⟨r, hr⟩ := break_down_right_stack_loop_terminates parser.language state cur
      (stack_nodes stack + 1) stack rss (Nat.lt_succ_self _)
    refine ⟨r, ?_, hr⟩
    have := break_down_right_stack_loop_fuel _ _ _ _ _ _ _ hr (fuel - (stack_nodes stack + 1))
    rwa [Nat.add_sub_cancel' (by omega)] at this

/-! ### `get_next_node` -/

theorem break_down_right_stack_eq (parser parser1 : TSParser) (node : Option TSTree)
    (h : break_down_right_stack parser = some (node, parser1)) :
    parser1 = { parser with right_stack := parser1.right_stack } := by
  unfold break_down_right_stack at h
  dsimp only at h
  split at h
  · simp at h
  · simp only [Option.some.injEq, Prod.mk.injEq] at h
    obtain ⟨_, hp⟩ := h
    subst hp
    rfl

theorem break_down_right_stack_loop_language (language other : TSLanguage)
    (hact : ∀ state sym, get_action other state sym = get_action language state sym)
    (state cur fuel : Nat) (stack : TSStack) (rss : Nat) :
    break_down_right_stack_loop other state cur fuel stack rss
      = break_down_right_stack_loop language state cur fuel stack rss := by
  induction fuel generalizing stack rss with
  | zero => rfl
  | succ fuel ih =>
    unfold break_down_right_stack_loop
    simp only [hact, ih]

theorem break_down_right_stack_with_lex_fn (parser parser1 : TSParser) (node : Option TSTree)
    (f : TSLexer → Nat → TSTree × TSLexer)
    (h : break_down_right_stack parser = some (node, parser1)) :
    break_down_right_stack (with_lex_fn parser f) = some (node, with_lex_fn parser1 f) := by
  unfold break_down_right_stack at h ⊢
  dsimp only at h ⊢
  have hl := break_down_right_stack_loop_language parser.language (with_lex_fn parser f).language
    (fun _ _ => rfl) (ts_stack_top_state parser.stack) parser.lexer.current_position.chars
    (stack_nodes parser.right_stack + 1) parser.right_stack
    (size_sub parser.total_chars (ts_stack_total_tree_size parser.right_stack).chars)
  change (match break_down_right_stack_loop (with_lex_fn parser f).language
    (ts_stack_top_state parser.stack) parser.lexer.current_position.chars
    (stack_nodes parser.right_stack + 1) parser.right_stack
    (size_sub parser.total_chars (ts_stack_total_tree_size parser.right_stack).chars) with
    | none => none
    | some (node, stack1) => some (node, { with_lex_fn parser f with right_stack := stack1 }))
    = _
  rw [hl]
  split at h
  · simp at h
  · rename_i n s heq
    simp only [Option.some.injEq, Prod.mk.injEq] at h
    obtain ⟨h1, h2⟩ := h
    subst h1 h2
    try rw [heq]
    rfl

/-- C14: when `break_down_right_stack` returns a node, `get_next_node` returns
that node whatever the lexing function of the language is; the lexer record it
hands to `advance_fn` has the token start at the old position plus the padding
of the node, the token end and the position at the token start plus the size of
the node, so that the chars of the position grow by the total chars of the
node, and the lookahead byte and `lookahead_size` at 0; the lexer afterwards is
the result of `advance_fn` on that record with state 0, and keeps these three
positions when `advance_fn` keeps them. When `break_down_right_stack` returns
null, the result is that of `lex_fn` on the lexer and the lexing state. -/
theorem get_next_node_reuses_or_lexes (parser : TSParser) (lex_state : Nat) :
    (∀ (node : TSTree) (parser1 : TSParser),
      break_down_right_stack parser = some (some node, parser1) →
      get_next_node parser lex_state
        = some (node, { parser1 with
            lexer := parser.advance_fn (reuse_lexer parser.lexer node) 0 }) ∧
      (∀ f, get_next_node (with_lex_fn parser f) lex_state
        = some (node, with_lex_fn { parser1 with
            lexer := parser.advance_fn (reuse_lexer parser.lexer node) 0 } f)) ∧
      (reuse_lexer parser.lexer node).token_start_position
        = ts_length_add parser.lexer.current_position node.padding ∧
      (reuse_lexer parser.lexer node).token_end_position
        = ts_length_add (reuse_lexer parser.lexer node).token_start_position node.size ∧
      (reuse_lexer parser.lexer node).current_position
        = (reuse_lexer parser.lexer node).token_end_position ∧
      (reuse_lexer parser.lexer node).current_position.chars
        = parser.lexer.current_position.chars + (ts_tree_total_size node).chars ∧
      (reuse_lexer parser.lexer node).lookahead = 0 ∧
      (reuse_lexer parser.lexer node).lookahead_size = 0 ∧
      ((parser.advance_fn (reuse_lexer parser.lexer node) 0).token_start_position
          = (reuse_lexer parser.lexer node).token_start_position →
        (parser.advance_fn (reuse_lexer parser.lexer node) 0).token_end_position
          = (reuse_lexer parser.lexer node).token_end_position →
        (parser.advance_fn (reuse_lexer parser.lexer node) 0).current_position
          = (reuse_lexer parser.lexer node).current_position →
        (parser.advance_fn (reuse_lexer parser.lexer node) 0).token_start_position
          = ts_length_add parser.lexer.current_position node.padding ∧
        (parser.advance_fn (reuse_lexer parser.lexer node) 0).token_end_position
          = ts_length_add
            (parser.advance_fn (reuse_lexer parser.lexer node) 0).token_start_position
            node.size ∧
        (parser.advance_fn (reuse_lexer parser.lexer node) 0).current_position
          = (parser.advance_fn (reuse_lexer parser.lexer node) 0).token_end_position ∧
        (parser.advance_fn (reuse_lexer parser.lexer node) 0).current_position.chars
          = parser.lexer.current_position.chars + (ts_tree_total_size node).chars)) ∧
    (∀ (parser1 : TSParser),
      break_down_right_stack parser = some (none, parser1) →
      get_next_node parser lex_state
        = some ((parser.language.lex_fn parser.lexer lex_state).1,
            { parser1 with lexer := (parser.language.lex_fn parser.lexer lex_state).2 })) := by
  constructor
  · intro node parser1 h
    have heq := break_down_right_stack_eq parser parser1 (some node) h
    have hchars : (reuse_lexer parser.lexer node).current_position.chars
        = parser.lexer.current_position.chars + (ts_tree_total_size node).chars := by
      simp only [reuse_lexer, ts_tree_total_size, ts_length_add]
      omega
    have hget : get_next_node parser lex_state
        = some (node, { parser1 with
            lexer := parser.advance_fn (reuse_lexer parser.lexer node) 0 }) := by
      unfold get_next_node
      rw [h]
      dsimp only
      rw [heq]
      rfl
    refine ⟨hget, ?_, rfl, rfl, rfl, hchars, rfl, rfl, ?_⟩
    · intro f
      have hf := break_down_right_stack_with_lex_fn parser parser1 (some node) f h
      unfold get_next_node
      rw [hf]
      dsimp only
      rw [heq]
      rfl
    · intro hstart hend hcur
      rw [hstart, hend, hcur]
      exact ⟨rfl, rfl, rfl, hchars⟩
  · intro parser1 h
    have heq := break_down_right_stack_eq parser parser1 none h
    unfold get_next_node
    rw [h]
    dsimp only
    rw [heq]

theorem get_next_node_reuses_or_lexes_witness :
    break_down_right_stack fx_reuse_state
      = some (some (fx_leaf 4 1), { fx_reuse_state with right_stack := [⟨0, fx_leaf 3 1⟩] }) ∧
    get_next_node fx_reuse_state 0
      = some (fx_leaf 4 1,
          { ({ fx_reuse_state with right_stack := [⟨0, fx_leaf 3 1⟩] } : TSParser) with
            lexer := fx_reuse_state.advance_fn
              (reuse_lexer fx_reuse_state.lexer (fx_leaf 4 1)) 0 }) ∧
    (fx_reuse_state.advance_fn (reuse_lexer fx_reuse_state.lexer (fx_leaf 4 1)) 0).current_position
      = ⟨3, 0, 0⟩ ∧
    fx_reuse_state.lexer.current_position = ⟨2, 0, 0⟩ :=
  ⟨rfl, ((get_next_node_reuses_or_lexes fx_reuse_state 0).1 _ _ rfl).1, by decide, by decide⟩

/-! ### `break_down_right_stack` when nothing is reused -/

theorem forest_chars_append (a b : List TSTree) :
    forest_chars (a ++ b) = forest_chars a + forest_chars b := by
  simp [forest_chars]

theorem forest_chars_reverse (a : List TSTree) : forest_chars a.reverse = forest_chars a := by
  simp [forest_chars, List.sum_reverse]

theorem forest_chars_take_le (a : List TSTree) (m : Nat) :
    forest_chars (a.take m) ≤ forest_chars a := by
  have := forest_chars_append (a.take m) (a.drop m)
  rw [List.take_append_drop] at this
  omega

theorem forest_chars_take_mono (a : List TSTree) {j m : Nat} (h : j ≤ m) :
    forest_chars (a.take j) ≤ forest_chars (a.take m) := by
  have := forest_chars_take_le (a.take m) j
  rwa [List.take_take, Nat.min_eq_left h] at this

theorem forest_fits_append (a b : List TSTree) :
    forest_fits (a ++ b) = (forest_fits a && forest_fits b) := by
  induction a with
  | nil => simp [forest_fits]
  | cons c cs ih => simp [forest_fits, ih, Bool.and_assoc]

theorem forest_fits_reverse (a : List TSTree) : forest_fits a.reverse = forest_fits a := by
  induction a with
  | nil => rfl
  | cons c cs ih =>
    rw [List.reverse_cons, forest_fits_append, ih]
    simp [forest_fits, Bool.and_comm]

theorem forest_fits_take (a : List TSTree) (m : Nat) (h : forest_fits a = true) :
    forest_fits (a.take m) = true := by
  have := forest_fits_append (a.take m) (a.drop m)
  rw [List.take_append_drop, h] at this
  simp only [Bool.true_eq, Bool.and_eq_true] at this
  exact this.1

theorem tree_fits_children (t : TSTree) (h : tree_fits t = true) :
    forest_chars (ts_tree_children t) ≤ (ts_tree_total_size t).chars ∧
    forest_fits (ts_tree_children t) = true := by
  cases t
  simpa [tree_fits, ts_tree_children, TSTree.children, ts_tree_total_size, TSTree.padding,
    TSTree.size] using h

theorem stack_chars_entries (stack : TSStack) (trees : List TSTree) :
    stack_chars (stack ++ trees.map (fun c => (⟨0, c⟩ : TSStackEntry)))
      = stack_chars stack + forest_chars trees := by
  simp [stack_chars, forest_chars, Function.comp_def]

theorem stack_fits_dropLast {stack : TSStack} {node : TSTree}
    (htop : ts_stack_top_node stack = some node)
    (h : forest_fits (stack.map TSStackEntry.node) = true) :
    forest_fits (stack.dropLast.map TSStackEntry.node) = true ∧ tree_fits node = true := by
  obtain ⟨st, hst⟩ := top_node_eq_some htop
  rw [hst] at h
  simpa [ts_stack_push, forest_fits_append, forest_fits] using h

/-- The children that `break_down_right_push` pushes are the first ones of the
sequence it visits, and each is pushed while the running start is beyond the
cursor. -/
theorem break_down_right_push_ends (cur : Nat) (children : List TSTree) (stack : TSStack)
    (e : Nat) (he : e < SIZE_MOD) :
    ∃ m, m ≤ children.length ∧
      (break_down_right_push cur children stack e).1
        = stack ++ (children.take m).map (fun c => ⟨0, c⟩) ∧
      ∀ j, j < m → cur < size_sub e (forest_chars (children.take j)) := by
  induction children generalizing stack e with
  | nil => exact ⟨0, by simp [break_down_right_push]⟩
  | cons child rest ih =>
    unfold break_down_right_push
    split
    · exact ⟨0, by simp⟩
    · rename_i hgt
      have he' : size_sub e (ts_tree_total_size child).chars < SIZE_MOD := by
        simp only [size_sub, SIZE_MOD, Nat.reducePow]
        omega
      obtain ⟨m, hm, hn, hj⟩ := ih (ts_stack_push stack 0 child)
        (size_sub e (ts_tree_total_size child).chars) he'
      refine ⟨m + 1, by simpa using hm, ?_, ?_⟩
      · rw [hn]
        simp [ts_stack_push]
      · intro j hjm
        cases j with
        | zero =>
          have : size_sub e 0 = e := by
            simp only [size_sub, SIZE_MOD, Nat.reducePow] at he ⊢
            omega
          simp only [List.take_zero, forest_chars, List.map_nil, List.sum_nil, this]
          omega
        | succ j =>
          have := hj j (by omega)
          rw [size_sub_sub] at this
          simpa [forest_chars] using this

/-- One round of decomposition keeps the right stack a suffix that fits. -/
theorem break_down_right_push_suffix (tc cur : Nat) (stack : TSStack) (node : TSTree)
    (htc : tc < SIZE_MOD) (htop : ts_stack_top_node stack = some node)
    (hsum : stack_chars stack ≤ tc)
    (hfit : forest_fits (stack.map TSStackEntry.node) = true) :
    ∃ m, m ≤ (ts_tree_children node).length ∧
      (break_down_right_push cur (ts_tree_children node).reverse stack.dropLast
          (size_add (size_sub tc (stack_chars stack)) (ts_tree_total_size node).chars)).1
        = stack.dropLast ++ ((ts_tree_children node).reverse.take m).map (fun c => ⟨0, c⟩) ∧
      (∀ j, j < m → cur + stack_chars stack.dropLast
        + forest_chars ((ts_tree_children node).reverse.take j) < tc) ∧
      stack_chars (stack.dropLast
        ++ ((ts_tree_children node).reverse.take m).map
          (fun c => (⟨0, c⟩ : TSStackEntry))) ≤ tc ∧
      forest_fits ((stack.dropLast
        ++ ((ts_tree_children node).reverse.take m).map
          (fun c => (⟨0, c⟩ : TSStackEntry))).map TSStackEntry.node) = true := by
  have hdrop := stack_chars_dropLast htop
  obtain ⟨hfit1, hnode⟩ := stack_fits_dropLast htop hfit
  obtain ⟨hle, hfitc⟩ := tree_fits_children node hnode
  have hend : size_add (size_sub tc (stack_chars stack)) (ts_tree_total_size node).chars
      = tc - stack_chars stack.dropLast := by
    rw [size_sub_eq hsum htc, size_add_eq (by omega)]
    omega
  obtain ⟨m, hm, hn, hj⟩ := break_down_right_push_ends cur (ts_tree_children node).reverse
    stack.dropLast (tc - stack_chars stack.dropLast) (by omega)
  have hrev := forest_chars_reverse (ts_tree_children node)
  have htake := forest_chars_take_le (ts_tree_children node).reverse m
  refine ⟨m, by simpa using hm, by rw [hend]; exact hn, ?_, ?_, ?_⟩
  · intro j hjm
    have h1 := hj j hjm
    have h2 := forest_chars_take_mono (ts_tree_children node).reverse (Nat.le_of_lt hjm)
    rw [size_sub_eq (by omega) (by omega)] at h1
    omega
  · rw [stack_chars_entries]
    omega
  · rw [List.map_append, forest_fits_append, hfit1]
    have : List.map TSStackEntry.node (List.map (fun c => (⟨0, c⟩ : TSStackEntry))
        (List.take m (ts_tree_children node).reverse))
        = List.take m (ts_tree_children node).reverse := by
      simp [Function.comp_def]
    rw [this, forest_fits_take _ _ (by rw [forest_fits_reverse]; exact hfitc)]
    rfl

theorem break_down_right_stack_loop_null (language : TSLanguage) (state cur tc : Nat)
    (htc : tc < SIZE_MOD) (fuel : Nat) (stack : TSStack) (rss : Nat) (stack1 : TSStack)
    (hinv : rss = size_sub tc (stack_chars stack)) (hsum : stack_chars stack ≤ tc)
    (hfit : forest_fits (stack.map TSStackEntry.node) = true)
    (h : break_down_right_stack_loop language state cur fuel stack rss = some (none, stack1)) :
    stack1 = [] ∨ cur + stack_chars stack1 < tc := by
  induction fuel generalizing stack rss with
  | zero => simp [break_down_right_stack_loop] at h
  | succ fuel ih =>
    unfold break_down_right_stack_loop at h
    split at h
    · rename_i htop
      simp only [Option.some.injEq, Prod.mk.injEq, true_and] at h
      subst h
      exact Or.inl (top_node_eq_none htop)
    · rename_i node htop
      split at h
      · rename_i hgt
        simp only [Option.some.injEq, Prod.mk.injEq, true_and] at h
        subst h
        right
        rw [hinv, size_sub_eq hsum htc] at hgt
        omega
      · dsimp only at h
        split at h
        · simp at h
        · obtain ⟨m, _, hn, _, hsum1, hfit1⟩ :=
            break_down_right_push_suffix tc cur stack node htc htop hsum hfit
          rw [← hinv] at hn
          refine ih _ _ ?_ ?_ ?_ h
          · apply break_down_right_push_start
            rw [hinv, stack_chars_dropLast htop, size_add_sub_cancel]
          · rw [hn]; exact hsum1
          · rw [hn]; exact hfit1

/-- C15: for a right stack that is a suffix ending at `total_chars` (its total
chars are at most `total_chars`, and in its trees the children of a node take
no more chars than the node): when `break_down_right_stack` returns null, the
right stack is empty or its top node starts beyond the cursor. In a round of
decomposition the children pushed are the last children of the popped node, and
each of them ends beyond the cursor, its end being `total_chars` minus the
chars of what lies to its right. When the top node starts beyond the cursor on
entry, null is returned and the right stack is unchanged. -/
theorem break_down_right_stack_null (parser : TSParser)
    (htc : parser.total_chars < SIZE_MOD)
    (hsum : (ts_stack_total_tree_size parser.right_stack).chars ≤ parser.total_chars)
    (hfit : forest_fits (parser.right_stack.map TSStackEntry.node) = true) :
    (∀ parser1, break_down_right_stack parser = some (none, parser1) →
      parser1.right_stack = [] ∨
      parser.lexer.current_position.chars
        < parser.total_chars - (ts_stack_total_tree_size parser1.right_stack).chars) ∧
    (∀ (stack : TSStack) (node : TSTree), ts_stack_top_node stack = some node →
      (ts_stack_total_tree_size stack).chars ≤ parser.total_chars →
      forest_fits (stack.map TSStackEntry.node) = true →
      ∃ m, m ≤ (ts_tree_children node).length ∧
        (break_down_right_push parser.lexer.current_position.chars
            (ts_tree_children node).reverse stack.dropLast
            (size_add (size_sub parser.total_chars (ts_stack_total_tree_size stack).chars)
              (ts_tree_total_size node).chars)).1
          = stack.dropLast
            ++ ((ts_tree_children node).reverse.take m).map (fun c => ⟨0, c⟩) ∧
        ∀ j, j < m → parser.lexer.current_position.chars
          < parser.total_chars - (ts_stack_total_tree_size stack.dropLast).chars
            - forest_chars ((ts_tree_children node).reverse.take j)) ∧
    (parser.lexer.current_position.chars
        < parser.total_chars - (ts_stack_total_tree_size parser.right_stack).chars →
      break_down_right_stack parser = some (none, parser)) := by
  simp only [total_tree_size_chars] at hsum ⊢
  refine ⟨?_, ?_, ?_⟩
  · intro parser1 h
    unfold break_down_right_stack at h
    dsimp only at h
    split at h
    · simp at h
    · rename_i n stack1 hloop
      simp only [Option.some.injEq, Prod.mk.injEq] at h
      obtain ⟨hn, hp⟩ := h
      subst hn hp
      rw [total_tree_size_chars] at hloop
      rcases break_down_right_stack_loop_null _ _ _ parser.total_chars htc _ _ _ _ rfl hsum hfit
        hloop with h1 | h1
      · exact Or.inl h1
      · right
        dsimp only
        omega
  · intro stack node htop hsum1 hfit1
    obtain ⟨m, hm, hn, hj, _, _⟩ := break_down_right_push_suffix parser.total_chars
      parser.lexer.current_position.chars stack node htc htop hsum1 hfit1
    refine ⟨m, hm, hn, ?_⟩
    intro j hjm
    have := hj j hjm
    omega
  · intro hgt
    unfold break_down_right_stack
    dsimp only
    rw [total_tree_size_chars]
    have hrss : size_sub parser.total_chars (stack_chars parser.right_stack)
        = parser.total_chars - stack_chars parser.right_stack := size_sub_eq hsum htc
    unfold break_down_right_stack_loop
    cases htop : ts_stack_top_node parser.right_stack with
    | none => rfl
    | some node =>
      dsimp only
      rw [if_pos (by rw [hrss]; exact hgt)]

theorem break_down_right_stack_null_witness :
    (fx_wait_state.total_chars < SIZE_MOD ∧
      (ts_stack_total_tree_size fx_wait_state.right_stack).chars ≤ fx_wait_state.total_chars ∧
      forest_fits (fx_wait_state.right_stack.map TSStackEntry.node) = true) ∧
    fx_wait_state.lexer.current_position.chars
      < fx_wait_state.total_chars - (ts_stack_total_tree_size fx_wait_state.right_stack).chars ∧
    break_down_right_stack fx_wait_state = some (none, fx_wait_state) ∧
    (fx_wait_state.right_stack = [] ∨
      fx_wait_state.lexer.current_position.chars
        < fx_wait_state.total_chars
          - (ts_stack_total_tree_size fx_wait_state.right_stack).chars) :=
  ⟨⟨by decide, by decide, by decide⟩, by decide,
    (break_down_right_stack_null fx_wait_state (by decide) (by decide) (by decide)).2.2
      (by decide),
    (break_down_right_stack_null fx_wait_state (by decide) (by decide) (by decide)).1
      fx_wait_state rfl⟩

/-! ### State consistency of the left stack -/

theorem last_state_cons (previous : Nat) (e : TSStackEntry) (rest : TSStack) :
    last_state previous (e :: rest) = last_state e.state rest := by
  cases rest with
  | nil => simp [last_state]
  | cons e1 rest1 =>
    have h : (e1 :: rest1).getLast? = some ((e1 :: rest1).getLast (by simp)) :=
      List.getLast?_eq_getLast _ _
    simp only [last_state, List.getLast?_cons_cons, h]

theorem stack_consistent_from_append (language : TSLanguage) (previous : Nat)
    (a b : TSStack) :
    stack_consistent_from language previous (a ++ b) ↔
      stack_consistent_from language previous a ∧
      stack_consistent_from language (last_state previous a) b := by
  induction a generalizing previous with
  | nil => simp [stack_consistent_from, last_state]
  | cons e rest ih =>
    rw [List.cons_append]
    simp only [stack_consistent_from, last_state_cons]
    rw [ih, and_assoc]

theorem stack_consistent_push (language : TSLanguage) (stack : TSStack) (state : Nat)
    (node : TSTree) (h : stack_consistent language stack)
    (hstate : state = (if ts_tree_is_extra node = true then ts_stack_top_state stack
      else (get_action language (ts_stack_top_state stack) node.symbol).to_state)) :
    stack_consistent language (ts_stack_push stack state node) := by
  unfold stack_consistent ts_stack_push
  rw [stack_consistent_from_append]
  refine ⟨h, ?_, trivial⟩
  exact hstate

theorem stack_consistent_take (language : TSLanguage) (stack : TSStack) (k : Nat)
    (h : stack_consistent language stack) : stack_consistent language (stack.take k) := by
  unfold stack_consistent at h ⊢
  rw [← List.take_append_drop k stack, stack_consistent_from_append] at h
  exact h.1

theorem stack_consistent_dropLast (language : TSLanguage) (stack : TSStack)
    (h : stack_consistent language stack) : stack_consistent language stack.dropLast := by
  rw [List.dropLast_eq_take]
  exact stack_consistent_take _ _ _ h

theorem reduce_helper_stack (parser : TSParser) (symbol n : Nat) ( extra count_extra : Bool)
    (parent : TSTree) (parser1 : TSParser)
    (h : reduce_helper parser symbol n extra count_extra = some (parent, parser1)) :
    ∃ (index : Nat) (children : List TSTree),
      parent = ts_tree_make_node symbol children (parser.language.hidden_symbol_flags symbol) ∧
      parser1 = { parser with
        stack := ts_stack_push (parser.stack.take index)
          (if extra = true then ts_stack_top_state (parser.stack.take index)
            else (get_action parser.language (ts_stack_top_state (parser.stack.take index))
              symbol).to_state) parent } := by
  unfold reduce_helper at h
  dsimp only at h
  split at h
  · simp at h
  · rename_i k hk
    split at h
    · simp only [Option.some.injEq, Prod.mk.injEq] at h
      obtain ⟨h1, h2⟩ := h
      subst h1 h2
      exact ⟨_, _, rfl, rfl⟩
    · simp at h

theorem break_down_left_push_consistent (language : TSLanguage) (position : Nat)
    (children : List TSTree) (stack : TSStack) (left_end : TSLength) (i : Nat)
    (h : stack_consistent language stack) :
    stack_consistent language
      (break_down_left_push language position children stack left_end i).1 := by
  induction children generalizing stack left_end i with
  | nil => simpa [break_down_left_push] using h
  | cons child rest ih =>
    unfold break_down_left_push
    split
    · dsimp only
      apply ih
      exact stack_consistent_push _ _ _ _ h rfl
    · exact h

theorem break_down_left_stack_loop_consistent (B : TSBuiltins) (language : TSLanguage)
    (edit : TSInputEdit) (fuel : Nat) (stack right_stack : TSStack) (left_end : TSLength)
    (rss : Nat) (r : TSLength × TSStack × TSStack)
    (hinv : stack_consistent language stack)
    (h : break_down_left_stack_loop B language edit fuel stack right_stack left_end rss = some r) :
    stack_consistent language r.2.1 := by
  induction fuel generalizing stack right_stack left_end rss with
  | zero => simp [break_down_left_stack_loop] at h
  | succ fuel ih =>
    unfold break_down_left_stack_loop at h
    split at h
    · simp only [Option.some.injEq] at h
      subst h
      exact hinv
    · dsimp only at h
      split at h
      · simp only [Option.some.injEq] at h
        subst h
        exact hinv
      · refine ih _ _ _ _ ?_ h
        apply break_down_left_push_consistent
        exact stack_consistent_dropLast _ _ hinv

/-- The stack that a call of `handle_error` leaves: a prefix of the old stack
below one ERROR node. -/
theorem handle_error_stack (B : TSBuiltins) (fuel : Nat) (parser parser1 : TSParser)
    (code : Nat) (hlen : parser.stack.length + fuel < SIZE_MOD)
    (h : handle_error B fuel parser = some (code, parser1)) :
    ∃ (index rounds : Nat) (lookahead : TSTree),
      index ≤ parser.stack.length ∧ parser1.language = parser.language ∧
      parser1.stack = ts_stack_push (parser.stack.take index)
        (get_action parser.language (ts_stack_top_state (parser.stack.take index))
          B.ts_builtin_sym_error).to_state
        (reduce_error_node B parser.language
          ((parser.stack.drop index).map TSStackEntry.node ++ skipped_tokens B rounds parser)
          lookahead) := by
  unfold handle_error at h
  obtain ⟨rounds, last, lookahead, pushed, hr, hl, hlk, hst, hnodes, hlenp, hcase⟩ :=
    handle_error_loop_rounds B _ fuel parser code parser1 h
  have hlast : last.stack.length = parser.stack.length + rounds := by
    rw [hst, List.length_append, hlenp]
  rcases hcase with ⟨_, i, hu, hred⟩ | ⟨_, _, _, hred⟩
  · rw [index_before_error_succ _ (by omega)] at hu
    obtain ⟨hi, _⟩ := handle_error_unwind_found _ _ _ _ _ _ hu
    have hn0 : size_sub last.stack.length i = last.stack.length - i :=
      size_sub_eq (by omega) (by omega)
    have hn : size_sub (size_sub last.stack.length i) 1 = last.stack.length - (i + 1) := by
      rw [hn0, Nat.sub_add_eq]
      exact size_sub_eq (by omega) (by omega)
    rw [hn, reduce_error_eq B last _ lookahead hlk (by omega) (by omega)] at hred
    simp only [Option.some.injEq] at hred
    have hidx : last.stack.length - (last.stack.length - (i + 1)) = i + 1 := by omega
    have htake : last.stack.take (i + 1) = parser.stack.take (i + 1) := by
      rw [hst, List.take_append_of_le_length (by omega)]
    have hnodes1 : top_nodes last.stack (last.stack.length - (i + 1))
        = (parser.stack.drop (i + 1)).map TSStackEntry.node
          ++ skipped_tokens B rounds parser := by
      rw [top_nodes, hidx, hst, List.drop_append_of_le_length (by omega), List.map_append,
        hnodes]
    rw [hidx, htake, hnodes1, hl] at hred
    subst hred
    exact ⟨i + 1, rounds, lookahead, hi, rfl, rfl⟩
  · rw [hlast, size_sub_anchor _ _ (by omega),
      reduce_error_eq B last _ lookahead hlk (by omega) (by omega)] at hred
    simp only [Option.some.injEq] at hred
    have hidx : last.stack.length - rounds = parser.stack.length := by omega
    have htake : last.stack.take parser.stack.length = parser.stack := by
      rw [hst, List.take_left']
      rfl
    have hnodes1 : top_nodes last.stack rounds = skipped_tokens B rounds parser := by
      rw [top_nodes, hidx, hst, List.drop_left', hnodes]
      rfl
    rw [hidx, htake, hnodes1, hl] at hred
    subst hred
    refine ⟨parser.stack.length, rounds, lookahead, Nat.le_refl _, rfl, ?_⟩
    simp

theorem reduce_helper_consistent (parser : TSParser) (symbol n : Nat)
    ( extra count_extra : Bool) (parent : TSTree) (parser1 : TSParser)
    (hc : stack_consistent parser.language parser.stack)
    (h : reduce_helper parser symbol n extra count_extra = some (parent, parser1)) :
    parser1.language = parser.language ∧
    ∃ (state : Nat) (rest : TSStack), parser1.stack = ts_stack_push rest state parent ∧
      stack_consistent parser.language rest ∧ parent.symbol = symbol ∧
      ts_tree_is_extra parent = false ∧
      state = (if extra = true then ts_stack_top_state rest
        else (get_action parser.language (ts_stack_top_state rest) symbol).to_state) := by
  obtain ⟨index, children, hp, hs⟩ := reduce_helper_stack _ _ _ _ _ _ _ h
  subst hs hp
  exact ⟨rfl, _, _, rfl, stack_consistent_take _ _ _ hc, rfl, rfl, rfl⟩

/-- C17: state consistency of the left stack is kept by `shift` with the
`to_state` of the table action on a lookahead that is not extra, by
`shift_extra` under the top state, by `reduce`, `reduce_extra`,
`reduce_fragile`, `reduce_error` and `finish`, by `break_down_left_stack` with
its re-pushes, and by a complete call of `handle_error` on a stack whose size
stays representable as a `size_t`. -/
theorem driver_keeps_states_consistent (B : TSBuiltins) (parser parser1 : TSParser)
    (hc : stack_consistent parser.language parser.stack) :
    (∀ lookahead, parser.lookahead = some lookahead → ts_tree_is_extra lookahead = false →
      shift parser (get_action parser.language (ts_stack_top_state parser.stack)
        lookahead.symbol).to_state = some parser1 →
      stack_consistent parser1.language parser1.stack) ∧
    (shift_extra parser (ts_stack_top_state parser.stack) = some parser1 →
      stack_consistent parser1.language parser1.stack) ∧
    (∀ symbol n, reduce parser symbol n = some parser1 →
      stack_consistent parser1.language parser1.stack) ∧
    (∀ symbol, reduce_extra parser symbol = some parser1 →
      stack_consistent parser1.language parser1.stack) ∧
    (∀ symbol n, reduce_fragile parser symbol n = some parser1 →
      stack_consistent parser1.language parser1.stack) ∧
    (∀ n, reduce_error B parser n = some parser1 →
      stack_consistent parser1.language parser1.stack) ∧
    (∀ tree, finish B parser = some (tree, parser1) →
      stack_consistent parser1.language parser1.stack) ∧
    (∀ edit position, break_down_left_stack B parser edit = some (position, parser1) →
      stack_consistent parser1.language parser1.stack) ∧
    (∀ fuel code, parser.stack.length + fuel < SIZE_MOD →
      handle_error B fuel parser = some (code, parser1) →
      stack_consistent parser1.language parser1.stack) := by
  refine ⟨?_, ?_, ?_, ?_, ?_, ?_, ?_, ?_, ?_⟩
  · intro lookahead hla hextra h
    unfold shift at h
    rw [hla] at h
    simp only [Option.some.injEq] at h
    subst h
    exact stack_consistent_push _ _ _ _ hc (by rw [hextra]; rfl)
  · intro h
    unfold shift_extra at h
    split at h
    · simp at h
    · rename_i lookahead hla
      unfold shift at h
      simp only [Option.some.injEq] at h
      subst h
      refine stack_consistent_push _ _ _ _ hc ?_
      cases lookahead
      rfl
  · intro symbol n h
    unfold reduce at h
    simp only [Option.map_eq_some', Prod.exists] at h
    obtain ⟨parent, p1, hr, hp⟩ := h
    subst hp
    obtain ⟨hl, state, rest, hs, hrest, hsym, hex, hstate⟩ :=
      reduce_helper_consistent _ _ _ _ _ _ _ hc hr
    rw [hl, hs]
    exact stack_consistent_push _ _ _ _ hrest (by rw [hex, hstate, hsym])
  · intro symbol h
    unfold reduce_extra at h
    split at h
    · simp at h
    · rename_i reduced p1 hr
      simp only [Option.some.injEq] at h
      subst h
      obtain ⟨hl, state, rest, hs, hrest, _, _, hstate⟩ :=
        reduce_helper_consistent _ _ _ _ _ _ _ hc hr
      dsimp only
      rw [hl, hs, assign_top_node_push]
      refine stack_consistent_push _ _ _ _ hrest ?_
      rw [hstate]
      cases reduced
      rfl
  · intro symbol n h
    unfold reduce_fragile at h
    split at h
    · simp at h
    · rename_i reduced p1 hr
      simp only [Option.some.injEq] at h
      subst h
      obtain ⟨hl, state, rest, hs, hrest, hsym, hex, hstate⟩ :=
        reduce_helper_consistent _ _ _ _ _ _ _ hc hr
      dsimp only
      rw [hl, hs, assign_top_node_push]
      refine stack_consistent_push _ _ _ _ hrest ?_
      rw [hstate]
      cases reduced
      simp only [ts_tree_is_extra, TSTree.extra, TSTree.symbol] at hex hsym ⊢
      simp [ts_tree_set_fragile_left, ts_tree_set_fragile_right, ts_tree_is_extra, TSTree.extra,
        TSTree.symbol, hex, hsym]
  · intro n h
    unfold reduce_error at h
    split at h
    · simp at h
    · rename_i reduced p1 hr
      split at h
      · simp at h
      · simp only [Option.some.injEq] at h
        subst h
        obtain ⟨hl, state, rest, hs, hrest, hsym, hex, hstate⟩ :=
          reduce_helper_consistent _ _ _ _ _ _ _ hc hr
        dsimp only
        rw [hl, hs, assign_top_node_push]
        refine stack_consistent_push _ _ _ _ hrest ?_
        rw [hstate]
        cases reduced
        simp only [ts_tree_is_extra, TSTree.extra, TSTree.symbol] at hex hsym ⊢
        simp [ts_tree_set_fragile_left, ts_tree_set_fragile_right, tree_assign_size,
          ts_tree_is_extra, TSTree.extra, TSTree.symbol, hex, hsym]
  · intro tree h
    unfold finish at h
    split at h
    · simp at h
    · rename_i p1 hr
      split at h
      · simp at h
      · simp only [Option.some.injEq, Prod.mk.injEq] at h
        obtain ⟨_, hp⟩ := h
        subst hp
        unfold reduce at hr
        simp only [Option.map_eq_some', Prod.exists] at hr
        obtain ⟨parent, p2, hr2, hp2⟩ := hr
        subst hp2
        obtain ⟨hl, state, rest, hs, hrest, hsym, hex, hstate⟩ :=
          reduce_helper_consistent _ _ _ _ _ _ _ hc hr2
        rw [hl, hs]
        exact stack_consistent_push _ _ _ _ hrest (by rw [hex, hstate, hsym])
  · intro edit position h
    unfold break_down_left_stack at h
    dsimp only at h
    split at h
    · simp at h
    · rename_i le st rs hloop
      simp only [Option.some.injEq, Prod.mk.injEq] at h
      obtain ⟨_, hp⟩ := h
      subst hp
      exact break_down_left_stack_loop_consistent _ _ _ _ _ _ _ _ _ hc hloop
  · intro fuel code hlen h
    obtain ⟨index, rounds, lookahead, _, hl, hs⟩ := handle_error_stack B fuel _ _ _ hlen h
    rw [hl, hs]
    exact stack_consistent_push _ _ _ _ (stack_consistent_take _ _ _ hc) rfl

theorem driver_keeps_states_consistent_witness :
    stack_consistent (fx_error_state [3]).language (fx_error_state [3]).stack ∧
    (fx_error_state [3]).stack.length + 3 < SIZE_MOD ∧
    handle_error fx_builtins 3 (fx_error_state [3])
      = some (1, handle_error_result fx_builtins 3 (fx_error_state [3])) ∧
    stack_consistent (handle_error_result fx_builtins 3 (fx_error_state [3])).language
      (handle_error_result fx_builtins 3 (fx_error_state [3])).stack :=
  ⟨⟨rfl, rfl, trivial⟩, by decide, rfl,
    (driver_keeps_states_consistent fx_builtins (fx_error_state [3])
      (handle_error_result fx_builtins 3 (fx_error_state [3]))
      ⟨rfl, rfl, trivial⟩).2.2.2.2.2.2.2.2 3 1 (by decide) rfl⟩

/-! ### Conservation of the text length -/

theorem make_node_total_chars (symbol : Nat) (children : List TSTree) ( hidden : Bool)
    (h : make_node_conserves children) :
    (ts_tree_total_size (ts_tree_make_node symbol children hidden)).chars
      = forest_chars children := by
  rw [← h]
  rfl

theorem total_size_set_extra (t : TSTree) :
    ts_tree_total_size (ts_tree_set_extra t) = ts_tree_total_size t := by
  cases t; rfl

theorem total_size_set_fragile (t : TSTree) :
    ts_tree_total_size (ts_tree_set_fragile_right (ts_tree_set_fragile_left t))
      = ts_tree_total_size t := by
  cases t; rfl

theorem total_chars_assign_size (v : TSLength) (t : TSTree) :
    (ts_tree_total_size (tree_assign_size v t)).chars = t.padding.chars + v.chars := by
  cases t; rfl

theorem total_chars_assign_padding (v : TSLength) (t : TSTree) :
    (ts_tree_total_size (tree_assign_padding v t)).chars = v.chars + t.size.chars := by
  cases t; rfl

theorem total_chars_eq (t : TSTree) :
    (ts_tree_total_size t).chars = t.padding.chars + t.size.chars := rfl

theorem forest_chars_top_nodes (stack : TSStack) (k : Nat) :
    stack_chars stack
      = stack_chars (stack.take (stack.length - k)) + forest_chars (top_nodes stack k) := by
  rw [stack_chars_take_drop stack (stack.length - k), stack_chars_top_nodes]
  rfl

/-- The stack that `reduce_helper` leaves when the stack size is representable:
the parent of the top `k` nodes above the rest of the stack. -/
theorem reduce_helper_shape (parser : TSParser) (symbol n : Nat) ( extra count_extra : Bool)
    (parent : TSTree) (parser1 : TSParser) (hlen : parser.stack.length < SIZE_MOD)
    (h : reduce_helper parser symbol n extra count_extra = some (parent, parser1)) :
    ∃ (k state : Nat), k ≤ parser.stack.length ∧
      parent = ts_tree_make_node symbol (top_nodes parser.stack k)
        (parser.language.hidden_symbol_flags symbol) ∧
      parser1 = { parser with
        stack := ts_stack_push (parser.stack.take (parser.stack.length - k)) state parent } := by
  have h0 := h
  unfold reduce_helper at h
  dsimp only at h
  split at h
  · simp at h
  · rename_i k hk
    split at h
    · rename_i hle
      rw [reduce_helper_slice parser symbol n k extra count_extra hk hle hlen] at h0
      simp only [Option.some.injEq, Prod.mk.injEq] at h0
      obtain ⟨h1, h2⟩ := h0
      subst h1 h2
      exact ⟨k, _, hle, rfl, rfl⟩
    · simp at h

theorem children_set_extra (t : TSTree) :
    ts_tree_children (ts_tree_set_extra t) = ts_tree_children t := by
  cases t; rfl

theorem children_set_fragile (t : TSTree) :
    ts_tree_children (ts_tree_set_fragile_right (ts_tree_set_fragile_left t))
      = ts_tree_children t := by
  cases t; rfl

theorem children_assign_size (v : TSLength) (t : TSTree) :
    ts_tree_children (tree_assign_size v t) = ts_tree_children t := by
  cases t; rfl

theorem top_conserves_push (stack : TSStack) (state : Nat) (node : TSTree) :
    top_conserves (ts_stack_push stack state node)
      ↔ make_node_conserves (ts_tree_children node) := by
  unfold top_conserves
  rw [top_node_push]

theorem reduce_helper_chars (parser : TSParser) (symbol n : Nat) ( extra count_extra : Bool)
    (parent : TSTree) (parser1 : TSParser) (hlen : parser.stack.length < SIZE_MOD)
    (hmk : make_node_conserves (ts_tree_children parent))
    (h : reduce_helper parser symbol n extra count_extra = some (parent, parser1)) :
    ∃ (rest : TSStack) (state : Nat),
      parser1 = { parser with stack := ts_stack_push rest state parent } ∧
      stack_chars rest + (ts_tree_total_size parent).chars = stack_chars parser.stack := by
  obtain ⟨k, state, hk, hp, hs⟩ := reduce_helper_shape _ _ _ _ _ _ _ hlen h
  refine ⟨_, state, hs, ?_⟩
  rw [hp] at hmk ⊢
  have hmk1 : make_node_conserves (top_nodes parser.stack k) := hmk
  rw [make_node_total_chars _ _ _ hmk1]
  exact (forest_chars_top_nodes parser.stack k).symm

theorem reduce_helper_top (parser : TSParser) (symbol n : Nat) ( extra count_extra : Bool)
    (parent : TSTree) (parser1 : TSParser) (hlen : parser.stack.length < SIZE_MOD)
    (h : reduce_helper parser symbol n extra count_extra = some (parent, parser1)) :
    ∃ (rest : TSStack) (state : Nat), parser1.stack = ts_stack_push rest state parent := by
  obtain ⟨k, state, hk, hp, hs⟩ := reduce_helper_shape _ _ _ _ _ _ _ hlen h
  exact ⟨_, state, by rw [hs]⟩

theorem conserved_iff (parser : TSParser) :
    conserved parser ↔
      stack_chars parser.stack + lookahead_chars parser.lookahead
        = parser.lexer.current_position.chars := by
  unfold conserved
  rw [total_tree_size_chars]

theorem get_next_node_chars (parser parser1 : TSParser) (lex_state : Nat) (node : TSTree)
    (hlex : lex_contract parser.language) (hadv : advance_contract parser.advance_fn)
    (h : get_next_node parser lex_state = some (node, parser1)) :
    parser1.stack = parser.stack ∧ parser1.language = parser.language ∧
    parser1.advance_fn = parser.advance_fn ∧
    parser1.lexer.current_position.chars
      = parser.lexer.current_position.chars + (ts_tree_total_size node).chars := by
  unfold get_next_node at h
  split at h
  · simp at h
  · rename_i reused p1 hb
    have heq := break_down_right_stack_eq parser p1 (some reused) hb
    simp only [Option.some.injEq, Prod.mk.injEq] at h
    obtain ⟨h1, h2⟩ := h
    subst h1 h2
    rw [heq]
    refine ⟨rfl, rfl, rfl, ?_⟩
    dsimp only
    rw [hadv _ rfl]
    simp only [ts_tree_total_size, ts_length_add]
    omega
  · rename_i p1 hb
    have heq := break_down_right_stack_eq parser p1 none hb
    simp only [Option.some.injEq, Prod.mk.injEq] at h
    obtain ⟨h1, h2⟩ := h
    subst h1 h2
    rw [heq]
    refine ⟨rfl, rfl, rfl, ?_⟩
    dsimp only
    exact hlex _ _

theorem shift_conserved (parser parser1 : TSParser) (state : Nat) (hc : conserved parser)
    (h : shift parser state = some parser1) :
    conserved parser1 ∧ parser1.language = parser.language ∧
    parser1.advance_fn = parser.advance_fn := by
  unfold shift at h
  split at h
  · simp at h
  · rename_i la hla
    simp only [Option.some.injEq] at h
    subst h
    refine ⟨?_, rfl, rfl⟩
    rw [conserved_iff] at hc ⊢
    rw [hla] at hc
    simpa [stack_chars_push, lookahead_chars] using hc

theorem shift_extra_conserved (parser parser1 : TSParser) (state : Nat) (hc : conserved parser)
    (h : shift_extra parser state = some parser1) :
    conserved parser1 ∧ parser1.language = parser.language ∧
    parser1.advance_fn = parser.advance_fn := by
  unfold shift_extra at h
  split at h
  · simp at h
  · rename_i la hla
    refine shift_conserved { parser with lookahead := some (ts_tree_set_extra la) } _ _ ?_ h
    rw [conserved_iff] at hc ⊢
    rw [hla] at hc
    simpa [lookahead_chars, total_size_set_extra] using hc

theorem reduce_conserved (parser parser1 : TSParser) (symbol n : Nat) (hc : conserved parser)
    (hlen : parser.stack.length < SIZE_MOD) (hmk : top_conserves parser1.stack)
    (h : reduce parser symbol n = some parser1) :
    conserved parser1 ∧ parser1.language = parser.language ∧
    parser1.advance_fn = parser.advance_fn := by
  unfold reduce at h
  simp only [Option.map_eq_some', Prod.exists] at h
  obtain ⟨parent, p1, hr, hp⟩ := h
  subst hp
  obtain ⟨rest0, state0, htop⟩ := reduce_helper_top _ _ _ _ _ _ _ hlen hr
  rw [htop, top_conserves_push] at hmk
  obtain ⟨rest, state, hs, hch⟩ := reduce_helper_chars _ _ _ _ _ _ _ hlen hmk hr
  subst hs
  refine ⟨?_, rfl, rfl⟩
  rw [conserved_iff] at hc ⊢
  simp only [stack_chars_push]
  omega

theorem reduce_extra_conserved (parser parser1 : TSParser) (symbol : Nat)
    (hc : conserved parser) (hlen : parser.stack.length < SIZE_MOD)
    (hmk : top_conserves parser1.stack)
    (h : reduce_extra parser symbol = some parser1) :
    conserved parser1 ∧ parser1.language = parser.language ∧
    parser1.advance_fn = parser.advance_fn := by
  unfold reduce_extra at h
  split at h
  · simp at h
  · rename_i reduced p1 hr
    simp only [Option.some.injEq] at h
    subst h
    obtain ⟨rest0, state0, htop⟩ := reduce_helper_top _ _ _ _ _ _ _ hlen hr
    dsimp only at hmk
    rw [htop, assign_top_node_push, top_conserves_push, children_set_extra] at hmk
    obtain ⟨rest, state, hs, hch⟩ := reduce_helper_chars _ _ _ _ _ _ _ hlen hmk hr
    subst hs
    refine ⟨?_, rfl, rfl⟩
    rw [conserved_iff] at hc ⊢
    simp only [assign_top_node_push, stack_chars_push, total_size_set_extra]
    omega

theorem reduce_fragile_conserved (parser parser1 : TSParser) (symbol n : Nat)
    (hc : conserved parser) (hlen : parser.stack.length < SIZE_MOD)
    (hmk : top_conserves parser1.stack)
    (h : reduce_fragile parser symbol n = some parser1) :
    conserved parser1 ∧ parser1.language = parser.language ∧
    parser1.advance_fn = parser.advance_fn := by
  unfold reduce_fragile at h
  split at h
  · simp at h
  · rename_i reduced p1 hr
    simp only [Option.some.injEq] at h
    subst h
    obtain ⟨rest0, state0, htop⟩ := reduce_helper_top _ _ _ _ _ _ _ hlen hr
    dsimp only at hmk
    rw [htop, assign_top_node_push, top_conserves_push, children_set_fragile] at hmk
    obtain ⟨rest, state, hs, hch⟩ := reduce_helper_chars _ _ _ _ _ _ _ hlen hmk hr
    subst hs
    refine ⟨?_, rfl, rfl⟩
    rw [conserved_iff] at hc ⊢
    simp only [assign_top_node_push, stack_chars_push, total_size_set_fragile]
    omega

theorem reduce_error_conserved (B : TSBuiltins) (parser parser1 : TSParser) (n : Nat)
    (hc : conserved parser) (hlen : parser.stack.length < SIZE_MOD)
    (hmk : top_conserves parser1.stack)
    (h : reduce_error B parser n = some parser1) :
    conserved parser1 ∧ parser1.language = parser.language ∧
    parser1.advance_fn = parser.advance_fn := by
  unfold reduce_error at h
  split at h
  · simp at h
  · rename_i reduced p1 hr
    obtain ⟨rest0, state0, htop⟩ := reduce_helper_top _ _ _ _ _ _ _ hlen hr
    split at h
    · simp at h
    · rename_i la hla
      simp only [Option.some.injEq] at h
      subst h
      dsimp only at hmk
      rw [htop, assign_top_node_push, top_conserves_push, children_set_fragile,
        children_assign_size] at hmk
      obtain ⟨rest, state, hs, hch⟩ := reduce_helper_chars _ _ _ _ _ _ _ hlen hmk hr
      subst hs
      refine ⟨?_, rfl, rfl⟩
      rw [conserved_iff] at hc ⊢
      dsimp only at hla
      rw [hla] at hc
      simp only [assign_top_node_push, stack_chars_push, total_size_set_fragile,
        total_chars_assign_size, lookahead_chars, total_chars_assign_padding, ts_length_add,
        ts_length_zero] at hc ⊢
      have := total_chars_eq reduced
      have := total_chars_eq la
      omega

theorem finish_eq (B : TSBuiltins) (parser : TSParser) :
    finish B parser = some (ts_tree_make_node B.ts_builtin_sym_document
      (parser.stack.map TSStackEntry.node)
      (parser.language.hidden_symbol_flags B.ts_builtin_sym_document),
      { parser with stack := [⟨(get_action parser.language 0 B.ts_builtin_sym_document).to_state,
          ts_tree_make_node B.ts_builtin_sym_document (parser.stack.map TSStackEntry.node)
            (parser.language.hidden_symbol_flags B.ts_builtin_sym_document)⟩] }) := by
  unfold finish reduce reduce_helper
  simp [reduce_count_all, size_sub_self, ts_stack_shrink, ts_stack_push, ts_stack_top_state]

theorem finish_conserved (B : TSBuiltins) (parser parser1 : TSParser) (tree : TSTree)
    (hc : conserved parser) (hmk : make_node_conserves (ts_tree_children tree))
    (h : finish B parser = some (tree, parser1)) :
    conserved parser1 ∧ parser1.language = parser.language ∧
    parser1.advance_fn = parser.advance_fn ∧
    parser1.lookahead = parser.lookahead ∧ parser1.lexer = parser.lexer ∧
    ts_tree_children tree = parser.stack.map TSStackEntry.node ∧
    (ts_tree_total_size tree).chars + lookahead_chars parser1.lookahead
      = parser1.lexer.current_position.chars := by
  rw [finish_eq] at h
  simp only [Option.some.injEq, Prod.mk.injEq] at h
  obtain ⟨h1, h2⟩ := h
  subst h1 h2
  have ht := make_node_total_chars B.ts_builtin_sym_document _
    (parser.language.hidden_symbol_flags B.ts_builtin_sym_document) hmk
  rw [conserved_iff] at hc ⊢
  have hs : forest_chars (parser.stack.map TSStackEntry.node) = stack_chars parser.stack := by
    simp [forest_chars, stack_chars, Function.comp_def]
  have hch : ts_tree_children (ts_tree_make_node B.ts_builtin_sym_document
      (parser.stack.map TSStackEntry.node)
      (parser.language.hidden_symbol_flags B.ts_builtin_sym_document))
      = parser.stack.map TSStackEntry.node := rfl
  rw [hch] at ht
  refine ⟨?_, rfl, rfl, rfl, rfl, rfl, ?_⟩
  · simp only [stack_chars, List.map_cons, List.map_nil, List.sum_cons, List.sum_nil, ht, hs]
    simp only [stack_chars] at hc
    omega
  · rw [ht, hs]
    exact hc

theorem handle_error_skip_conserved (B : TSBuiltins) (parser parser1 : TSParser)
    (hc : conserved parser) (hlex : lex_contract parser.language)
    (hadv : advance_contract parser.advance_fn)
    (h : handle_error_skip B parser = some parser1) :
    conserved parser1 ∧ parser1.language = parser.language ∧
    parser1.advance_fn = parser.advance_fn ∧
    parser1.stack.length = parser.stack.length + 1 := by
  unfold handle_error_skip at h
  split at h
  · simp at h
  · rename_i p1 hshift
    split at h
    · simp at h
    · rename_i node p2 hnext
      simp only [Option.some.injEq] at h
      subst h
      obtain ⟨hc1, hl1, ha1⟩ := shift_conserved _ _ _ hc hshift
      have hlen1 : p1.stack.length = parser.stack.length + 1 := by
        unfold shift at hshift
        split at hshift
        · simp at hshift
        · simp only [Option.some.injEq] at hshift
          subst hshift
          simp [ts_stack_push]
      have hla1 : p1.lookahead = none := by
        unfold shift at hshift
        split at hshift
        · simp at hshift
        · simp only [Option.some.injEq] at hshift
          subst hshift
          rfl
      obtain ⟨hs2, hl2, ha2, hpos⟩ := get_next_node_chars p1 p2 _ node
        (by rw [hl1]; exact hlex) (by rw [ha1]; exact hadv) hnext
      refine ⟨?_, by rw [hl2, hl1], by rw [ha2, ha1], by rw [hs2, hlen1]⟩
      rw [conserved_iff] at hc1 ⊢
      rw [hla1] at hc1
      simp only [lookahead_chars] at hc1 ⊢
      rw [hs2, hpos]
      omega

theorem handle_error_loop_conserved (B : TSBuiltins) (index_before_error : Nat)
    (code : Nat) (parser1 : TSParser) (hmk : top_conserves parser1.stack) :
    ∀ (fuel : Nat) (parser : TSParser), conserved parser → lex_contract parser.language →
      advance_contract parser.advance_fn → parser.stack.length + fuel < SIZE_MOD →
      handle_error_loop B index_before_error fuel parser = some (code, parser1) →
      conserved parser1 ∧ parser1.language = parser.language ∧
      parser1.advance_fn = parser.advance_fn := by
  intro fuel
  induction fuel with
  | zero => intro parser _ _ _ _ h; simp [handle_error_loop] at h
  | succ fuel ih =>
    intro parser hc hlex hadv hlen h
    unfold handle_error_loop at h
    split at h
    · simp at h
    · rename_i la hla
      split at h
      · simp at h
      · rename_i i hunwind
        simp only [Option.map_eq_some', Prod.mk.injEq] at h
        obtain ⟨p1, hred, _, hp⟩ := h
        subst hp
        exact reduce_error_conserved B parser p1 _ hc (by omega) hmk hred
      · split at h
        · simp at h
        · rename_i p1 hskip
          obtain ⟨hc1, hl1, ha1, hlen1⟩ := handle_error_skip_conserved B parser p1 hc hlex hadv hskip
          split at h
          · simp at h
          · rename_i la1 hla1
            split at h
            · simp only [Option.map_eq_some', Prod.mk.injEq] at h
              obtain ⟨p2, hred, _, hp⟩ := h
              subst hp
              obtain ⟨hc2, hl2, ha2⟩ := reduce_error_conserved B p1 p2 _ hc1 (by omega) hmk hred
              exact ⟨hc2, by rw [hl2, hl1], by rw [ha2, ha1]⟩
            · obtain ⟨hc2, hl2, ha2⟩ := ih p1 hc1 (by rw [hl1]; exact hlex)
                (by rw [ha1]; exact hadv) (by omega) h
              exact ⟨hc2, by rw [hl2, hl1], by rw [ha2, ha1]⟩

theorem top_node_getLast (stack : TSStack) :
    (stack.map TSStackEntry.node).getLast? = ts_stack_top_node stack := by
  simp [ts_stack_top_node, List.getLast?_map]

theorem driver_handle_error_conserved (B : TSBuiltins) (fuel : Nat) (parser : TSParser)
    (result : DriverResult) (hc : conserved parser) (hlex : lex_contract parser.language)
    (hadv : advance_contract parser.advance_fn) (hlen : parser.stack.length + fuel < SIZE_MOD)
    (hmk : result_conserves result)
    (h : driver_handle_error B fuel parser = some result) :
    conserved (driver_state result) ∧ (driver_state result).language = parser.language ∧
    (driver_state result).advance_fn = parser.advance_fn := by
  unfold driver_handle_error at h
  split at h
  · simp at h
  · rename_i code p1 hh
    unfold handle_error at hh
    split at h
    · simp only [Option.map_eq_some'] at h
      obtain ⟨⟨tree, p2⟩, hfin, hr⟩ := h
      subst hr
      obtain ⟨hmk1, hmk2⟩ := hmk
      dsimp only at hmk1 hmk2
      have hch : ts_tree_children tree = p1.stack.map TSStackEntry.node := by
        have := finish_eq B p1
        rw [hfin] at this
        simp only [Option.some.injEq, Prod.mk.injEq] at this
        rw [this.1]
        rfl
      have htop : top_conserves p1.stack := by
        unfold top_conserves
        rw [hch, top_node_getLast] at hmk2
        exact hmk2
      obtain ⟨hc1, hl1, ha1⟩ := handle_error_loop_conserved B _ code p1 htop fuel parser hc hlex
        hadv hlen hh
      obtain ⟨hc2, hl2, ha2, _⟩ := finish_conserved B p1 p2 tree hc1 hmk1 hfin
      exact ⟨hc2, by rw [← hl1]; exact hl2, by rw [← ha1]; exact ha2⟩
    · simp only [Option.some.injEq] at h
      subst h
      exact handle_error_loop_conserved B _ code p1 hmk fuel parser hc hlex hadv hlen hh

theorem driver_fetch_conserved (parser parser1 : TSParser) (hc : conserved parser)
    (hlex : lex_contract parser.language) (hadv : advance_contract parser.advance_fn)
    (h : driver_fetch parser = some parser1) :
    conserved parser1 ∧ parser1.language = parser.language ∧
    parser1.advance_fn = parser.advance_fn := by
  unfold driver_fetch at h
  split at h
  · simp only [Option.some.injEq] at h
    subst h
    exact ⟨hc, rfl, rfl⟩
  · rename_i hla
    split at h
    · simp at h
    · rename_i node p1 hnext
      simp only [Option.some.injEq] at h
      subst h
      obtain ⟨hs, hl, ha, hpos⟩ := get_next_node_chars parser p1 _ node hlex hadv hnext
      refine ⟨?_, hl, ha⟩
      rw [conserved_iff] at hc ⊢
      rw [hla] at hc
      simp only [lookahead_chars] at hc ⊢
      rw [hs, hpos]
      omega

theorem driver_act_conserved (B : TSBuiltins) (fuel : Nat) (parser : TSParser)
    (result : DriverResult) (hc : conserved parser) (hlex : lex_contract parser.language)
    (hadv : advance_contract parser.advance_fn) (hstep : step_contract B fuel parser)
    (h : driver_act B fuel parser = some result) :
    conserved (driver_state result) ∧ (driver_state result).language = parser.language ∧
    (driver_state result).advance_fn = parser.advance_fn := by
  obtain ⟨hlen, hmk⟩ := hstep
  rw [h] at hmk
  dsimp only at hmk
  have hlen0 : parser.stack.length < SIZE_MOD := by omega
  unfold driver_act at h
  split at h
  · simp at h
  · rename_i la hla
    dsimp only at h
    split at h
    · split at h
      · exact driver_handle_error_conserved B fuel parser result hc hlex hadv hlen hmk h
      · simp only [Option.map_eq_some'] at h
        obtain ⟨p1, hs, hr⟩ := h
        subst hr
        exact shift_conserved _ _ _ hc hs
    · simp only [Option.map_eq_some'] at h
      obtain ⟨p1, hs, hr⟩ := h
      subst hr
      exact shift_extra_conserved _ _ _ hc hs
    · simp only [Option.map_eq_some'] at h
      obtain ⟨p1, hs, hr⟩ := h
      subst hr
      exact reduce_conserved _ _ _ _ hc hlen0 hmk hs
    · simp only [Option.map_eq_some'] at h
      obtain ⟨p1, hs, hr⟩ := h
      subst hr
      exact reduce_extra_conserved _ _ _ hc hlen0 hmk hs
    · simp only [Option.map_eq_some'] at h
      obtain ⟨p1, hs, hr⟩ := h
      subst hr
      exact reduce_fragile_conserved _ _ _ _ hc hlen0 hmk hs
    · simp only [Option.map_eq_some'] at h
      obtain ⟨⟨tree, p1⟩, hs, hr⟩ := h
      subst hr
      obtain ⟨hc1, hl1, ha1, _⟩ := finish_conserved B parser p1 tree hc hmk.1 hs
      exact ⟨hc1, hl1, ha1⟩
    · exact driver_handle_error_conserved B fuel parser result hc hlex hadv hlen hmk h

theorem parse_begin_conserved (B : TSBuiltins) (parser parser0 : TSParser) (input : List Nat)
    (edit : Option TSInputEdit) (h : ts_parser_parse_begin B parser input edit = some parser0) :
    conserved parser0 ∧ parser0.language = parser.language ∧
    parser0.advance_fn = parser.advance_fn := by
  unfold ts_parser_parse_begin at h
  cases edit with
  | none =>
    simp only [Option.some.injEq] at h
    subst h
    refine ⟨?_, rfl, rfl⟩
    simp [conserved, ts_lexer_reset, lookahead_chars, ts_stack_shrink, ts_stack_total_tree_size,
      ts_length_zero]
  | some e =>
    dsimp only at h
    split at h
    · simp at h
    · rename_i pos p1 hb
      simp only [Option.some.injEq] at h
      subst h
      unfold break_down_left_stack at hb
      dsimp only at hb
      split at hb
      · simp at hb
      · rename_i left_end stack right_stack hr
        simp only [Option.some.injEq, Prod.mk.injEq] at hb
        obtain ⟨h1, h2⟩ := hb
        subst h1 h2
        have hend := break_down_left_stack_loop_end _ _ _ _ _ _ _ _ _
          (total_tree_size_chars parser.stack) hr
        refine ⟨?_, rfl, rfl⟩
        rw [conserved_iff]
        simp only [ts_lexer_reset, lookahead_chars]
        exact hend.symm ▸ rfl

theorem driver_done_finish (B : TSBuiltins) (fuel : Nat) (parser parser1 : TSParser)
    (tree : TSTree) (h : driver_act B fuel parser = some (DriverResult.done tree parser1)) :
    ∃ last, finish B last = some (tree, parser1) := by
  have hh : ∀ p, driver_handle_error B fuel p = some (DriverResult.done tree parser1) →
      ∃ last, finish B last = some (tree, parser1) := by
    intro p hp
    unfold driver_handle_error at hp
    split at hp
    · simp at hp
    · rename_i code p1 _
      split at hp
      · simp only [Option.map_eq_some'] at hp
        obtain ⟨⟨t, p2⟩, hfin, hr⟩ := hp
        simp only [DriverResult.done.injEq] at hr
        obtain ⟨h1, h2⟩ := hr
        subst h1 h2
        exact ⟨p1, hfin⟩
      · simp at hp
  unfold driver_act at h
  split at h
  · simp at h
  · dsimp only at h
    split at h
    · split at h
      · exact hh _ h
      · simp at h
    · simp at h
    · simp at h
    · simp at h
    · simp at h
    · simp only [Option.map_eq_some'] at h
      obtain ⟨⟨t, p2⟩, hfin, hr⟩ := h
      simp only [DriverResult.done.injEq] at hr
      obtain ⟨h1, h2⟩ := hr
      subst h1 h2
      exact ⟨parser, hfin⟩
    · exact hh _ h

theorem finish_document (B : TSBuiltins) (parser parser1 : TSParser) (tree : TSTree)
    (h : finish B parser = some (tree, parser1)) :
    tree.symbol = B.ts_builtin_sym_document ∧
    stack_chars parser1.stack = (ts_tree_total_size tree).chars := by
  rw [finish_eq] at h
  simp only [Option.some.injEq, Prod.mk.injEq] at h
  obtain ⟨h1, h2⟩ := h
  subst h1 h2
  exact ⟨rfl, by simp [stack_chars]⟩

theorem parse_loop_conserved (B : TSBuiltins) (fuel : Nat) :
    ∀ (rounds : Nat) (parser : TSParser), conserved parser → lex_contract parser.language →
      advance_contract parser.advance_fn →
      (∀ p ∈ parse_states B fuel rounds parser, step_contract B fuel p) →
      (∀ p ∈ parse_states B fuel rounds parser, conserved p ∧
        ∀ result, driver_act B fuel p = some result → conserved (driver_state result)) ∧
      ∀ tree parser1, ts_parser_parse_loop B fuel rounds parser = some (tree, parser1) →
        tree.symbol = B.ts_builtin_sym_document ∧
        (ts_tree_total_size tree).chars + lookahead_chars parser1.lookahead
          = parser1.lexer.current_position.chars := by
  intro rounds
  induction rounds with
  | zero =>
    intro parser _ _ _ _
    simp [parse_states, ts_parser_parse_loop]
  | succ rounds ih =>
    intro parser hc hlex hadv hstep
    cases hf : driver_fetch parser with
    | none => simp [parse_states, ts_parser_parse_loop, hf]
    | some p1 =>
      obtain ⟨hc1, hl1, ha1⟩ := driver_fetch_conserved parser p1 hc hlex hadv hf
      have hlex1 : lex_contract p1.language := by rw [hl1]; exact hlex
      have hadv1 : advance_contract p1.advance_fn := by rw [ha1]; exact hadv
      have hstep1 : step_contract B fuel p1 := hstep p1 (by simp [parse_states, hf])
      have hact : ∀ result, driver_act B fuel p1 = some result →
          conserved (driver_state result) := fun result hr =>
        (driver_act_conserved B fuel p1 result hc1 hlex1 hadv1 hstep1 hr).1
      cases ha : driver_act B fuel p1 with
      | none =>
        simp only [parse_states, ts_parser_parse_loop, hf, ha, List.mem_singleton]
        refine ⟨?_, by simp⟩
        intro p hp
        subst hp
        exact ⟨hc1, hact⟩
      | some result =>
        cases result with
        | done tree p2 =>
          simp only [parse_states, ts_parser_parse_loop, hf, ha, List.mem_singleton]
          refine ⟨?_, ?_⟩
          · intro p hp
            subst hp
            exact ⟨hc1, hact⟩
          · intro t q hq
            simp only [Option.some.injEq, Prod.mk.injEq] at hq
            obtain ⟨h1, h2⟩ := hq
            subst h1 h2
            obtain ⟨last, hfin⟩ := driver_done_finish B fuel p1 p2 tree ha
            obtain ⟨hsym, hch⟩ := finish_document B last p2 tree hfin
            have hc2 := hact _ ha
            simp only [driver_state] at hc2
            rw [conserved_iff, hch] at hc2
            exact ⟨hsym, hc2⟩
        | next p2 =>
          obtain ⟨hc2, hl2, ha2⟩ := driver_act_conserved B fuel p1 _ hc1 hlex1 hadv1 hstep1 ha
          simp only [driver_state] at hc2 hl2 ha2
          have hrec := ih p2 hc2 (by rw [hl2]; exact hlex1) (by rw [ha2]; exact hadv1)
            (fun p hp => hstep p (by simp [parse_states, hf, ha, hp]))
          simp only [parse_states, ts_parser_parse_loop, hf, ha, List.mem_cons]
          refine ⟨?_, hrec.2⟩
          intro p hp
          rcases hp with hp | hp
          · subst hp
            exact ⟨hc1, hact⟩
          · exact hrec.1 p hp

/-! ### C12: the length of the returned tree -/

theorem fx_lex_padded_contract : lex_contract fx_padded_language := by
  intro lexer lex_state
  show (fx_lex_padded lexer lex_state).2.current_position.chars
    = lexer.current_position.chars + (ts_tree_total_size (fx_lex_padded lexer lex_state).1).chars
  unfold fx_lex_padded
  split
  · rfl
  · split
    · split
      · rfl
      · rfl
    · rfl

theorem fx_advance_contract : advance_contract fx_padded_state.advance_fn := by
  intro lexer _
  rfl

/-- C12 (amended): under the contracts of `make_node` and of the lexing function,
the total chars of the left stack plus the total chars of the buffered lookahead
are the chars of the lexer position at the head of the loop of
`ts_parser_parse`, after every fetch of a lookahead (lexed or reused) and after
every action of the driver, `handle_error` included. The returned tree is a
DOCUMENT node whose total chars are the chars of the lexer position at the
return minus the total chars of the lookahead that is still buffered: with END
buffered and the lexer position at the length of the text, the tree and END
together have the length of the text. -/
theorem parse_conserves_chars (B : TSBuiltins) (fuel : Nat) (parser parser0 : TSParser)
    (input : List Nat) (edit : Option TSInputEdit)
    (hlex : lex_contract parser.language) (hadv : advance_contract parser.advance_fn)
    (hbegin : ts_parser_parse_begin B parser input edit = some parser0)
    (hmk : ∀ p ∈ parse_states B fuel fuel parser0, step_contract B fuel p) :
    conserved parser0 ∧
    (∀ p ∈ parse_states B fuel fuel parser0, conserved p ∧
      ∀ result, driver_act B fuel p = some result → conserved (driver_state result)) ∧
    ∀ tree parser1, ts_parser_parse B fuel parser input edit = some (tree, parser1) →
      tree.symbol = B.ts_builtin_sym_document ∧
      (ts_tree_total_size tree).chars + lookahead_chars parser1.lookahead
        = parser1.lexer.current_position.chars ∧
      (end_contract B input parser1 → ∀ lookahead, parser1.lookahead = some lookahead →
        lookahead.symbol = B.ts_builtin_sym_end →
        (ts_tree_total_size tree).chars + (ts_tree_total_size lookahead).chars
          = input.length) := by
  obtain ⟨hc0, hl0, ha0⟩ := parse_begin_conserved B parser parser0 input edit hbegin
  obtain ⟨hstates, hret⟩ := parse_loop_conserved B fuel fuel parser0 hc0
    (by rw [hl0]; exact hlex) (by rw [ha0]; exact hadv) hmk
  refine ⟨hc0, hstates, ?_⟩
  intro tree parser1 h
  unfold ts_parser_parse at h
  rw [hbegin] at h
  obtain ⟨hsym, hch⟩ := hret tree parser1 h
  refine ⟨hsym, hch, ?_⟩
  intro hend lookahead hla hs
  unfold end_contract at hend
  rw [hla] at hend hch
  rw [← hend hs, ← hch]
  rfl

theorem parse_conserves_chars_witness :
    lex_contract fx_padded_state.language ∧ advance_contract fx_padded_state.advance_fn ∧
    ts_parser_parse_begin fx_builtins fx_padded_state [3, 32, 4, 3, 32] none
      = some (fx_padded_begin [3, 32, 4, 3, 32]) ∧
    (∀ p ∈ parse_states fx_builtins 5 5 (fx_padded_begin [3, 32, 4, 3, 32]),
      step_contract fx_builtins 5 p) ∧
    (ts_parser_parse fx_builtins 5 fx_padded_state [3, 32, 4, 3, 32] none).map
      (fun r => ((ts_tree_total_size r.1).chars, lookahead_chars r.2.lookahead,
        r.2.lexer.current_position.chars)) = some (4, 1, 5) ∧
    (conserved (fx_padded_begin [3, 32, 4, 3, 32]) ∧
      (∀ p ∈ parse_states fx_builtins 5 5 (fx_padded_begin [3, 32, 4, 3, 32]), conserved p ∧
        ∀ result, driver_act fx_builtins 5 p = some result → conserved (driver_state result)) ∧
      ∀ tree parser1,
        ts_parser_parse fx_builtins 5 fx_padded_state [3, 32, 4, 3, 32] none
          = some (tree, parser1) →
        tree.symbol = fx_builtins.ts_builtin_sym_document ∧
        (ts_tree_total_size tree).chars + lookahead_chars parser1.lookahead
          = parser1.lexer.current_position.chars ∧
        (end_contract fx_builtins [3, 32, 4, 3, 32] parser1 →
          ∀ lookahead, parser1.lookahead = some lookahead →
          lookahead.symbol = fx_builtins.ts_builtin_sym_end →
          (ts_tree_total_size tree).chars + (ts_tree_total_size lookahead).chars
            = [3, 32, 4, 3, 32].length)) :=
  ⟨fx_lex_padded_contract, fx_advance_contract, rfl, by decide, by decide,
    parse_conserves_chars fx_builtins 5 fx_padded_state (fx_padded_begin [3, 32, 4, 3, 32])
      [3, 32, 4, 3, 32] none fx_lex_padded_contract fx_advance_contract rfl (by decide)⟩

/-- C12 (counterexample): the text `1+2 ` ends in a space, which the lexer gives
to END as its padding. The contracts hold: every lexed token has the chars by
which the lexer position advances, `make_node` conserves the chars of the
children of every node that the driver makes, and the lexer position is at the
length of the text, 4, once END is buffered. `ts_parser_parse` accepts, and the
DOCUMENT node that it returns has 3 total chars, not 4: the padding of END
stays with the buffered lookahead. -/
theorem parse_conserves_chars_counterexample :
    lex_contract fx_padded_state.language ∧ advance_contract fx_padded_state.advance_fn ∧
    (∀ p ∈ parse_states fx_builtins 5 5 (fx_padded_begin [3, 4, 3, 32]),
      step_contract fx_builtins 5 p ∧ end_contract fx_builtins [3, 4, 3, 32] p) ∧
    (ts_parser_parse fx_builtins 5 fx_padded_state [3, 4, 3, 32] none).map
      (fun r => (r.1.symbol, (ts_tree_total_size r.1).chars, lookahead_chars r.2.lookahead,
        r.2.lexer.current_position.chars)) = some (2, 3, 1, 4) ∧
    ¬ (∀ tree parser1,
        ts_parser_parse fx_builtins 5 fx_padded_state [3, 4, 3, 32] none
          = some (tree, parser1) →
        (ts_tree_total_size tree).chars = [3, 4, 3, 32].length) := by
  refine ⟨fx_lex_padded_contract, fx_advance_contract, by decide, by decide, ?_⟩
  intro h
  cases hp : ts_parser_parse fx_builtins 5 fx_padded_state [3, 4, 3, 32] none with
  | none =>
    have hd : (ts_parser_parse fx_builtins 5 fx_padded_state [3, 4, 3, 32] none).isSome
        = true := by decide
    rw [hp] at hd
    exact absurd hd (by decide)
  | some r =>
    have hd : (ts_parser_parse fx_builtins 5 fx_padded_state [3, 4, 3, 32] none).map
        (fun r => (ts_tree_total_size r.1).chars) = some 3 := by decide
    rw [hp] at hd
    simp only [Option.map_some', Option.some.injEq] at hd
    have := h r.1 r.2 hp
    rw [hd] at this
    exact absurd this (by decide)

end TreeSitter
